import Mathlib

/-!
Shallow embedding of the `safeall-core` mirroring/backup engine
(`safeall/safeall-core/src/lib.rs`) and proofs about its change detector,
directory walker, mirroring, purge and command-dispatch logic.

Modelling conventions:
* A filesystem path (`std::path::PathBuf`) is a list of components, so Rust
  `Path::starts_with` (component-wise prefix) is `List.IsPrefix`.
* The filesystem is a flat snapshot: the set of existing directory paths plus
  the existing regular files with their data.  Symlinks are out of scope.
* `blake3` content hashes are modeled by the full byte stream itself
  (a collision-free idealization: hash equality is content equality).
* IO failures of mutating operations are driven by an explicit failure
  oracle (`FailSpec`); metadata and hash reads of files that exist in the
  snapshot always succeed, while `skip_copy` additionally takes the raw
  `Option` results of those reads so unreadable files are expressible.
* The bounded-concurrency pools (`buffer_unordered`) process each item
  independently and are modeled by sequential folds in stream order.
* `io_error` message strings are dropped from the error payloads.
-/

namespace Safeall

/-- Filesystem paths as component lists; `List.IsPrefix` matches Rust
`Path::starts_with`, which compares whole components. -/
abbrev Path := List String

/-- Rust `std::fs::FileType` restricted to what the engine distinguishes. -/
inductive FileType where
  | file
  | dir
deriving DecidableEq, Repr

/-- `FileMetaData` (lib.rs:465-471): the snapshot compared by `==`. -/
structure FileMetaData where
  modified : Option Nat
  length : Nat
  file_type : FileType
  permissions : Nat
deriving DecidableEq, Repr

/-- On-disk state of one regular file (content bytes, mtime, permission
bits); the fields `FileMetaData::try_new` and `get_hash` read. -/
structure FileData where
  content : List Nat
  modified : Option Nat
  permissions : Nat
deriving DecidableEq, Repr

/-- A flat snapshot of the filesystem: every existing directory path and
every existing regular file with its data. -/
structure Fs where
  dirs : List Path
  files : List (Path × FileData)
deriving DecidableEq, Repr

def Fs.lookupFile (fs : Fs) (p : Path) : Option FileData :=
  (fs.files.find? (fun e => decide (e.1 = p))).map Prod.snd

def Fs.isFile (fs : Fs) (p : Path) : Bool :=
  (fs.lookupFile p).isSome

def Fs.isDir (fs : Fs) (p : Path) : Bool :=
  decide (p ∈ fs.dirs)

/-- Rust `Path::exists`. -/
def Fs.pathExists (fs : Fs) (p : Path) : Bool :=
  fs.isDir p || fs.isFile p

/-- `FileMetaData::try_new` (lib.rs:474-483), on the snapshot.  A directory's
metadata only matters through its `file_type`, so its other fields are fixed
dummies; a path that exists neither way is unreadable (`None`). -/
def FileMetaData.try_new (fs : Fs) (p : Path) : Option FileMetaData :=
  match fs.lookupFile p with
  | some d => some ⟨d.modified, d.content.length, FileType.file, d.permissions⟩
  | none => if fs.isDir p then some ⟨none, 0, FileType.dir, 0⟩ else none

/-- `blake3::Hash`, idealized as the full content stream. -/
abbrev Hash := List Nat

/-- `get_hash` (lib.rs:486-497): succeeds exactly on existing regular files. -/
def get_hash (fs : Fs) (p : Path) : Option Hash :=
  (fs.lookupFile p).map FileData.content

/-- `Warning` (lib.rs:667-682). -/
inductive Warning where
  | CannotGetMetadata (source destination : Path) (copy_anyway : Bool)
  | CannotGetHash (source destination : Path) (copy_anyway : Bool)
  | CannotCopyModifiedTime (source destination : Path)
deriving DecidableEq, Repr

/-- `skip_copy` (lib.rs:744-785), deciding whether the copy of
`source_file` onto `destination_file` may be skipped.  Its inputs beyond the
two paths are the results of the filesystem queries the Rust function makes:
`destination_file.exists()`, the two `FileMetaData::try_new` calls (the Rust
code fetches the destination metadata twice; the snapshot is deterministic so
one value stands for both) and the two `get_hash` calls.  Returns the
decision together with the warnings sent to the message sink. -/
def skip_copy (source_file destination_file : Path) (destination_exists : Bool)
    (source_metadata destination_metadata : Option FileMetaData)
    (source_hash destination_hash : Option Hash) : Bool × List Warning :=
  if !destination_exists then (false, [])
  else if (destination_metadata.isNone && source_metadata.isSome)
      || (destination_metadata.isSome && source_metadata.isNone) then
    (false, [Warning.CannotGetMetadata source_file destination_file true])
  else if source_metadata ≠ destination_metadata then (false, [])
  else
    match source_hash, destination_hash with
    | some src_hash, some dest_hash =>
      if src_hash ≠ dest_hash then (false, []) else (true, [])
    | some _, none => (true, [Warning.CannotGetHash source_file destination_file true])
    | none, _ => (true, [Warning.CannotGetHash source_file destination_file true])

/-- `ReadDirType` (lib.rs:10-14). -/
inductive ReadDirType where
  | DirectoriesOnly
  | FilesOnly
deriving DecidableEq, Repr

/-- The subdirectory entries `read_dir` lists directly inside `d`:
members of the snapshot one component below `d`. -/
def childDirs (fs : Fs) (d : Path) : List Path :=
  fs.dirs.filter (fun p => decide (p.length = d.length + 1) && d.isPrefixOf p)

/-- The regular-file entries `read_dir` lists directly inside `d`. -/
def filesIn (fs : Fs) (d : Path) : List Path :=
  (fs.files.map Prod.fst).filter
    (fun p => decide (p.length = d.length + 1) && d.isPrefixOf p)

/-- Longest directory path length in the snapshot; used only to bound the
fuel of the walker recursion. -/
def maxDirLen (fs : Fs) : Nat :=
  (fs.dirs.map List.length).foldr max 0

/-- Fuel weight of one pending directory: deeper directories weigh
exponentially less, so popping a directory and enqueuing its children
strictly decreases the total queue weight. -/
def weight (fs : Fs) (d : Path) : Nat :=
  (fs.dirs.length + 1) ^ (maxDirLen fs + 1 - d.length)

def queueWeight (fs : Fs) (queue : List Path) : Nat :=
  (queue.map (weight fs)).sum

/-- The drain loop of `RecursiveReadDir::next` (lib.rs:53-114) run to
exhaustion, starting from the FIFO `next_readdirs` queue.  Popping `d` reads
its entries: in `DirectoriesOnly` mode the popped directory itself is
yielded, in `FilesOnly` mode its file entries are; its subdirectories are
pushed at the back of the queue in both modes.  The fuel argument is a
modelling artifact (the Rust loop needs no bound); `walk` supplies enough
fuel to drain any queue drawn from the snapshot. -/
def walkAux (fs : Fs) (mode : ReadDirType) : Nat → List Path → List Path
  | 0, _ => []
  | _ + 1, [] => []
  | fuel + 1, d :: rest =>
    match mode with
    | ReadDirType.DirectoriesOnly =>
        d :: walkAux fs mode fuel (rest ++ childDirs fs d)
    | ReadDirType.FilesOnly =>
        filesIn fs d ++ walkAux fs mode fuel (rest ++ childDirs fs d)

def walkFuel (fs : Fs) : Nat := queueWeight fs fs.dirs

/-- The full yield sequence of a `RecursiveReadDir` built by `try_new` on
`root` (lib.rs:34-47): construction opens `root` itself without yielding it,
so its file entries come first in `FilesOnly` mode and its subdirectories
seed the queue. -/
def walk (fs : Fs) (mode : ReadDirType) (root : Path) : List Path :=
  match mode with
  | ReadDirType.DirectoriesOnly =>
      walkAux fs mode (walkFuel fs) (childDirs fs root)
  | ReadDirType.FilesOnly =>
      filesIn fs root ++ walkAux fs mode (walkFuel fs) (childDirs fs root)

/-- `RecursiveReadDir::try_new` succeeds exactly when `read_dir root` does,
i.e. when `root` is an existing directory. -/
def try_new_ok (fs : Fs) (root : Path) : Bool := fs.isDir root

/-- Directory paths of the snapshot are closed under taking the parent:
what a real filesystem guarantees. -/
def dirsClosed (fs : Fs) : Prop :=
  ∀ p ∈ fs.dirs, p ≠ [] → p.dropLast ∈ fs.dirs

/-- Every file lives directly inside an existing directory. -/
def filesClosed (fs : Fs) : Prop :=
  ∀ p ∈ fs.files.map Prod.fst, p ≠ [] ∧ p.dropLast ∈ fs.dirs

/-- Snapshot well-formedness: what holds of any real directory tree. -/
def wellFormed (fs : Fs) : Prop :=
  fs.dirs.Nodup ∧ (fs.files.map Prod.fst).Nodup ∧ dirsClosed fs ∧
    filesClosed fs ∧ ∀ p ∈ fs.dirs, p ∉ fs.files.map Prod.fst

instance (fs : Fs) : Decidable (dirsClosed fs) := by
  unfold dirsClosed; infer_instance

instance (fs : Fs) : Decidable (filesClosed fs) := by
  unfold filesClosed; infer_instance

instance (fs : Fs) : Decidable (wellFormed fs) := by
  unfold wellFormed; infer_instance

/-- Strict incomparability of two paths: neither is a prefix of the other.
Invariant of the walker's pending queue. -/
def incomparable (p q : Path) : Prop := ¬ p <+: q ∧ ¬ q <+: p

/-- `InvariantError` (lib.rs:117-124); the `StripPrefixError` payload is
dropped. -/
inductive InvariantError where
  | CannotStripPrefixOfPath (path_root path : Path)
deriving DecidableEq, Repr

/-- `FileBackupErrorKind` (lib.rs:153-180), without the `io_error` strings;
the Rust field `to` of `CannotCopyFile` is a Lean keyword and becomes
`copy_to`. -/
inductive FileBackupErrorKind where
  | CannotCreateDestinationDir (destination : Path)
  | CannotReadDirectoryContent
  | CannotGetDirEntry (in_dir : Path)
  | DestinationForSourceDirExistsAsFile (destination : Path)
  | CannotCopyFile (copy_to : Path)
  | InvariantBroken (e : InvariantError)
  | CannotDeleteDirectory
  | CannotDeleteFile
deriving DecidableEq, Repr

/-- `ProcessPathError` (lib.rs:147-151). -/
structure ProcessPathError where
  not_processed : Option Path
  kind : FileBackupErrorKind
deriving DecidableEq, Repr

/-- `Error` (lib.rs:237-244); the Rust constructor name typo
`RootDestinatinIsNotADirectory` is kept. -/
inductive Error where
  | FileBackupErrors (errors : List ProcessPathError)
  | SourceRootPathDoesNotExist (p : Path)
  | CannotReadDirectoryContent (p : Path)
  | CannotCreateRootDestinationDir (p : Path)
  | RootDestinatinIsNotADirectory (p : Path)
deriving DecidableEq, Repr

/-- `ProgressType` (lib.rs:499-505). -/
inductive ProgressType where
  | CreatingDirectories
  | CopingFiles
  | DeletingDirs
  | DeletingFiles
deriving DecidableEq, Repr

/-- `Increment` (lib.rs:507-528). -/
inductive Increment where
  | SkippingFileNoModification (source destination : Path)
  | FileCopied (source destination : Path)
  | DirCreated (source destination : Path)
  | DestinationDirAlreadyExists (source destination : Path)
  | DeletedFile (p : Path)
  | DeletedDir (p : Path)
  | DirectoryAlreadyDeleted (p : Path)
deriving DecidableEq, Repr

/-- `Progress` (lib.rs:538-543). -/
inductive Progress where
  | Start (total : Nat) (ty : ProgressType)
  | Increment (inc : Increment)
  | End (ty : ProgressType)
deriving DecidableEq, Repr

/-- `Info` (lib.rs:613-627). -/
inductive Info where
  | CreatingDestinationDir (p : Path)
  | DestinationDirCreated (p : Path)
  | StartCopingFile (source destination : Path)
  | StartDeletingDir (p : Path)
  | StartDeletingFile (p : Path)
  | StartCreatingDir (source destination : Path)
deriving DecidableEq, Repr

/-- `Message` (lib.rs:735-742); the model returns the list of messages a run
sends instead of calling a `MessageSender`. -/
inductive Message where
  | Warning (w : Warning)
  | Info (i : Info)
  | Progress (p : Progress)
  | Error (e : ProcessPathError)
deriving DecidableEq, Repr

/-- Failure oracle for the fallible filesystem mutations: a field returning
`true` on a path means the corresponding OS call on that path fails. -/
structure FailSpec where
  create_dir : Path → Bool
  copy_file : Path → Bool
  set_modified : Path → Bool
  remove_dir_all : Path → Bool
  remove_file : Path → Bool
  create_dir_all : Path → Bool

/-- The oracle under which every OS call succeeds. -/
def noFail : FailSpec :=
  ⟨fun _ => false, fun _ => false, fun _ => false, fun _ => false,
    fun _ => false, fun _ => false⟩

/-- `tokio::fs::create_dir`: adds one directory. -/
def Fs.addDir (fs : Fs) (p : Path) : Fs := ⟨fs.dirs ++ [p], fs.files⟩

/-- Write `data` at file path `p`, replacing any previous file there. -/
def Fs.setFile (fs : Fs) (p : Path) (data : FileData) : Fs :=
  ⟨fs.dirs, fs.files.filter (fun e => decide (e.1 ≠ p)) ++ [(p, data)]⟩

/-- `tokio::fs::remove_dir_all p`: removes `p` and everything below it. -/
def Fs.removeSubtree (fs : Fs) (p : Path) : Fs :=
  ⟨fs.dirs.filter (fun q => !p.isPrefixOf q),
    fs.files.filter (fun e => !p.isPrefixOf e.1)⟩

/-- `tokio::fs::remove_file`. -/
def Fs.removeFile (fs : Fs) (p : Path) : Fs :=
  ⟨fs.dirs, fs.files.filter (fun e => decide (e.1 ≠ p))⟩

/-- `std::fs::create_dir_all p`: creates `p` together with all of its
missing ancestors. -/
def Fs.addDirAll (fs : Fs) (p : Path) : Fs :=
  ⟨fs.dirs ++ ((List.range (p.length + 1)).map p.take).filter
    (fun q => decide (q ∉ fs.dirs)), fs.files⟩

/-- `get_destination_file_path` (lib.rs:1056-1074): strip the source root
prefix from `source_path` and graft the remainder onto the destination
root. -/
def get_destination_file_path
    (destination_root source_root source_path : Path) :
    Except ProcessPathError Path :=
  if source_root.isPrefixOf source_path then
    Except.ok (destination_root ++ source_path.drop source_root.length)
  else
    Except.error ⟨some source_path,
      FileBackupErrorKind.InvariantBroken
        (InvariantError.CannotStripPrefixOfPath source_root source_path)⟩

/-- `create_single_directory_if_not_exists` (lib.rs:409-463).  The real
`create_dir` also fails when the parent directory is missing; that is the
second disjunct of the failure condition. -/
def create_single_directory_if_not_exists (fail : FailSpec)
    (source_directory_root destination_directory_root source_directory : Path)
    (fs : Fs) : Fs × List Message × Option ProcessPathError :=
  match get_destination_file_path destination_directory_root
      source_directory_root source_directory with
  | Except.error e => (fs, [], some e)
  | Except.ok new_destination_dir =>
    if fs.pathExists new_destination_dir then
      if fs.isDir new_destination_dir then
        (fs, [Message.Progress (Progress.Increment
          (Increment.DestinationDirAlreadyExists source_directory
            new_destination_dir))], none)
      else
        (fs, [], some ⟨some source_directory,
          FileBackupErrorKind.DestinationForSourceDirExistsAsFile
            new_destination_dir⟩)
    else
      let msgs := [Message.Info (Info.StartCreatingDir source_directory
        new_destination_dir)]
      if fail.create_dir new_destination_dir
          || !fs.isDir new_destination_dir.dropLast then
        (fs, msgs, some ⟨some source_directory,
          FileBackupErrorKind.CannotCreateDestinationDir new_destination_dir⟩)
      else
        (fs.addDir new_destination_dir,
          msgs ++ [Message.Progress (Progress.Increment (Increment.DirCreated
            source_directory new_destination_dir))], none)

/-- Result of the mirroring loop.  `attempted` records which yielded
directories reached `create_single_directory_if_not_exists` — observational
instrumentation of the control flow only; no decision reads it. -/
structure DirPhaseOut where
  fs : Fs
  errors : List ProcessPathError
  msgs : List Message
  attempted : List Path
deriving Repr

/-- The while-let loop of `create_all_directories_in_destination`
(lib.rs:377-402): each yielded source directory whose path starts with the
`not_processed` path of an already-collected error is skipped; the others
are attempted and may append one error. -/
def processDirs (fail : FailSpec)
    (source_directory_root destination_directory_root : Path) :
    Fs → List ProcessPathError → List Path → DirPhaseOut
  | fs, errors, [] => ⟨fs, errors, [], []⟩
  | fs, errors, source_directory :: ds =>
    if errors.any (fun e =>
        match e.not_processed with
        | some p => p.isPrefixOf source_directory
        | none => false) then
      processDirs fail source_directory_root destination_directory_root
        fs errors ds
    else
      let r := create_single_directory_if_not_exists fail
        source_directory_root destination_directory_root source_directory fs
      let out := processDirs fail source_directory_root
        destination_directory_root r.1 (errors ++ r.2.2.toList) ds
      ⟨out.fs, out.errors, r.2.1 ++ out.msgs, source_directory :: out.attempted⟩

/-- `create_all_directories_in_destination` (lib.rs:349-407).  The Rust code
walks the source twice, once to count for the progress bar and once to do
the work; on an unchanged snapshot both walks yield the same list. -/
def create_all_directories_in_destination (fail : FailSpec)
    (source_directory_root destination_directory_root : Path) (fs : Fs) :
    Except Error DirPhaseOut :=
  if !(try_new_ok fs source_directory_root) then
    Except.error (Error.CannotReadDirectoryContent source_directory_root)
  else
    let ds := walk fs ReadDirType.DirectoriesOnly source_directory_root
    let r := processDirs fail source_directory_root
      destination_directory_root fs [] ds
    Except.ok ⟨r.fs, r.errors,
      [Message.Progress (Progress.Start ds.length
        ProgressType.CreatingDirectories)] ++ r.msgs ++
        [Message.Progress (Progress.End ProgressType.CreatingDirectories)],
      r.attempted⟩

/-- `set_modified_time` (lib.rs:854-872): set the destination's mtime to the
source's when the source metadata carries one; returns whether the Rust
function returned `Some(())`. -/
def set_modified_time (fail : FailSpec)
    (source_metadata : Option FileMetaData) (destination_file : Path)
    (fs : Fs) : Fs × Bool :=
  match source_metadata with
  | some sm =>
    match sm.modified with
    | some t =>
      if fail.set_modified destination_file then (fs, false)
      else
        match fs.lookupFile destination_file with
        | some d =>
          (fs.setFile destination_file ⟨d.content, some t, d.permissions⟩,
            true)
        | none => (fs, false)
    | none => (fs, true)
  | none => (fs, true)

/-- `copy_or_skip_if_same` (lib.rs:787-852).  `tokio::fs::copy` writes the
source content, copies the permission bits and leaves a fresh, unknown
mtime on the destination (modeled `none`); it fails when the oracle says
so, when the source file is unreadable, when the destination is a
directory, or when the destination's parent directory is missing. -/
def copy_or_skip_if_same (fail : FailSpec)
    (source_file destination_file : Path) (fs : Fs) :
    Fs × List Message × Option ProcessPathError :=
  let source_metadata := FileMetaData.try_new fs source_file
  let dec := skip_copy source_file destination_file
    (fs.pathExists destination_file) source_metadata
    (FileMetaData.try_new fs destination_file)
    (get_hash fs source_file) (get_hash fs destination_file)
  let warnMsgs := dec.2.map Message.Warning
  if dec.1 then
    (fs, warnMsgs ++ [Message.Progress (Progress.Increment
      (Increment.SkippingFileNoModification source_file destination_file))],
      none)
  else
    let msgs := warnMsgs ++
      [Message.Info (Info.StartCopingFile source_file destination_file)]
    match fs.lookupFile source_file with
    | none =>
      (fs, msgs, some ⟨some source_file,
        FileBackupErrorKind.CannotCopyFile destination_file⟩)
    | some d =>
      if fail.copy_file destination_file || fs.isDir destination_file
          || !fs.isDir destination_file.dropLast then
        (fs, msgs, some ⟨some source_file,
          FileBackupErrorKind.CannotCopyFile destination_file⟩)
      else
        let fs₁ := fs.setFile destination_file
          ⟨d.content, none, d.permissions⟩
        let msgs := msgs ++ [Message.Progress (Progress.Increment
          (Increment.FileCopied source_file destination_file))]
        let r := set_modified_time fail source_metadata destination_file fs₁
        if r.2 then (r.1, msgs, none)
        else (r.1, msgs ++ [Message.Warning
          (Warning.CannotCopyModifiedTime source_file destination_file)],
          none)

/-- `backup_single_file` (lib.rs:332-347). -/
def backup_single_file (fail : FailSpec)
    (source_directory_root destination_directory_root source_file : Path)
    (fs : Fs) : Fs × List Message × Option ProcessPathError :=
  match get_destination_file_path destination_directory_root
      source_directory_root source_file with
  | Except.error e => (fs, [], some e)
  | Except.ok new_destination_file =>
    copy_or_skip_if_same fail source_file new_destination_file fs

/-- The per-file loop of `backup_all_files` (lib.rs:305-327): files under a
directory recorded as not processed are skipped without an individual
error; the bounded-concurrency pool is sequentialized in stream order. -/
def processFiles (fail : FailSpec)
    (source_directory_root destination_directory_root : Path)
    (not_existing_destination_directories : List Path) :
    Fs → List Path → Fs × List ProcessPathError × List Message
  | fs, [] => (fs, [], [])
  | fs, source_file :: restFiles =>
    if not_existing_destination_directories.any
        (fun d => d.isPrefixOf source_file) then
      processFiles fail source_directory_root destination_directory_root
        not_existing_destination_directories fs restFiles
    else
      let r := backup_single_file fail source_directory_root
        destination_directory_root source_file fs
      let out := processFiles fail source_directory_root
        destination_directory_root not_existing_destination_directories
        r.1 restFiles
      (out.1, r.2.2.toList ++ out.2.1, r.2.1 ++ out.2.2)

/-- `backup_all_files` (lib.rs:279-330). -/
def backup_all_files (fail : FailSpec)
    (source_directory_root destination_directory_root : Path)
    (not_existing_destination_directories : List Path) (fs : Fs) :
    Except Error (Fs × List ProcessPathError × List Message) :=
  if !(try_new_ok fs source_directory_root) then
    Except.error (Error.CannotReadDirectoryContent source_directory_root)
  else
    let files := walk fs ReadDirType.FilesOnly source_directory_root
    let r := processFiles fail source_directory_root
      destination_directory_root not_existing_destination_directories fs files
    Except.ok (r.1, r.2.1,
      [Message.Progress (Progress.Start files.length
        ProgressType.CopingFiles)] ++ r.2.2 ++
        [Message.Progress (Progress.End ProgressType.CopingFiles)])

/-- `backup` (lib.rs:964-998): mirror the directories, collect the
`not_processed` paths of the mirroring errors, copy the files skipping
those subtrees, and aggregate every error of both passes. -/
def backup (fail : FailSpec)
    (source_directory_root destination_directory_root : Path) (fs : Fs) :
    Fs × List Message × Except Error Unit :=
  match create_all_directories_in_destination fail source_directory_root
      destination_directory_root fs with
  | Except.error e => (fs, [], Except.error e)
  | Except.ok r₁ =>
    match backup_all_files fail source_directory_root
        destination_directory_root
        (r₁.errors.filterMap ProcessPathError.not_processed) r₁.fs with
    | Except.error e => (r₁.fs, r₁.msgs, Except.error e)
    | Except.ok r₂ =>
      (r₂.1, r₁.msgs ++ r₂.2.2,
        if (r₁.errors ++ r₂.2.1).isEmpty then Except.ok ()
        else Except.error (Error.FileBackupErrors (r₁.errors ++ r₂.2.1)))

/-- `validate_or_create_root_paths` (lib.rs:927-963).  `create_dir_all`
fails when the oracle says so or when some prefix of the destination root
already exists as a file. -/
def validate_or_create_root_paths (fail : FailSpec)
    (source_directory_root destination_directory_root : Path) (fs : Fs) :
    Fs × List Message × Except Error Unit :=
  if !fs.pathExists source_directory_root then
    (fs, [], Except.error
      (Error.SourceRootPathDoesNotExist source_directory_root))
  else if !fs.pathExists destination_directory_root then
    let msgs := [Message.Info
      (Info.CreatingDestinationDir destination_directory_root)]
    if fail.create_dir_all destination_directory_root
        || ((List.range (destination_directory_root.length + 1)).map
          destination_directory_root.take).any fs.isFile then
      (fs, msgs, Except.error (Error.CannotCreateRootDestinationDir
        destination_directory_root))
    else
      let fs₁ := fs.addDirAll destination_directory_root
      let msgs := msgs ++ [Message.Info
        (Info.DestinationDirCreated destination_directory_root)]
      if !fs₁.isDir destination_directory_root then
        (fs₁, msgs, Except.error (Error.RootDestinatinIsNotADirectory
          destination_directory_root))
      else (fs₁, msgs, Except.ok ())
  else if !fs.isDir destination_directory_root then
    (fs, [], Except.error (Error.RootDestinatinIsNotADirectory
      destination_directory_root))
  else (fs, [], Except.ok ())

/-- `path.strip_prefix(root)` as used in
`get_paths_in_destinatination_but_not_in_source` (lib.rs:884-897). -/
def strip_root (root p : Path) : Except ProcessPathError Path :=
  if root.isPrefixOf p then Except.ok (p.drop root.length)
  else Except.error ⟨some p, FileBackupErrorKind.InvariantBroken
    (InvariantError.CannotStripPrefixOfPath root p)⟩

/-- The lexicographic `PathBuf` order behind `res.sort()` (lib.rs:924): an
ancestor sorts before its descendants. -/
def pathLeb : Path → Path → Bool
  | [], _ => true
  | _ :: _, [] => false
  | x :: xs, y :: ys => if x = y then pathLeb xs ys else decide (x < y)

/-- The `and_then … try_collect` of the walk streams (lib.rs:883-918): map
the fallible strip over the yield list, stopping at the first error. -/
def try_collect (f : Path → Except ProcessPathError Path) :
    List Path → Except ProcessPathError (List Path)
  | [] => Except.ok []
  | p :: ps =>
    match f p with
    | Except.error e => Except.error e
    | Except.ok q =>
      match try_collect f ps with
      | Except.error e => Except.error e
      | Except.ok qs => Except.ok (q :: qs)

/-- Insertion step of `sortPaths`. -/
def insertSorted (le : Path → Path → Bool) (x : Path) :
    List Path → List Path
  | [] => [x]
  | y :: ys => if le x y then x :: y :: ys else y :: insertSorted le x ys

/-- `res.sort()` (lib.rs:924) modeled as insertion sort by `pathLeb`; the
claims only depend on it being a permutation. -/
def sortPaths (le : Path → Path → Bool) : List Path → List Path
  | [] => []
  | x :: xs => insertSorted le x (sortPaths le xs)

/-- `get_paths_in_destinatination_but_not_in_source` (lib.rs:874-926), the
Rust name's typo kept: strip both walks to relative paths (the source walk
is collected first, so its strip error wins), keep the destination-only
ones, map them back under the destination root, and sort.  The Rust
`HashSet` difference is modeled by membership-based list filtering. -/
def get_paths_in_destinatination_but_not_in_source (fs : Fs)
    (mode : ReadDirType) (source_root_path destination_root_path : Path) :
    Except ProcessPathError (List Path) :=
  match try_collect (strip_root source_root_path)
      (walk fs mode source_root_path) with
  | Except.error e => Except.error e
  | Except.ok source_files =>
    match try_collect (strip_root destination_root_path)
        (walk fs mode destination_root_path) with
    | Except.error e => Except.error e
    | Except.ok destination_files =>
      let res := (destination_files.filter
        (fun p => decide (p ∉ source_files))).map
        (fun p => destination_root_path ++ p)
      Except.ok (sortPaths pathLeb res)

/-- State of the sequential directory-deletion loop of
`purge_files_and_dirs_in_destination` (lib.rs:1107-1132); `deleted_dirs` is
the Rust variable of the same name. -/
structure PurgeDirsState where
  fs : Fs
  errors : List ProcessPathError
  deleted_dirs : List Path
  msgs : List Message
deriving Repr

/-- The directory-deletion loop (lib.rs:1110-1132): entries under an
already-deleted directory are reported `DirectoryAlreadyDeleted` and
skipped; the rest are removed recursively, a failure appending one
`CannotDeleteDirectory` error.  `remove_dir_all` also fails on a path that
is no longer a directory. -/
def purge_dirs_go (fail : FailSpec) :
    PurgeDirsState → List Path → PurgeDirsState
  | st, [] => st
  | st, dir :: ds =>
    if st.deleted_dirs.any (fun d => d.isPrefixOf dir) then
      purge_dirs_go fail
        { st with msgs := st.msgs ++ [Message.Progress (Progress.Increment
            (Increment.DirectoryAlreadyDeleted dir))] } ds
    else if fail.remove_dir_all dir || !st.fs.isDir dir then
      purge_dirs_go fail
        { st with
            errors := st.errors ++
              [⟨some dir, FileBackupErrorKind.CannotDeleteDirectory⟩],
            msgs := st.msgs ++
              [Message.Info (Info.StartDeletingDir dir)] } ds
    else
      purge_dirs_go fail
        { st with
            fs := st.fs.removeSubtree dir,
            deleted_dirs := st.deleted_dirs ++ [dir],
            msgs := st.msgs ++
              [Message.Info (Info.StartDeletingDir dir),
               Message.Progress (Progress.Increment
                 (Increment.DeletedDir dir))] } ds

/-- The file-deletion pass (lib.rs:1154-1174), sequentialized in stream
order: no skip check; `remove_file` fails on the oracle or on a path that
is not an existing file. -/
def purge_files_go (fail : FailSpec) :
    Fs → List Path → Fs × List ProcessPathError × List Message
  | fs, [] => (fs, [], [])
  | fs, file :: restFiles =>
    let msgs := [Message.Info (Info.StartDeletingFile file)]
    if fail.remove_file file || !fs.isFile file then
      let out := purge_files_go fail fs restFiles
      (out.1, ⟨some file, FileBackupErrorKind.CannotDeleteFile⟩ :: out.2.1,
        msgs ++ out.2.2)
    else
      let out := purge_files_go fail (fs.removeFile file) restFiles
      (out.1, out.2.1,
        msgs ++ [Message.Progress (Progress.Increment
          (Increment.DeletedFile file))] ++ out.2.2)

/-- `purge_files_and_dirs_in_destination` (lib.rs:1076-1185): delete the
destination-only directories first (fresh walkers), then recompute the
file diff on the resulting filesystem (fresh walkers again, lib.rs:1135-
1147) and delete the destination-only files; errors of both passes are
aggregated. -/
def purge_files_and_dirs_in_destination (fail : FailSpec)
    (source_root destination_root : Path) (fs : Fs) :
    Fs × List Message × Except Error Unit :=
  if !(try_new_ok fs source_root) then
    (fs, [], Except.error (Error.CannotReadDirectoryContent source_root))
  else if !(try_new_ok fs destination_root) then
    (fs, [], Except.error (Error.CannotReadDirectoryContent destination_root))
  else
    match get_paths_in_destinatination_but_not_in_source fs
        ReadDirType.DirectoriesOnly source_root destination_root with
    | Except.error e => (fs, [], Except.error (Error.FileBackupErrors [e]))
    | Except.ok dirs_to_delete =>
      let stDirs := purge_dirs_go fail ⟨fs, [], [], []⟩ dirs_to_delete
      let msgsDirs :=
        [Message.Progress (Progress.Start dirs_to_delete.length
          ProgressType.DeletingDirs)] ++ stDirs.msgs ++
          [Message.Progress (Progress.End ProgressType.DeletingDirs)]
      if !(try_new_ok stDirs.fs source_root) then
        (stDirs.fs, msgsDirs, Except.error
          (Error.CannotReadDirectoryContent source_root))
      else if !(try_new_ok stDirs.fs destination_root) then
        (stDirs.fs, msgsDirs, Except.error
          (Error.CannotReadDirectoryContent destination_root))
      else
        match get_paths_in_destinatination_but_not_in_source stDirs.fs
            ReadDirType.FilesOnly source_root destination_root with
        | Except.error e =>
          (stDirs.fs, msgsDirs, Except.error (Error.FileBackupErrors [e]))
        | Except.ok files_to_delete =>
          let rFiles := purge_files_go fail stDirs.fs files_to_delete
          let msgs := msgsDirs ++
            [Message.Progress (Progress.Start files_to_delete.length
              ProgressType.DeletingFiles)] ++ rFiles.2.2 ++
            [Message.Progress (Progress.End ProgressType.DeletingFiles)]
          if stDirs.errors.isEmpty && rFiles.2.1.isEmpty then
            (rFiles.1, msgs, Except.ok ())
          else
            (rFiles.1, msgs, Except.error
              (Error.FileBackupErrors (stDirs.errors ++ rFiles.2.1)))

/-- `Command` (lib.rs:1000-1014). -/
inductive Command where
  | Backup (source_root destination_root : Path)
  | Sync (source_root destination_root : Path)
  | Restore (source_root destination_root : Path) (delete_files : Bool)

/-- `run` (lib.rs:1016-1054): the command dispatcher.  Returns the final
filesystem, the message stream, and the overall result.  The `?` chains of
the Rust function are the explicit `match`es on the intermediate
results. -/
def run (fail : FailSpec) (commands : Command) (fs : Fs) :
    Fs × List Message × Except Error Unit :=
  match commands with
  | Command.Backup source_root destination_root =>
    let v := validate_or_create_root_paths fail source_root
      destination_root fs
    match v.2.2 with
    | Except.error e => (v.1, v.2.1, Except.error e)
    | Except.ok _ =>
      let b := backup fail source_root destination_root v.1
      (b.1, v.2.1 ++ b.2.1, b.2.2)
  | Command.Sync source_root destination_root =>
    let v := validate_or_create_root_paths fail source_root
      destination_root fs
    match v.2.2 with
    | Except.error e => (v.1, v.2.1, Except.error e)
    | Except.ok _ =>
      let b := backup fail source_root destination_root v.1
      match b.2.2 with
      | Except.error e => (b.1, v.2.1 ++ b.2.1, Except.error e)
      | Except.ok _ =>
        let pu := purge_files_and_dirs_in_destination fail source_root
          destination_root b.1
        (pu.1, v.2.1 ++ b.2.1 ++ pu.2.1, pu.2.2)
  | Command.Restore source_root destination_root delete_files =>
    let v := validate_or_create_root_paths fail source_root
      destination_root fs
    match v.2.2 with
    | Except.error e => (v.1, v.2.1, Except.error e)
    | Except.ok _ =>
      let b := backup fail destination_root source_root v.1
      match b.2.2 with
      | Except.error e => (b.1, v.2.1 ++ b.2.1, Except.error e)
      | Except.ok _ =>
        if delete_files then
          let pu := purge_files_and_dirs_in_destination fail destination_root
            source_root b.1
          (pu.1, v.2.1 ++ b.2.1 ++ pu.2.1, pu.2.2)
        else (b.1, v.2.1 ++ b.2.1, Except.ok ())

/-! Concrete sample inputs used by witnesses and counterexamples. -/

/-- A small well-formed snapshot: roots `["s"]` and `["d"]`, one source
subdirectory with a file, one top-level source file. -/
def sampleFs : Fs :=
  ⟨[[], ["s"], ["d"], ["s", "a"]],
    [(["s", "f"], ⟨[1], some 5, 6⟩), (["s", "a", "g"], ⟨[2], some 5, 6⟩)]⟩

/-- Oracle failing exactly the creation of destination directory
`["d","a"]`. -/
def failC : FailSpec :=
  ⟨fun p => decide (p = ["d", "a"]), fun _ => false, fun _ => false,
    fun _ => false, fun _ => false, fun _ => false⟩

/-- Snapshot whose source has one subdirectory to mirror and whose
destination holds one stale file the purge phase would delete. -/
def fsC2 : Fs :=
  ⟨[[], ["s"], ["d"], ["s", "a"]], [(["d", "z"], ⟨[9], some 5, 6⟩)]⟩

/-- Nothing under `d` (including `d` itself) exists in the snapshot. -/
def subtreeAbsent (fs : Fs) (d : Path) : Prop :=
  ∀ p, d <+: p → p ∉ fs.dirs ∧ fs.isFile p = false

/-- Snapshot whose destination holds a stale subdirectory with a file
inside it, plus a stale top-level file. -/
def fsC3 : Fs :=
  ⟨[[], ["s"], ["d"], ["d", "x"]],
    [(["d", "x", "w"], ⟨[7], some 5, 6⟩), (["d", "y"], ⟨[8], some 5, 6⟩)]⟩

/-- Oracle failing exactly the removal of file `["d","y"]`. -/
def failF : FailSpec :=
  ⟨fun _ => false, fun _ => false, fun _ => false, fun _ => false,
    fun p => decide (p = ["d", "y"]), fun _ => false⟩

/-- The snapshot `sampleFs` after a successful mirror of `["s"]` onto
`["d"]`: the subdirectory and both files are replicated under the
destination root. -/
def fsMirror : Fs :=
  ⟨[[], ["s"], ["d"], ["s", "a"], ["d", "a"]],
    [(["s", "f"], ⟨[1], some 5, 6⟩), (["s", "a", "g"], ⟨[2], some 5, 6⟩),
     (["d", "f"], ⟨[1], some 5, 6⟩),
     (["d", "a", "g"], ⟨[2], some 5, 6⟩)]⟩

/-- Neither root lies inside the other — the sane configuration every
command assumes implicitly; the model snapshots each phase's walk up front,
which matches the lazy Rust walkers exactly under this assumption. -/
def rootsIncomparable (src dst : Path) : Prop :=
  ¬ src <+: dst ∧ ¬ dst <+: src

instance (src dst : Path) : Decidable (rootsIncomparable src dst) := by
  unfold rootsIncomparable
  infer_instance

theorem isFile_iff_mem {fs : Fs} {p : Path} :
    fs.isFile p = true ↔ p ∈ fs.files.map Prod.fst := by
  unfold Fs.isFile Fs.lookupFile
  rw [Option.isSome_map', List.find?_isSome]
  simp only [List.mem_map, decide_eq_true_eq]

theorem childDirs_mem {fs : Fs} {d c : Path} :
    c ∈ childDirs fs d ↔ c ∈ fs.dirs ∧ c.length = d.length + 1 ∧ d <+: c := by
  unfold childDirs
  rw [List.mem_filter, Bool.and_eq_true, decide_eq_true_eq,
    List.isPrefixOf_iff_prefix]

theorem filesIn_mem {fs : Fs} {d c : Path} :
    c ∈ filesIn fs d ↔
      c ∈ fs.files.map Prod.fst ∧ c.length = d.length + 1 ∧ d <+: c := by
  unfold filesIn
  rw [List.mem_filter, Bool.and_eq_true, decide_eq_true_eq,
    List.isPrefixOf_iff_prefix]

theorem mem_le_foldr_max {x : Nat} {l : List Nat} (h : x ∈ l) :
    x ≤ l.foldr max 0 := by
  induction l with
  | nil => cases h
  | cons a tl ih =>
    rcases List.mem_cons.mp h with rfl | h
    · exact le_max_left _ _
    · exact le_trans (ih h) (le_max_right _ _)

theorem dirLen_le_maxDirLen {fs : Fs} {d : Path} (h : d ∈ fs.dirs) :
    d.length ≤ maxDirLen fs :=
  mem_le_foldr_max (List.mem_map_of_mem List.length h)

theorem weight_pos (fs : Fs) (d : Path) : 0 < weight fs d :=
  pow_pos (by omega) _

theorem queueWeight_append (fs : Fs) (a b : List Path) :
    queueWeight fs (a ++ b) = queueWeight fs a + queueWeight fs b := by
  simp [queueWeight]

theorem queueWeight_cons (fs : Fs) (d : Path) (rest : List Path) :
    queueWeight fs (d :: rest) = weight fs d + queueWeight fs rest := by
  simp [queueWeight]

theorem queueWeight_childDirs_lt (fs : Fs) (d : Path) :
    queueWeight fs (childDirs fs d) < weight fs d := by
  rcases h : childDirs fs d with _ | ⟨c, tl⟩
  · simpa [queueWeight, h] using weight_pos fs d
  · have hc : c ∈ childDirs fs d := by rw [h]; exact List.mem_cons_self _ _
    obtain ⟨hcd, hclen, -⟩ := childDirs_mem.mp hc
    have hlen : d.length + 1 ≤ maxDirLen fs := by
      have := dirLen_le_maxDirLen hcd; omega
    have hwt : ∀ x ∈ (childDirs fs d).map (weight fs),
        x ≤ (fs.dirs.length + 1) ^ (maxDirLen fs + 1 - d.length - 1) := by
      intro x hx
      obtain ⟨e, he, rfl⟩ := List.mem_map.mp hx
      obtain ⟨-, helen, -⟩ := childDirs_mem.mp he
      unfold weight
      rw [helen]
      have heq : maxDirLen fs + 1 - (d.length + 1) =
          maxDirLen fs + 1 - d.length - 1 := by omega
      rw [heq]
    have hsum := List.sum_le_card_nsmul _ _ hwt
    rw [List.length_map, smul_eq_mul] at hsum
    have hcount : (childDirs fs d).length ≤ fs.dirs.length :=
      List.length_filter_le _ _
    have hpow : (0:ℕ) <
        (fs.dirs.length + 1) ^ (maxDirLen fs + 1 - d.length - 1) :=
      pow_pos (by omega) _
    have hexp : maxDirLen fs + 1 - d.length =
        (maxDirLen fs + 1 - d.length - 1) + 1 := by omega
    unfold queueWeight weight
    rw [← h]
    calc ((childDirs fs d).map (weight fs)).sum
        ≤ (childDirs fs d).length *
            (fs.dirs.length + 1) ^ (maxDirLen fs + 1 - d.length - 1) := hsum
      _ ≤ fs.dirs.length *
            (fs.dirs.length + 1) ^ (maxDirLen fs + 1 - d.length - 1) :=
          Nat.mul_le_mul_right _ hcount
      _ < (fs.dirs.length + 1) *
            (fs.dirs.length + 1) ^ (maxDirLen fs + 1 - d.length - 1) :=
          mul_lt_mul_of_pos_right (by omega) hpow
      _ = (fs.dirs.length + 1) ^ (maxDirLen fs + 1 - d.length) := by
          rw [hexp, pow_succ]
          exact Nat.mul_comm _ _

theorem queue_nil_of_weight_eq_zero {fs : Fs} {queue : List Path}
    (h : queueWeight fs queue = 0) : queue = [] := by
  cases queue with
  | nil => rfl
  | cons d rest =>
    rw [queueWeight_cons] at h
    have := weight_pos fs d
    omega

theorem queueWeight_step (fs : Fs) (d : Path) (rest : List Path) :
    queueWeight fs (rest ++ childDirs fs d) < queueWeight fs (d :: rest) := by
  rw [queueWeight_append, queueWeight_cons]
  have := queueWeight_childDirs_lt fs d
  omega

theorem mem_dirs_take {fs : Fs} (hd : dirsClosed fs) :
    ∀ (p : Path), p ∈ fs.dirs → ∀ n, n ≤ p.length → p.take n ∈ fs.dirs := by
  intro p
  induction p using List.reverseRecOn with
  | nil =>
    intro hp n hn
    simp only [List.length_nil, Nat.le_zero] at hn
    subst hn
    simpa using hp
  | append_singleton as a ih =>
    intro hp n hn
    rcases Nat.lt_or_ge n (as ++ [a]).length with h1 | h1
    · have has : as ∈ fs.dirs := by
        have := hd _ hp (by simp)
        simpa [List.dropLast_concat] using this
      have hn' : n ≤ as.length := by
        simp only [List.length_append, List.length_cons, List.length_nil] at h1
        omega
      rw [List.take_append_of_le_length hn']
      exact ih has n hn'
    · have : n = (as ++ [a]).length := le_antisymm hn h1
      rw [this, List.take_length]
      exact hp

theorem prefix_mem_dirs {fs : Fs} (hd : dirsClosed fs) {p q : Path}
    (hp : p ∈ fs.dirs) (h : q <+: p) : q ∈ fs.dirs := by
  have := mem_dirs_take hd p hp q.length h.length_le
  obtain ⟨t, rfl⟩ := h
  simpa [List.take_left] using this

theorem length_lt_of_proper {d p : Path} (h : d <+: p) (hne : d ≠ p) :
    d.length < p.length := by
  rcases Nat.lt_or_ge d.length p.length with h1 | h1
  · exact h1
  · exact absurd (h.eq_of_length_le h1) hne

theorem prefix_take_eq {d p : Path} (h : d <+: p) :
    p.take d.length = d := by
  obtain ⟨t, rfl⟩ := h
  exact List.take_left d t

theorem take_succ_mem_childDirs {fs : Fs} (hd : dirsClosed fs) {p d : Path}
    (hp : p ∈ fs.dirs) (hpre : d <+: p) (hne : d ≠ p) :
    p.take (d.length + 1) ∈ childDirs fs d ∧ p.take (d.length + 1) <+: p := by
  have hlt : d.length + 1 ≤ p.length := length_lt_of_proper hpre hne
  refine ⟨childDirs_mem.mpr ⟨mem_dirs_take hd p hp _ hlt, ?_, ?_⟩,
    List.take_prefix _ _⟩
  · rw [List.length_take]; omega
  · have h1 : p.take d.length <+: p.take (d.length + 1) :=
      List.take_prefix_take_left p (by omega)
    rw [prefix_take_eq hpre] at h1
    exact h1

theorem dropLast_take_comm {p : Path} {k : Nat} (hk : k ≤ p.length - 1) :
    p.dropLast.take k = p.take k := by
  rw [List.dropLast_eq_take, List.take_take]
  congr 1
  omega

theorem take_succ_mem_childDirs_of_parent {fs : Fs} (hd : dirsClosed fs)
    {p d : Path} (hp : p.dropLast ∈ fs.dirs) (hpre : d <+: p)
    (hlen : d.length + 1 < p.length) :
    p.take (d.length + 1) ∈ childDirs fs d ∧ p.take (d.length + 1) <+: p ∧
      p.take (d.length + 1) ≠ p := by
  have hmem : p.take (d.length + 1) ∈ fs.dirs := by
    rw [← dropLast_take_comm (by omega)]
    refine mem_dirs_take hd _ hp _ ?_
    rw [List.length_dropLast]
    omega
  refine ⟨childDirs_mem.mpr ⟨hmem, ?_, ?_⟩, List.take_prefix _ _, ?_⟩
  · rw [List.length_take]; omega
  · have h1 : p.take d.length <+: p.take (d.length + 1) :=
      List.take_prefix_take_left p (by omega)
    rw [prefix_take_eq hpre] at h1
    exact h1
  · intro hcontra
    have := congrArg List.length hcontra
    rw [List.length_take] at this
    omega

theorem walkAux_sound {fs : Fs} {mode : ReadDirType} :
    ∀ {fuel : Nat} {queue : List Path} {p : Path},
      p ∈ walkAux fs mode fuel queue → ∃ d ∈ queue, d <+: p := by
  intro fuel
  induction fuel with
  | zero => intro queue p h; simp [walkAux] at h
  | succ fuel ih =>
    intro queue p h
    cases queue with
    | nil => simp [walkAux] at h
    | cons d rest =>
      cases mode with
      | DirectoriesOnly =>
        simp only [walkAux, List.mem_cons] at h
        rcases h with rfl | h
        · exact ⟨p, List.mem_cons_self _ _, List.prefix_refl _⟩
        · obtain ⟨q, hq, hqp⟩ := ih h
          rcases List.mem_append.mp hq with hq | hq
          · exact ⟨q, List.mem_cons_of_mem _ hq, hqp⟩
          · obtain ⟨-, -, hdq⟩ := childDirs_mem.mp hq
            exact ⟨d, List.mem_cons_self _ _, hdq.trans hqp⟩
      | FilesOnly =>
        simp only [walkAux, List.mem_append] at h
        rcases h with h | h
        · obtain ⟨-, -, hdp⟩ := filesIn_mem.mp h
          exact ⟨d, List.mem_cons_self _ _, hdp⟩
        · obtain ⟨q, hq, hqp⟩ := ih h
          rcases List.mem_append.mp hq with hq | hq
          · exact ⟨q, List.mem_cons_of_mem _ hq, hqp⟩
          · obtain ⟨-, -, hdq⟩ := childDirs_mem.mp hq
            exact ⟨d, List.mem_cons_self _ _, hdq.trans hqp⟩

theorem walkAux_files_isFile {fs : Fs} :
    ∀ {fuel : Nat} {queue : List Path} {p : Path},
      p ∈ walkAux fs ReadDirType.FilesOnly fuel queue → fs.isFile p = true := by
  intro fuel
  induction fuel with
  | zero => intro queue p h; simp [walkAux] at h
  | succ fuel ih =>
    intro queue p h
    cases queue with
    | nil => simp [walkAux] at h
    | cons d rest =>
      simp only [walkAux, List.mem_append] at h
      rcases h with h | h
      · exact isFile_iff_mem.mpr (filesIn_mem.mp h).1
      · exact ih h

theorem walkAux_dirs_mem_iff {fs : Fs} (hd : dirsClosed fs) :
    ∀ (fuel : Nat) (queue : List Path), queueWeight fs queue ≤ fuel →
      (∀ d ∈ queue, d ∈ fs.dirs) →
      ∀ p, p ∈ walkAux fs ReadDirType.DirectoriesOnly fuel queue ↔
        p ∈ fs.dirs ∧ ∃ d ∈ queue, d <+: p := by
  intro fuel
  induction fuel with
  | zero =>
    intro queue hw _ p
    have : queue = [] := queue_nil_of_weight_eq_zero (Nat.le_zero.mp hw)
    subst this
    simp [walkAux]
  | succ fuel ih =>
    intro queue hw hq p
    cases queue with
    | nil => simp [walkAux]
    | cons d rest =>
      have hd_mem : d ∈ fs.dirs := hq d (List.mem_cons_self _ _)
      have hW : queueWeight fs (rest ++ childDirs fs d) ≤ fuel := by
        have := queueWeight_step fs d rest; omega
      have hQ : ∀ q ∈ rest ++ childDirs fs d, q ∈ fs.dirs := by
        intro q hqm
        rcases List.mem_append.mp hqm with h | h
        · exact hq q (List.mem_cons_of_mem _ h)
        · exact (childDirs_mem.mp h).1
      have hstep : walkAux fs ReadDirType.DirectoriesOnly (fuel + 1)
          (d :: rest) =
          d :: walkAux fs ReadDirType.DirectoriesOnly fuel
            (rest ++ childDirs fs d) := by
        simp only [walkAux]
      rw [hstep, List.mem_cons, ih _ hW hQ]
      constructor
      · rintro (rfl | ⟨hp, q, hqm, hqp⟩)
        · exact ⟨hd_mem, p, List.mem_cons_self _ _, List.prefix_refl _⟩
        · refine ⟨hp, ?_⟩
          rcases List.mem_append.mp hqm with h | h
          · exact ⟨q, List.mem_cons_of_mem _ h, hqp⟩
          · obtain ⟨-, -, hdq⟩ := childDirs_mem.mp h
            exact ⟨d, List.mem_cons_self _ _, hdq.trans hqp⟩
      · rintro ⟨hp, q, hqm, hqp⟩
        rcases List.mem_cons.mp hqm with rfl | hqr
        · by_cases hpd : p = q
          · exact Or.inl hpd
          · right
            obtain ⟨hc_mem, hc_pre⟩ :=
              take_succ_mem_childDirs hd hp hqp (fun h => hpd h.symm)
            exact ⟨hp, p.take (q.length + 1),
              List.mem_append_right _ hc_mem, hc_pre⟩
        · exact Or.inr ⟨hp, q, List.mem_append_left _ hqr, hqp⟩

theorem walkAux_files_mem_iff {fs : Fs} (hd : dirsClosed fs)
    (hf : filesClosed fs) :
    ∀ (fuel : Nat) (queue : List Path), queueWeight fs queue ≤ fuel →
      ∀ p, p ∈ walkAux fs ReadDirType.FilesOnly fuel queue ↔
        fs.isFile p = true ∧ ∃ d ∈ queue, d <+: p ∧ d ≠ p := by
  intro fuel
  induction fuel with
  | zero =>
    intro queue hw p
    have : queue = [] := queue_nil_of_weight_eq_zero (Nat.le_zero.mp hw)
    subst this
    simp [walkAux]
  | succ fuel ih =>
    intro queue hw p
    cases queue with
    | nil => simp [walkAux]
    | cons d rest =>
      have hW : queueWeight fs (rest ++ childDirs fs d) ≤ fuel := by
        have := queueWeight_step fs d rest; omega
      have hstep : walkAux fs ReadDirType.FilesOnly (fuel + 1) (d :: rest) =
          filesIn fs d ++ walkAux fs ReadDirType.FilesOnly fuel
            (rest ++ childDirs fs d) := by
        simp only [walkAux]
      rw [hstep, List.mem_append, ih _ hW]
      constructor
      · rintro (h | ⟨hfile, q, hqm, hqp, hqne⟩)
        · obtain ⟨hmem, hlen, hdp⟩ := filesIn_mem.mp h
          refine ⟨isFile_iff_mem.mpr hmem, d, List.mem_cons_self _ _, hdp, ?_⟩
          intro hcontra
          rw [hcontra] at hlen
          omega
        · refine ⟨hfile, ?_⟩
          rcases List.mem_append.mp hqm with h | h
          · exact ⟨q, List.mem_cons_of_mem _ h, hqp, hqne⟩
          · obtain ⟨-, hqlen, hdq⟩ := childDirs_mem.mp h
            refine ⟨d, List.mem_cons_self _ _, hdq.trans hqp, ?_⟩
            intro hcontra
            have h1 := hqp.length_le
            rw [← hcontra] at h1
            omega
      · rintro ⟨hfile, q, hqm, hqp, hqne⟩
        have hpfile : p ∈ fs.files.map Prod.fst := isFile_iff_mem.mp hfile
        obtain ⟨hpnil, hpparent⟩ := hf p hpfile
        have hqlt : q.length < p.length := length_lt_of_proper hqp hqne
        rcases List.mem_cons.mp hqm with rfl | hqr
        · rcases Nat.lt_or_ge (q.length + 1) p.length with hdeep | hshallow
          · right
            obtain ⟨hc_mem, hc_pre, hc_ne⟩ :=
              take_succ_mem_childDirs_of_parent hd hpparent hqp hdeep
            exact ⟨hfile, p.take (q.length + 1),
              List.mem_append_right _ hc_mem, hc_pre, hc_ne⟩
          · left
            exact filesIn_mem.mpr ⟨hpfile, by omega, hqp⟩
        · exact Or.inr ⟨hfile, q, List.mem_append_left _ hqr, hqp, hqne⟩

theorem childDirs_sublist (fs : Fs) (d : Path) :
    (childDirs fs d).Sublist fs.dirs :=
  List.filter_sublist _

theorem childDirs_queueWeight_le (fs : Fs) (root : Path) :
    queueWeight fs (childDirs fs root) ≤ walkFuel fs := by
  unfold queueWeight walkFuel
  refine List.Sublist.sum_le_sum ((childDirs_sublist fs root).map _) ?_
  intro a _
  exact Nat.zero_le a

theorem walk_dirs_mem_iff {fs : Fs} (hd : dirsClosed fs) {root p : Path} :
    p ∈ walk fs ReadDirType.DirectoriesOnly root ↔
      p ∈ fs.dirs ∧ root <+: p ∧ p ≠ root := by
  unfold walk
  rw [walkAux_dirs_mem_iff hd _ _ (childDirs_queueWeight_le fs root)
    (fun q hq => (childDirs_mem.mp hq).1)]
  constructor
  · rintro ⟨hp, c, hcm, hcp⟩
    obtain ⟨-, hclen, hrc⟩ := childDirs_mem.mp hcm
    refine ⟨hp, hrc.trans hcp, ?_⟩
    intro hcontra
    have := hcp.length_le
    rw [hcontra] at this
    omega
  · rintro ⟨hp, hrp, hne⟩
    obtain ⟨hc_mem, hc_pre⟩ :=
      take_succ_mem_childDirs hd hp hrp (fun h => hne h.symm)
    exact ⟨hp, p.take (root.length + 1), hc_mem, hc_pre⟩

theorem walk_files_mem_iff {fs : Fs} (hd : dirsClosed fs)
    (hf : filesClosed fs) {root p : Path} :
    p ∈ walk fs ReadDirType.FilesOnly root ↔
      fs.isFile p = true ∧ root <+: p ∧ p ≠ root := by
  unfold walk
  rw [List.mem_append,
    walkAux_files_mem_iff hd hf _ _ (childDirs_queueWeight_le fs root)]
  constructor
  · rintro (h | ⟨hfile, c, hcm, hcp, hcne⟩)
    · obtain ⟨hmem, hlen, hrp⟩ := filesIn_mem.mp h
      refine ⟨isFile_iff_mem.mpr hmem, hrp, ?_⟩
      intro hcontra
      rw [hcontra] at hlen
      omega
    · obtain ⟨-, hclen, hrc⟩ := childDirs_mem.mp hcm
      have hclt := length_lt_of_proper hcp hcne
      refine ⟨hfile, hrc.trans hcp, ?_⟩
      intro hcontra
      rw [hcontra] at hclt
      omega
  · rintro ⟨hfile, hrp, hne⟩
    have hpfile : p ∈ fs.files.map Prod.fst := isFile_iff_mem.mp hfile
    obtain ⟨hpnil, hpparent⟩ := hf p hpfile
    have hrlt : root.length < p.length :=
      length_lt_of_proper hrp (fun h => hne h.symm)
    rcases Nat.lt_or_ge (root.length + 1) p.length with hdeep | hshallow
    · right
      obtain ⟨hc_mem, hc_pre, hc_ne⟩ :=
        take_succ_mem_childDirs_of_parent hd hpparent hrp hdeep
      exact ⟨hfile, p.take (root.length + 1), hc_mem, hc_pre, hc_ne⟩
    · left
      exact filesIn_mem.mpr ⟨hpfile, by omega, hrp⟩

theorem childDirs_pairwise_incomparable {fs : Fs} (hnd : fs.dirs.Nodup)
    (d : Path) : (childDirs fs d).Pairwise incomparable := by
  have hnodup : (childDirs fs d).Nodup := hnd.sublist (childDirs_sublist fs d)
  refine hnodup.imp_of_mem ?_
  intro a b ha hb hne
  obtain ⟨-, halen, -⟩ := childDirs_mem.mp ha
  obtain ⟨-, hblen, -⟩ := childDirs_mem.mp hb
  constructor
  · intro h
    exact hne (h.eq_of_length_le (by omega))
  · intro h
    exact hne (h.eq_of_length_le (by omega)).symm

theorem queue_invariant_step {fs : Fs} (hnd : fs.dirs.Nodup) {d : Path}
    {rest : List Path} (hinv : (d :: rest).Pairwise incomparable) :
    (rest ++ childDirs fs d).Pairwise incomparable := by
  rw [List.pairwise_append]
  refine ⟨hinv.of_cons, childDirs_pairwise_incomparable hnd d, ?_⟩
  intro r hr c hc
  obtain ⟨-, hclen, hdc⟩ := childDirs_mem.mp hc
  have hdr : incomparable d r := List.rel_of_pairwise_cons hinv hr
  constructor
  · intro hrc
    rcases List.prefix_or_prefix_of_prefix hrc hdc with h | h
    · exact hdr.2 h
    · exact hdr.1 h
  · intro hcr
    exact hdr.1 (hdc.trans hcr)

/-- In the walker's yield order, no later item is a proper ancestor of an
earlier one. -/
theorem walkAux_pairwise {fs : Fs} (hnd : fs.dirs.Nodup)
    (mode : ReadDirType) :
    ∀ (fuel : Nat) (queue : List Path), queue.Pairwise incomparable →
      (walkAux fs mode fuel queue).Pairwise
        (fun a b => ¬ (b <+: a ∧ b ≠ a)) := by
  intro fuel
  induction fuel with
  | zero => intro queue _; simp [walkAux]
  | succ fuel ih =>
    intro queue hinv
    cases queue with
    | nil => simp [walkAux]
    | cons d rest =>
      have hinv' := queue_invariant_step hnd hinv
      cases mode with
      | DirectoriesOnly =>
        have hstep : walkAux fs ReadDirType.DirectoriesOnly (fuel + 1)
            (d :: rest) =
            d :: walkAux fs ReadDirType.DirectoriesOnly fuel
              (rest ++ childDirs fs d) := by
          simp only [walkAux]
        rw [hstep]
        refine List.Pairwise.cons ?_ (ih _ hinv')
        intro b hb
        rintro ⟨hbd, hbnd⟩
        obtain ⟨q, hqm, hqb⟩ := walkAux_sound hb
        have hqd : q <+: d := hqb.trans hbd
        rcases List.mem_append.mp hqm with h | h
        · exact (List.rel_of_pairwise_cons hinv h).2 hqd
        · obtain ⟨-, hqlen, -⟩ := childDirs_mem.mp h
          have h1 := hqd.length_le
          have h2 := length_lt_of_proper hbd hbnd
          have h3 := hqb.length_le
          omega
      | FilesOnly =>
        have hstep : walkAux fs ReadDirType.FilesOnly (fuel + 1)
            (d :: rest) =
            filesIn fs d ++ walkAux fs ReadDirType.FilesOnly fuel
              (rest ++ childDirs fs d) := by
          simp only [walkAux]
        rw [hstep, List.pairwise_append]
        refine ⟨?_, ih _ hinv', ?_⟩
        · refine List.pairwise_of_forall_mem_list ?_
          intro a ha b hb
          obtain ⟨-, halen, -⟩ := filesIn_mem.mp ha
          obtain ⟨-, hblen, -⟩ := filesIn_mem.mp hb
          rintro ⟨hba, hbne⟩
          exact hbne (hba.eq_of_length_le (by omega))
        · intro a ha b hb
          obtain ⟨-, halen, hda⟩ := filesIn_mem.mp ha
          rintro ⟨hba, hbne⟩
          obtain ⟨q, hqm, hqb⟩ := walkAux_sound hb
          have hblen : b.length ≤ d.length := by
            have := length_lt_of_proper hba hbne
            omega
          have hbd : b <+: d := by
            have h1 : a.take b.length <+: a.take d.length :=
              List.take_prefix_take_left a hblen
            rw [prefix_take_eq hba, prefix_take_eq hda] at h1
            exact h1
          have hqd : q <+: d := hqb.trans hbd
          rcases List.mem_append.mp hqm with h | h
          · exact (List.rel_of_pairwise_cons hinv h).2 hqd
          · obtain ⟨-, hqlen, -⟩ := childDirs_mem.mp h
            have h1 := hqd.length_le
            omega

/-- Every path yielded by `walk` strictly extends the root it was built on:
helper form shared by several later proofs. -/
theorem walk_strict_descendant {fs : Fs} {mode : ReadDirType} {root p : Path}
    (h : p ∈ walk fs mode root) : root <+: p ∧ p ≠ root := by
  have base : ∀ {q : Path}, q ∈ walkAux fs mode (walkFuel fs)
      (childDirs fs root) → root <+: q ∧ q ≠ root := by
    intro q hq
    obtain ⟨c, hcm, hcq⟩ := walkAux_sound hq
    obtain ⟨-, hclen, hrc⟩ := childDirs_mem.mp hcm
    refine ⟨hrc.trans hcq, ?_⟩
    intro hcontra
    have h1 := hcq.length_le
    rw [hcontra] at h1
    omega
  cases mode with
  | DirectoriesOnly => exact base h
  | FilesOnly =>
    unfold walk at h
    rcases List.mem_append.mp h with h | h
    · obtain ⟨-, hlen, hrp⟩ := filesIn_mem.mp h
      refine ⟨hrp, ?_⟩
      intro hcontra
      rw [hcontra] at hlen
      omega
    · exact base h

/-- C1: the claim says that when metadata of both sides is readable and
equal but a content hash cannot be computed, the change detector emits
`Warning(CannotGetHash)` and decides MustCopy.  The code `skip_copy`
(lib.rs:769-784) does emit the warning — with `copy_anyway: true`, whose
display text is "We try to copy the file anyway." — but then falls through
to `return true`, i.e. it decides Skip and the file is NOT copied.  This
theorem evaluates the embedded `skip_copy` at such an input: destination
exists, both metadata readable and equal, source hash unreadable — the
result is `true` (skip) alongside the contradictory warning.  The code
contradicts its own warning message and the spec. -/
theorem skip_copy_unreadable_hash_skips :
    skip_copy ["s", "f"] ["d", "f"] true
      (some ⟨some 1, 1, FileType.file, 0⟩)
      (some ⟨some 1, 1, FileType.file, 0⟩)
      none (some [7]) =
      (true, [Warning.CannotGetHash ["s", "f"] ["d", "f"] true]) := by
  decide

/-- C5: for readable metadata and hashes on both sides, `skip_copy` decides
Skip exactly when the destination exists, the metadata snapshots (modified
time, length, file type, permission bits — the fields of `FileMetaData`,
compared by equality) agree, and the content hashes agree; in particular an
absent destination or any metadata difference yields MustCopy. -/
theorem skip_copy_skip_iff (source_file destination_file : Path)
    (destination_exists : Bool) (sm dm : FileMetaData) (sh dh : Hash) :
    (skip_copy source_file destination_file destination_exists
      (some sm) (some dm) (some sh) (some dh)).1 = true ↔
      destination_exists = true ∧ sm = dm ∧ sh = dh := by
  unfold skip_copy
  cases destination_exists with
  | false => simp
  | true =>
    by_cases h1 : sm = dm
    · subst h1
      by_cases h2 : sh = dh
      · subst h2
        simp
      · simp [h2]
    · simp [h1]

/-- C6: on any well-formed directory tree (distinct directory paths), the
walker in either mode discovers every directory before any of that
directory's descendants: in the yield sequence no later item is a proper
ancestor prefix of an earlier one, so whenever two yields are related by
the ancestor relation the ancestor was yielded first. -/
theorem walker_ancestor_yielded_first (fs : Fs) (mode : ReadDirType)
    (root : Path) (hnd : fs.dirs.Nodup) :
    (walk fs mode root).Pairwise (fun a b => ¬ (b <+: a ∧ b ≠ a)) := by
  cases mode with
  | DirectoriesOnly =>
    exact walkAux_pairwise hnd _ _ _ (childDirs_pairwise_incomparable hnd root)
  | FilesOnly =>
    unfold walk
    rw [List.pairwise_append]
    refine ⟨?_, walkAux_pairwise hnd _ _ _
      (childDirs_pairwise_incomparable hnd root), ?_⟩
    · refine List.pairwise_of_forall_mem_list ?_
      intro a ha b hb
      obtain ⟨-, halen, -⟩ := filesIn_mem.mp ha
      obtain ⟨-, hblen, -⟩ := filesIn_mem.mp hb
      rintro ⟨hba, hbne⟩
      exact hbne (hba.eq_of_length_le (by omega))
    · intro a ha b hb
      obtain ⟨-, halen, -⟩ := filesIn_mem.mp ha
      rintro ⟨hba, hbne⟩
      obtain ⟨q, hqm, hqb⟩ := walkAux_sound hb
      obtain ⟨-, hqlen, -⟩ := childDirs_mem.mp hqm
      have h1 := hqb.length_le
      have h2 := length_lt_of_proper hba hbne
      omega

/-- Witness for C6 at the sample snapshot. -/
theorem walker_ancestor_yielded_first_witness :
    sampleFs.dirs.Nodup ∧
      (walk sampleFs ReadDirType.DirectoriesOnly ["s"]).Pairwise
        (fun a b => ¬ (b <+: a ∧ b ≠ a)) :=
  ⟨by decide,
    walker_ancestor_yielded_first sampleFs ReadDirType.DirectoriesOnly ["s"]
      (by decide)⟩

/-- C10: in both modes the walker never yields the root it was constructed
with — every yielded path is a strict descendant of the root, so the purge
diff sets never contain a root itself. -/
theorem walker_never_yields_root (fs : Fs) (mode : ReadDirType)
    (root p : Path) (h : p ∈ walk fs mode root) : root <+: p ∧ p ≠ root :=
  walk_strict_descendant h

/-- Witness for C10 at the sample snapshot. -/
theorem walker_never_yields_root_witness :
    (["s"] : Path) <+: ["s", "a"] ∧ (["s", "a"] : Path) ≠ ["s"] :=
  walker_never_yields_root sampleFs ReadDirType.DirectoriesOnly ["s"]
    ["s", "a"] (by decide)

/-- C7: once the mirroring loop holds an error recording a not-processed
source path `p`, no later-yielded source directory underneath `p` reaches
`create_single_directory_if_not_exists`.  Stated for the loop `processDirs`
over an arbitrary already-collected error list and remaining yield list —
`create_all_directories_in_destination` runs this very loop, and an error
collected at any point is exactly an element of the error list of the
remaining recursion, so this covers errors arising anywhere in a run. -/
theorem mirror_skips_subtrees_of_failed_dirs (fail : FailSpec)
    (source_directory_root destination_directory_root : Path)
    (e : ProcessPathError) (p d : Path)
    (hp : e.not_processed = some p) (hpre : p <+: d) :
    ∀ (fs : Fs) (errors : List ProcessPathError) (ds : List Path),
      e ∈ errors →
      d ∉ (processDirs fail source_directory_root destination_directory_root
        fs errors ds).attempted := by
  intro fs errors ds
  induction ds generalizing fs errors with
  | nil =>
    intro he
    simp [processDirs]
  | cons hd tl ih =>
    intro he
    rw [processDirs]
    split
    · exact ih fs errors he
    · next hskip =>
      simp only [List.mem_cons, not_or]
      constructor
      · intro hcontra
        subst hcontra
        refine hskip (List.any_eq_true.mpr ⟨e, he, ?_⟩)
        rw [hp]
        exact List.isPrefixOf_iff_prefix.mpr hpre
      · exact ih _ _ (List.mem_append_left _ he)

/-- Witness for C7: an error recording `["s","x"]` as not processed makes
the loop skip the later directory `["s","x","y"]`. -/
theorem mirror_skips_subtrees_of_failed_dirs_witness :
    (["s", "x", "y"] : Path) ∉ (processDirs noFail ["s"] ["d"] sampleFs
      [⟨some ["s", "x"],
        FileBackupErrorKind.CannotCreateDestinationDir ["d", "x"]⟩]
      [["s", "x", "y"]]).attempted :=
  mirror_skips_subtrees_of_failed_dirs noFail ["s"] ["d"]
    ⟨some ["s", "x"], FileBackupErrorKind.CannotCreateDestinationDir
      ["d", "x"]⟩ ["s", "x"] ["s", "x", "y"] rfl (by decide) sampleFs _ _
    (by decide)

/-- C2 counterexample: the claim says per-path backup errors never abort a
Sync run — the purge phase still executes and the final error aggregates
both phases.  On this concrete input the backup phase collects exactly one
mirroring error; the run result is that backup error alone, and the stale
destination file `["d","z"]` (absent from the source, so the purge phase
would have deleted it) is still present afterwards: the purge phase did not
execute.  `run` for `Sync` (lib.rs:1030) propagates the backup error with
`?` before purging. -/
theorem sync_purge_skipped_on_backup_error_cex :
    (run failC (Command.Sync ["s"] ["d"]) fsC2).2.2 =
      Except.error (Error.FileBackupErrors
        [⟨some ["s", "a"],
          FileBackupErrorKind.CannotCreateDestinationDir ["d", "a"]⟩]) ∧
      (run failC (Command.Sync ["s"] ["d"]) fsC2).1.isFile ["d", "z"]
        = true :=
  ⟨rfl, rfl⟩

/-- C2 (amended): per-path errors do not abort the backup phase itself and
are aggregated into one `FileBackupErrors`; but a backup that reports any
error aborts the Sync run before the purge phase: the run returns the
backup result unchanged (same filesystem, same aggregated error) and no
purge work happens.  Only an error-free backup is followed by the purge
phase. -/
theorem sync_aborts_before_purge_on_backup_error (fail : FailSpec)
    (source_root destination_root : Path) (fs fs₀ fs₁ : Fs)
    (m₀ m₁ : List Message) (err : Error)
    (hv : validate_or_create_root_paths fail source_root destination_root fs
      = (fs₀, m₀, Except.ok ()))
    (hb : backup fail source_root destination_root fs₀
      = (fs₁, m₁, Except.error err)) :
    run fail (Command.Sync source_root destination_root) fs
      = (fs₁, m₀ ++ m₁, Except.error err) := by
  simp only [run, hv, hb]

/-- Witness for the amended C2 at the concrete counterexample input. -/
theorem sync_aborts_before_purge_on_backup_error_witness :
    run failC (Command.Sync ["s"] ["d"]) fsC2 =
      (fsC2,
        [] ++
          [Message.Progress (Progress.Start 1
            ProgressType.CreatingDirectories),
           Message.Info (Info.StartCreatingDir ["s", "a"] ["d", "a"]),
           Message.Progress (Progress.End ProgressType.CreatingDirectories),
           Message.Progress (Progress.Start 0 ProgressType.CopingFiles),
           Message.Progress (Progress.End ProgressType.CopingFiles)],
        Except.error (Error.FileBackupErrors
          [⟨some ["s", "a"],
            FileBackupErrorKind.CannotCreateDestinationDir ["d", "a"]⟩])) :=
  sync_aborts_before_purge_on_backup_error failC ["s"] ["d"] fsC2 fsC2 fsC2
    [] _ _ rfl rfl

theorem mem_removeSubtree_dirs {fs : Fs} {d p : Path} :
    p ∈ (fs.removeSubtree d).dirs ↔ p ∈ fs.dirs ∧ ¬ d <+: p := by
  unfold Fs.removeSubtree
  rw [List.mem_filter, Bool.not_eq_true']
  constructor
  · rintro ⟨h1, h2⟩
    refine ⟨h1, fun hc => ?_⟩
    rw [List.isPrefixOf_iff_prefix.mpr hc] at h2
    cases h2
  · rintro ⟨h1, h2⟩
    refine ⟨h1, ?_⟩
    cases hb : d.isPrefixOf p with
    | false => rfl
    | true => exact absurd (List.isPrefixOf_iff_prefix.mp hb) h2

theorem isFile_removeSubtree {fs : Fs} {d p : Path} :
    (fs.removeSubtree d).isFile p = true ↔
      fs.isFile p = true ∧ ¬ d <+: p := by
  rw [isFile_iff_mem, isFile_iff_mem]
  unfold Fs.removeSubtree
  simp only [List.mem_map, List.mem_filter]
  constructor
  · rintro ⟨e, ⟨he, hf⟩, rfl⟩
    rw [Bool.not_eq_true'] at hf
    refine ⟨⟨e, he, rfl⟩, fun hc => ?_⟩
    rw [List.isPrefixOf_iff_prefix.mpr hc] at hf
    cases hf
  · rintro ⟨⟨e, he, rfl⟩, hnd⟩
    refine ⟨e, ⟨he, ?_⟩, rfl⟩
    rw [Bool.not_eq_true']
    cases hb : d.isPrefixOf e.1 with
    | false => rfl
    | true => exact absurd (List.isPrefixOf_iff_prefix.mp hb) hnd

theorem subtreeAbsent_removeSubtree (fs : Fs) (d : Path) :
    subtreeAbsent (fs.removeSubtree d) d := by
  intro p hp
  refine ⟨fun hm => (mem_removeSubtree_dirs.mp hm).2 hp, ?_⟩
  cases hb : (fs.removeSubtree d).isFile p with
  | false => rfl
  | true => exact absurd hp (isFile_removeSubtree.mp hb).2

theorem subtreeAbsent_mono_removeSubtree {fs : Fs} {d q : Path}
    (h : subtreeAbsent fs d) : subtreeAbsent (fs.removeSubtree q) d := by
  intro p hp
  obtain ⟨h1, h2⟩ := h p hp
  refine ⟨fun hm => h1 (mem_removeSubtree_dirs.mp hm).1, ?_⟩
  cases hb : (fs.removeSubtree q).isFile p with
  | false => rfl
  | true =>
    rw [(isFile_removeSubtree.mp hb).1] at h2
    cases h2

theorem purge_dirs_go_deleted_absent (fail : FailSpec) :
    ∀ (ds : List Path) (st : PurgeDirsState),
      (∀ d ∈ st.deleted_dirs, subtreeAbsent st.fs d) →
      ∀ d ∈ (purge_dirs_go fail st ds).deleted_dirs,
        subtreeAbsent (purge_dirs_go fail st ds).fs d := by
  intro ds
  induction ds with
  | nil =>
    intro st h
    simpa [purge_dirs_go] using h
  | cons dir tl ih =>
    intro st h
    rw [purge_dirs_go]
    split
    · exact ih _ (by simpa using h)
    · split
      · exact ih _ (by simpa using h)
      · refine ih _ ?_
        intro d hd
        simp only at hd ⊢
        rcases List.mem_append.mp hd with hd | hd
        · exact subtreeAbsent_mono_removeSubtree (h d hd)
        · rw [List.mem_singleton] at hd
          subst hd
          exact subtreeAbsent_removeSubtree _ _

theorem purge_dirs_go_errors (fail : FailSpec) :
    ∀ (ds : List Path) (st : PurgeDirsState) (e : ProcessPathError),
      e ∈ (purge_dirs_go fail st ds).errors →
      e ∈ st.errors ∨
        e.kind = FileBackupErrorKind.CannotDeleteDirectory := by
  intro ds
  induction ds with
  | nil =>
    intro st e he
    rw [purge_dirs_go] at he
    exact Or.inl he
  | cons dir tl ih =>
    intro st e he
    rw [purge_dirs_go] at he
    split at he
    · rcases ih _ e he with h | h
      · exact Or.inl h
      · exact Or.inr h
    · split at he
      · rcases ih _ e he with h | h
        · simp only at h
          rcases List.mem_append.mp h with h | h
          · exact Or.inl h
          · rw [List.mem_singleton] at h
            subst h
            exact Or.inr rfl
        · exact Or.inr h
      · rcases ih _ e he with h | h
        · exact Or.inl h
        · exact Or.inr h

theorem purge_files_go_errors (fail : FailSpec) :
    ∀ (l : List Path) (fs : Fs) (e : ProcessPathError),
      e ∈ (purge_files_go fail fs l).2.1 →
      ∃ g ∈ l, e = ⟨some g, FileBackupErrorKind.CannotDeleteFile⟩ := by
  intro l
  induction l with
  | nil =>
    intro fs e he
    rw [purge_files_go] at he
    cases he
  | cons file tl ih =>
    intro fs e he
    rw [purge_files_go] at he
    split at he
    · simp only [List.mem_cons] at he
      rcases he with rfl | he
      · exact ⟨file, List.mem_cons_self _ _, rfl⟩
      · obtain ⟨g, hg, hge⟩ := ih _ _ he
        exact ⟨g, List.mem_cons_of_mem _ hg, hge⟩
    · obtain ⟨g, hg, hge⟩ := ih _ _ he
      exact ⟨g, List.mem_cons_of_mem _ hg, hge⟩

theorem walk_files_isFile {fs : Fs} {root p : Path}
    (h : p ∈ walk fs ReadDirType.FilesOnly root) : fs.isFile p = true := by
  unfold walk at h
  rcases List.mem_append.mp h with h | h
  · exact isFile_iff_mem.mpr (filesIn_mem.mp h).1
  · exact walkAux_files_isFile h

theorem mem_insertSorted {le : Path → Path → Bool} {x p : Path} :
    ∀ {l : List Path}, p ∈ insertSorted le x l ↔ p ∈ x :: l := by
  intro l
  induction l with
  | nil => simp [insertSorted]
  | cons y ys ih =>
    rw [insertSorted]
    split
    · rfl
    · simp only [List.mem_cons, ih, List.mem_cons]
      tauto

theorem mem_sortPaths {le : Path → Path → Bool} {p : Path} :
    ∀ {l : List Path}, p ∈ sortPaths le l ↔ p ∈ l := by
  intro l
  induction l with
  | nil => simp [sortPaths]
  | cons x xs ih =>
    rw [sortPaths, mem_insertSorted]
    simp [ih]

theorem try_collect_map {f : Path → Except ProcessPathError Path}
    {g : Path → Path} :
    ∀ {l : List Path}, (∀ p ∈ l, f p = Except.ok (g p)) →
      try_collect f l = Except.ok (l.map g) := by
  intro l
  induction l with
  | nil => intro _; rfl
  | cons p ps ih =>
    intro h
    rw [try_collect, h p (List.mem_cons_self _ _),
      ih (fun q hq => h q (List.mem_cons_of_mem _ hq))]
    rfl

theorem strip_root_ok {root p : Path} (h : root <+: p) :
    strip_root root p = Except.ok (p.drop root.length) := by
  unfold strip_root
  rw [if_pos (List.isPrefixOf_iff_prefix.mpr h)]

theorem prefix_append_drop {root p : Path} (h : root <+: p) :
    root ++ p.drop root.length = p := by
  obtain ⟨t, rfl⟩ := h
  rw [List.drop_left]

theorem get_paths_eq (fs : Fs) (mode : ReadDirType) (src dst : Path) :
    get_paths_in_destinatination_but_not_in_source fs mode src dst =
      Except.ok (sortPaths pathLeb ((((walk fs mode dst).map
        (fun p => p.drop dst.length)).filter
        (fun rel => decide (rel ∉ (walk fs mode src).map
          (fun p => p.drop src.length)))).map
        (fun rel => dst ++ rel))) := by
  unfold get_paths_in_destinatination_but_not_in_source
  rw [try_collect_map (fun p hp => strip_root_ok (walk_strict_descendant hp).1),
    try_collect_map (fun p hp => strip_root_ok (walk_strict_descendant hp).1)]

theorem get_paths_mem {fs : Fs} {mode : ReadDirType} {src dst : Path}
    {l : List Path}
    (hok : get_paths_in_destinatination_but_not_in_source fs mode src dst
      = Except.ok l) (f : Path) :
    f ∈ l ↔ f ∈ walk fs mode dst ∧
      f.drop dst.length ∉ (walk fs mode src).map
        (fun p => p.drop src.length) := by
  rw [get_paths_eq] at hok
  have hl := Except.ok.inj hok
  subst hl
  rw [mem_sortPaths, List.mem_map]
  constructor
  · rintro ⟨rel, hrel, rfl⟩
    rw [List.mem_filter] at hrel
    obtain ⟨hrelmem, hfilt⟩ := hrel
    rw [List.mem_map] at hrelmem
    obtain ⟨p, hp, rfl⟩ := hrelmem
    have hpre := (walk_strict_descendant hp).1
    rw [prefix_append_drop hpre]
    rw [decide_eq_true_eq] at hfilt
    exact ⟨hp, hfilt⟩
  · rintro ⟨hf, hnot⟩
    refine ⟨f.drop dst.length, ?_,
      prefix_append_drop (walk_strict_descendant hf).1⟩
    rw [List.mem_filter]
    exact ⟨List.mem_map_of_mem _ hf, decide_eq_true hnot⟩

/-- C3: during purge, a stale file lying under a directory already deleted
in the directory-deletion pass is never reported as a `CannotDeleteFile`
error.  The file diff is recomputed after the directory pass on the
then-current snapshot (lib.rs:1135-1147), so such a file — removed
transitively by `remove_dir_all` — is simply never enumerated, and the
file-pass errors only ever name files that still existed. -/
theorem purge_no_file_error_under_deleted_dir (fail : FailSpec)
    (source_root destination_root : Path) (fs : Fs)
    (dirs_to_delete : List Path) (d f : Path)
    (es : List ProcessPathError)
    (hdirs : get_paths_in_destinatination_but_not_in_source fs
      ReadDirType.DirectoriesOnly source_root destination_root =
      Except.ok dirs_to_delete)
    (hdel : d ∈ (purge_dirs_go fail ⟨fs, [], [], []⟩
      dirs_to_delete).deleted_dirs)
    (hunder : d <+: f)
    (herr : (purge_files_and_dirs_in_destination fail source_root
      destination_root fs).2.2 = Except.error (Error.FileBackupErrors es)) :
    ∀ e ∈ es, ¬ (e.kind = FileBackupErrorKind.CannotDeleteFile ∧
      e.not_processed = some f) := by
  intro e he
  rintro ⟨hkind, hnp⟩
  by_cases h1 : try_new_ok fs source_root = true
  case neg =>
    rw [Bool.not_eq_true] at h1
    unfold purge_files_and_dirs_in_destination at herr
    simp [h1] at herr
  by_cases h2 : try_new_ok fs destination_root = true
  case neg =>
    rw [Bool.not_eq_true] at h2
    unfold purge_files_and_dirs_in_destination at herr
    simp [h1, h2] at herr
  by_cases h3 : try_new_ok (purge_dirs_go fail ⟨fs, [], [], []⟩
      dirs_to_delete).fs source_root = true
  case neg =>
    rw [Bool.not_eq_true] at h3
    unfold purge_files_and_dirs_in_destination at herr
    simp [h1, h2, hdirs, h3] at herr
  by_cases h4 : try_new_ok (purge_dirs_go fail ⟨fs, [], [], []⟩
      dirs_to_delete).fs destination_root = true
  case neg =>
    rw [Bool.not_eq_true] at h4
    unfold purge_files_and_dirs_in_destination at herr
    simp [h1, h2, hdirs, h3, h4] at herr
  unfold purge_files_and_dirs_in_destination at herr
  rw [hdirs] at herr
  simp only [h1, h2, h3, h4, Bool.not_true, Bool.false_eq_true,
    if_false, get_paths_eq] at herr
  split at herr
  · cases herr
  · next hnonempty =>
    have hes := (Error.FileBackupErrors.inj (Except.error.inj herr)).symm
    subst hes
    rcases List.mem_append.mp he with hmem | hmem
    · rcases purge_dirs_go_errors fail _ _ _ hmem with hc | hc
      · cases hc
      · rw [hkind] at hc
        cases hc
    · obtain ⟨g, hg, hge⟩ := purge_files_go_errors fail _ _ _ hmem
      subst hge
      simp only at hnp
      have hgf := (Option.some.inj hnp).symm
      subst hgf
      have hfwalk : f ∈ walk (purge_dirs_go fail ⟨fs, [], [], []⟩
          dirs_to_delete).fs ReadDirType.FilesOnly destination_root :=
        ((get_paths_mem (get_paths_eq _ _ _ _) f).mp hg).1
      have hfile := walk_files_isFile hfwalk
      have habs := purge_dirs_go_deleted_absent fail dirs_to_delete
        ⟨fs, [], [], []⟩ (by intro d hd; cases hd) d hdel f hunder
      rw [habs.2] at hfile
      cases hfile

/-- Witness for C3: the stale directory `["d","x"]` is deleted in the
directory pass, its file `["d","x","w"]` never produces a
`CannotDeleteFile` error even though the run does report one (for the
unrelated file `["d","y"]`, whose removal the oracle fails). -/
theorem purge_no_file_error_under_deleted_dir_witness :
    ¬ ((⟨some ["d", "y"], FileBackupErrorKind.CannotDeleteFile⟩ :
        ProcessPathError).kind = FileBackupErrorKind.CannotDeleteFile ∧
      (⟨some ["d", "y"], FileBackupErrorKind.CannotDeleteFile⟩ :
        ProcessPathError).not_processed = some ["d", "x", "w"]) :=
  purge_no_file_error_under_deleted_dir failF ["s"] ["d"] fsC3
    [["d", "x"]] ["d", "x"] ["d", "x", "w"] _ rfl (by decide) (by decide)
    rfl _ (List.mem_singleton.mpr rfl)

theorem prefix_dropLast_of_length_lt {q p : Path} (h : q <+: p)
    (hlen : q.length < p.length) : q <+: p.dropLast := by
  have h1 : p.take q.length <+: p.take (p.length - 1) :=
    List.take_prefix_take_left p (by omega)
  rw [prefix_take_eq h, ← List.dropLast_eq_take] at h1
  exact h1

theorem mem_addDir_dirs {fs : Fs} {q p : Path} :
    p ∈ (fs.addDir q).dirs ↔ p ∈ fs.dirs ∨ p = q := by
  unfold Fs.addDir
  simp

theorem addDir_files (fs : Fs) (q : Path) : (fs.addDir q).files = fs.files :=
  rfl

theorem setFile_dirs (fs : Fs) (q : Path) (data : FileData) :
    (fs.setFile q data).dirs = fs.dirs := rfl

theorem removeFile_dirs (fs : Fs) (q : Path) :
    (fs.removeFile q).dirs = fs.dirs := rfl

theorem addDirAll_files (fs : Fs) (q : Path) :
    (fs.addDirAll q).files = fs.files := rfl

theorem find?_filter_keep {l : List (Path × FileData)}
    {f g : Path × FileData → Bool}
    (h : ∀ e ∈ l, g e = true → f e = true) :
    (l.filter f).find? g = l.find? g := by
  induction l with
  | nil => rfl
  | cons e tl ih =>
    have ih := ih (fun x hx => h x (List.mem_cons_of_mem _ hx))
    cases hf : f e with
    | true =>
      rw [List.filter_cons_of_pos hf]
      cases hg : g e with
      | true =>
        rw [List.find?_cons_of_pos _ hg, List.find?_cons_of_pos _ hg]
      | false =>
        rw [List.find?_cons_of_neg _ (by rw [hg]; exact Bool.false_ne_true),
          List.find?_cons_of_neg _ (by rw [hg]; exact Bool.false_ne_true), ih]
    | false =>
      rw [List.filter_cons_of_neg (by rw [hf]; exact Bool.false_ne_true)]
      have hg : g e = false := by
        cases hgv : g e with
        | false => rfl
        | true => rw [h e (List.mem_cons_self _ _) hgv] at hf; cases hf
      rw [List.find?_cons_of_neg _ (by rw [hg]; exact Bool.false_ne_true), ih]

theorem find?_filter_drop {l : List (Path × FileData)}
    {f g : Path × FileData → Bool}
    (h : ∀ e ∈ l, g e = true → f e = false) :
    (l.filter f).find? g = none := by
  rw [List.find?_eq_none]
  intro x hx hgx
  rw [List.mem_filter] at hx
  rw [h x hx.1 hgx] at hx
  cases hx.2

theorem lookupFile_setFile_self (fs : Fs) (q : Path) (data : FileData) :
    (fs.setFile q data).lookupFile q = some data := by
  unfold Fs.setFile Fs.lookupFile
  simp only
  rw [List.find?_append, find?_filter_drop (fun e _ hg => ?_), Option.none_or]
  · simp [List.find?]
  · rw [decide_eq_true_eq] at hg
    simp [hg]

theorem lookupFile_setFile_other (fs : Fs) {q p : Path} (data : FileData)
    (h : p ≠ q) : (fs.setFile q data).lookupFile p = fs.lookupFile p := by
  unfold Fs.setFile Fs.lookupFile
  simp only
  rw [List.find?_append, find?_filter_keep (fun e _ hg => ?_)]
  · have h2 : List.find? (fun e => decide (e.1 = p)) [(q, data)] = none := by
      simp [List.find?, Ne.symm h]
    rw [h2, Option.or_none]
  · rw [decide_eq_true_eq] at hg
    subst hg
    simp [h]

theorem lookupFile_removeFile_self (fs : Fs) (q : Path) :
    (fs.removeFile q).lookupFile q = none := by
  unfold Fs.removeFile Fs.lookupFile
  simp only
  rw [find?_filter_drop (fun e _ hg => ?_)]
  · rfl
  · rw [decide_eq_true_eq] at hg
    simp [hg]

theorem lookupFile_removeFile_other (fs : Fs) {q p : Path} (h : p ≠ q) :
    (fs.removeFile q).lookupFile p = fs.lookupFile p := by
  unfold Fs.removeFile Fs.lookupFile
  simp only
  rw [find?_filter_keep (fun e _ hg => ?_)]
  rw [decide_eq_true_eq] at hg
  subst hg
  simp [h]

theorem lookupFile_removeSubtree_other (fs : Fs) {d p : Path}
    (h : ¬ d <+: p) :
    (fs.removeSubtree d).lookupFile p = fs.lookupFile p := by
  unfold Fs.removeSubtree Fs.lookupFile
  simp only
  rw [find?_filter_keep (fun e _ hg => ?_)]
  rw [decide_eq_true_eq] at hg
  subst hg
  cases hb : d.isPrefixOf e.1 with
  | true => exact absurd (List.isPrefixOf_iff_prefix.mp hb) h
  | false => rfl

theorem isFile_eq_of_lookup_eq {fs₁ fs₂ : Fs} {p : Path}
    (h : fs₁.lookupFile p = fs₂.lookupFile p) :
    fs₁.isFile p = fs₂.isFile p := by
  unfold Fs.isFile
  rw [h]

theorem prefixes_of_take {q p : Path} {n : Nat} :
    p = q.take n → p <+: q :=
  fun h => h ▸ List.take_prefix n q

theorem mem_addDirAll_dirs {fs : Fs} {q p : Path} :
    p ∈ (fs.addDirAll q).dirs ↔ p ∈ fs.dirs ∨ p <+: q := by
  unfold Fs.addDirAll
  simp only [List.mem_append, List.mem_filter, List.mem_map, List.mem_range,
    decide_eq_true_eq]
  constructor
  · rintro (h | ⟨⟨n, hn, rfl⟩, hnot⟩)
    · exact Or.inl h
    · exact Or.inr (List.take_prefix n q)
  · rintro (h | h)
    · exact Or.inl h
    · by_cases hm : p ∈ fs.dirs
      · exact Or.inl hm
      · refine Or.inr ⟨⟨p.length, by have := h.length_le; omega, ?_⟩, hm⟩
        exact prefix_take_eq h

theorem map_fst_filter_ne (files : List (Path × FileData)) (q : Path) :
    (files.filter (fun e => decide (e.1 ≠ q))).map Prod.fst =
      (files.map Prod.fst).filter (fun p => decide (p ≠ q)) := by
  induction files with
  | nil => rfl
  | cons e tl ih =>
    by_cases h : e.1 = q
    · have h1 : (decide (e.1 ≠ q)) = false := by simp [h]
      simp only [List.filter_cons, List.map_cons, h1, Bool.false_eq_true,
        if_false, ih]
    · have h1 : (decide (e.1 ≠ q)) = true := by simp [h]
      simp only [List.filter_cons, List.map_cons, h1, if_true, List.map_cons,
        ih]

theorem map_fst_filter_not_pre (files : List (Path × FileData)) (d : Path) :
    (files.filter (fun e => !d.isPrefixOf e.1)).map Prod.fst =
      (files.map Prod.fst).filter (fun p => !d.isPrefixOf p) := by
  induction files with
  | nil => rfl
  | cons e tl ih =>
    cases h : d.isPrefixOf e.1 with
    | true =>
      have h1 : (!d.isPrefixOf e.1) = false := by rw [h]; rfl
      simp only [List.filter_cons, List.map_cons, h1, Bool.false_eq_true,
        if_false, ih]
    | false =>
      have h1 : (!d.isPrefixOf e.1) = true := by rw [h]; rfl
      simp only [List.filter_cons, List.map_cons, h1, if_true, List.map_cons,
        ih]

theorem wf_addDir {fs : Fs} {q : Path} (h : wellFormed fs)
    (hq : q ∉ fs.dirs) (hqf : fs.isFile q = false)
    (hpar : q.dropLast ∈ fs.dirs) : wellFormed (fs.addDir q) := by
  obtain ⟨hnd, hnf, hdc, hfc, hdisj⟩ := h
  refine ⟨?_, ?_, ?_, ?_, ?_⟩
  · unfold Fs.addDir
    simp only
    rw [List.nodup_append]
    exact ⟨hnd, List.nodup_singleton q, by simpa using fun hc => hq hc⟩
  · exact hnf
  · intro p hp hpne
    rw [mem_addDir_dirs] at hp
    rcases hp with hp | rfl
    · exact mem_addDir_dirs.mpr (Or.inl (hdc p hp hpne))
    · exact mem_addDir_dirs.mpr (Or.inl hpar)
  · intro p hp
    obtain ⟨h1, h2⟩ := hfc p hp
    exact ⟨h1, mem_addDir_dirs.mpr (Or.inl h2)⟩
  · intro p hp
    rw [mem_addDir_dirs] at hp
    rcases hp with hp | rfl
    · exact hdisj p hp
    · intro hc
      rw [addDir_files] at hc
      rw [isFile_iff_mem.mpr hc] at hqf
      cases hqf

theorem wf_setFile {fs : Fs} {q : Path} {data : FileData} (h : wellFormed fs)
    (hq : q ∉ fs.dirs) (hqnil : q ≠ []) (hpar : q.dropLast ∈ fs.dirs) :
    wellFormed (fs.setFile q data) := by
  obtain ⟨hnd, hnf, hdc, hfc, hdisj⟩ := h
  have hmap : (fs.setFile q data).files.map Prod.fst =
      (fs.files.map Prod.fst).filter (fun p => decide (p ≠ q)) ++ [q] := by
    unfold Fs.setFile
    simp only [List.map_append]
    rw [map_fst_filter_ne]
    rfl
  refine ⟨hnd, ?_, hdc, ?_, ?_⟩
  · rw [hmap, List.nodup_append]
    refine ⟨hnf.filter _, List.nodup_singleton q, ?_⟩
    intro a ha hb
    rw [List.mem_singleton] at hb
    subst hb
    rw [List.mem_filter, decide_eq_true_eq] at ha
    exact ha.2 rfl
  · intro p hp
    rw [hmap, List.mem_append] at hp
    rcases hp with hp | hp
    · rw [List.mem_filter] at hp
      exact hfc p hp.1
    · rw [List.mem_singleton] at hp
      subst hp
      exact ⟨hqnil, hpar⟩
  · intro p hp hc
    rw [hmap, List.mem_append] at hc
    rcases hc with hc | hc
    · rw [List.mem_filter] at hc
      exact hdisj p hp hc.1
    · rw [List.mem_singleton] at hc
      subst hc
      exact hq hp

theorem wf_removeSubtree {fs : Fs} (d : Path) (h : wellFormed fs) :
    wellFormed (fs.removeSubtree d) := by
  obtain ⟨hnd, hnf, hdc, hfc, hdisj⟩ := h
  have hmap : (fs.removeSubtree d).files.map Prod.fst =
      (fs.files.map Prod.fst).filter (fun p => !d.isPrefixOf p) :=
    map_fst_filter_not_pre fs.files d
  refine ⟨?_, ?_, ?_, ?_, ?_⟩
  · exact hnd.sublist (List.filter_sublist _)
  · rw [hmap]
    exact hnf.sublist (List.filter_sublist _)
  · intro p hp hpne
    rw [mem_removeSubtree_dirs] at hp
    refine mem_removeSubtree_dirs.mpr ⟨hdc p hp.1 hpne, ?_⟩
    intro hc
    exact hp.2 (hc.trans (List.dropLast_prefix p))
  · intro p hp
    rw [hmap, List.mem_filter] at hp
    obtain ⟨h1, h2⟩ := hfc p hp.1
    refine ⟨h1, mem_removeSubtree_dirs.mpr ⟨h2, ?_⟩⟩
    intro hc
    rw [Bool.not_eq_true'] at hp
    rw [List.isPrefixOf_iff_prefix.mpr (hc.trans (List.dropLast_prefix p))]
      at hp
    cases hp.2
  · intro p hp hc
    rw [mem_removeSubtree_dirs] at hp
    rw [hmap, List.mem_filter] at hc
    exact hdisj p hp.1 hc.1

theorem wf_removeFile {fs : Fs} (q : Path) (h : wellFormed fs) :
    wellFormed (fs.removeFile q) := by
  obtain ⟨hnd, hnf, hdc, hfc, hdisj⟩ := h
  have hmap : (fs.removeFile q).files.map Prod.fst =
      (fs.files.map Prod.fst).filter (fun p => decide (p ≠ q)) :=
    map_fst_filter_ne fs.files q
  refine ⟨hnd, ?_, hdc, ?_, ?_⟩
  · rw [hmap]
    exact hnf.sublist (List.filter_sublist _)
  · intro p hp
    rw [hmap, List.mem_filter] at hp
    exact hfc p hp.1
  · intro p hp hc
    rw [hmap, List.mem_filter] at hc
    exact hdisj p hp hc.1

theorem dropLast_take_succ {q : Path} {n : Nat} (hn : n < q.length) :
    (q.take (n + 1)).dropLast = q.take n := by
  rw [List.dropLast_eq_take, List.take_take, List.length_take]
  congr 1
  omega

theorem wf_addDirAll {fs : Fs} {q : Path} (h : wellFormed fs)
    (hnof : ∀ p, p <+: q → fs.isFile p = false) :
    wellFormed (fs.addDirAll q) := by
  obtain ⟨hnd, hnf, hdc, hfc, hdisj⟩ := h
  refine ⟨?_, hnf, ?_, ?_, ?_⟩
  · unfold Fs.addDirAll
    simp only
    rw [List.nodup_append]
    refine ⟨hnd, ?_, ?_⟩
    · refine List.Nodup.filter _ (List.Nodup.map_on ?_ (List.nodup_range _))
      intro a ha b hb hab
      have := congrArg List.length hab
      rw [List.mem_range] at ha hb
      rw [List.length_take, List.length_take] at this
      omega
    · intro a ha hb
      rw [List.mem_filter, decide_eq_true_eq] at hb
      exact hb.2 ha
  · intro p hp hpne
    rw [mem_addDirAll_dirs] at hp
    rcases hp with hp | hp
    · exact mem_addDirAll_dirs.mpr (Or.inl (hdc p hp hpne))
    · exact mem_addDirAll_dirs.mpr
        (Or.inr ((List.dropLast_prefix p).trans hp))
  · intro p hp
    obtain ⟨h1, h2⟩ := hfc p hp
    exact ⟨h1, mem_addDirAll_dirs.mpr (Or.inl h2)⟩
  · intro p hp hc
    rw [mem_addDirAll_dirs] at hp
    rcases hp with hp | hp
    · exact hdisj p hp hc
    · rw [addDirAll_files] at hc
      rw [← isFile_iff_mem] at hc
      rw [hnof p hp] at hc
      cases hc

theorem lookup_congr_files {fs₁ fs₂ : Fs} (h : fs₁.files = fs₂.files)
    (p : Path) : fs₁.lookupFile p = fs₂.lookupFile p := by
  unfold Fs.lookupFile
  rw [h]

theorem get_destination_ok {destination_root source_root source_path nd :
    Path} (h : get_destination_file_path destination_root source_root
      source_path = Except.ok nd) :
    nd = destination_root ++ source_path.drop source_root.length ∧
      source_root <+: source_path := by
  unfold get_destination_file_path at h
  split at h
  · next hpre =>
    exact ⟨(Except.ok.inj h).symm, List.isPrefixOf_iff_prefix.mp hpre⟩
  · cases h

theorem create_single_files (fail : FailSpec) (src dst d : Path) (fs : Fs) :
    (create_single_directory_if_not_exists fail src dst d fs).1.files =
      fs.files := by
  unfold create_single_directory_if_not_exists
  split
  · rfl
  · split
    · split
      · rfl
      · rfl
    · split
      · rfl
      · rfl

theorem create_single_dirs_super (fail : FailSpec) (src dst d : Path)
    (fs : Fs) {p : Path} (hp : p ∈ fs.dirs) :
    p ∈ (create_single_directory_if_not_exists fail src dst d fs).1.dirs := by
  unfold create_single_directory_if_not_exists
  split
  · exact hp
  · split
    · split
      · exact hp
      · exact hp
    · split
      · exact hp
      · exact mem_addDir_dirs.mpr (Or.inl hp)

theorem create_single_dirs_local (fail : FailSpec) (src dst d : Path)
    (fs : Fs) {p : Path}
    (hp : p ∈ (create_single_directory_if_not_exists fail src dst d
      fs).1.dirs) : p ∈ fs.dirs ∨ dst <+: p := by
  revert hp
  unfold create_single_directory_if_not_exists
  split
  · exact Or.inl
  · next nd hnd =>
    split
    · split
      · exact Or.inl
      · exact Or.inl
    · split
      · exact Or.inl
      · intro hp
        rcases mem_addDir_dirs.mp hp with hp | rfl
        · exact Or.inl hp
        · rw [(get_destination_ok hnd).1]
          exact Or.inr (List.prefix_append _ _)

theorem create_single_none (fail : FailSpec) (src dst d : Path) (fs : Fs)
    (h : (create_single_directory_if_not_exists fail src dst d fs).2.2 =
      none) :
    src <+: d ∧ dst ++ d.drop src.length ∈
      (create_single_directory_if_not_exists fail src dst d fs).1.dirs := by
  revert h
  unfold create_single_directory_if_not_exists
  split
  · intro h; cases h
  · next nd hnd =>
    obtain ⟨hnd₁, hnd₂⟩ := get_destination_ok hnd
    subst hnd₁
    split
    · split
      · next hdir =>
        intro _
        exact ⟨hnd₂, of_decide_eq_true hdir⟩
      · intro h; cases h
    · split
      · intro h; cases h
      · intro _
        exact ⟨hnd₂, mem_addDir_dirs.mpr (Or.inr rfl)⟩

theorem create_single_wf (fail : FailSpec) (src dst d : Path) (fs : Fs)
    (h : wellFormed fs) :
    wellFormed (create_single_directory_if_not_exists fail src dst d
      fs).1 := by
  unfold create_single_directory_if_not_exists
  split
  · exact h
  · next nd hnd =>
    split
    · split
      · exact h
      · exact h
    · next hnex =>
      split
      · exact h
      · next hcond =>
        rw [Bool.not_eq_true] at hnex
        unfold Fs.pathExists at hnex
        rw [Bool.or_eq_false_iff] at hnex
        obtain ⟨hnd1, hnf1⟩ := hnex
        have hpar : fs.isDir nd.dropLast = true := by
          cases hpc : fs.isDir nd.dropLast with
          | true => rfl
          | false =>
            rw [Bool.not_eq_true, Bool.or_eq_false_iff, hpc] at hcond
            simp at hcond
        refine wf_addDir h ?_ hnf1 (of_decide_eq_true hpar)
        intro hc
        have hc' : fs.isDir nd = true := decide_eq_true hc
        rw [hc'] at hnd1
        cases hnd1

theorem create_single_msgs (fail : FailSpec) (src dst d : Path) (fs : Fs)
    {m : Message}
    (hm : m ∈ (create_single_directory_if_not_exists fail src dst d
      fs).2.1) : ∀ s dd, m ≠ Message.Info (Info.StartCopingFile s dd) := by
  intro s dd hc
  subst hc
  revert hm
  unfold create_single_directory_if_not_exists
  split
  · intro hm; cases hm
  · split
    · split
      · intro hm
        simp at hm
      · intro hm; cases hm
    · split
      · intro hm
        simp at hm
      · intro hm
        simp at hm

theorem processDirs_files (fail : FailSpec) (src dst : Path) :
    ∀ (ds : List Path) (fs : Fs) (errors : List ProcessPathError),
      (processDirs fail src dst fs errors ds).fs.files = fs.files := by
  intro ds
  induction ds with
  | nil => intro fs errors; rfl
  | cons d tl ih =>
    intro fs errors
    rw [processDirs]
    split
    · exact ih fs errors
    · rw [ih, create_single_files]

theorem processDirs_dirs_super (fail : FailSpec) (src dst : Path) :
    ∀ (ds : List Path) (fs : Fs) (errors : List ProcessPathError)
      {p : Path}, p ∈ fs.dirs →
      p ∈ (processDirs fail src dst fs errors ds).fs.dirs := by
  intro ds
  induction ds with
  | nil => intro fs errors p hp; exact hp
  | cons d tl ih =>
    intro fs errors p hp
    rw [processDirs]
    split
    · exact ih fs errors hp
    · exact ih _ _ (create_single_dirs_super fail src dst d fs hp)

theorem processDirs_dirs_local (fail : FailSpec) (src dst : Path) :
    ∀ (ds : List Path) (fs : Fs) (errors : List ProcessPathError)
      {p : Path}, p ∈ (processDirs fail src dst fs errors ds).fs.dirs →
      p ∈ fs.dirs ∨ dst <+: p := by
  intro ds
  induction ds with
  | nil => intro fs errors p hp; exact Or.inl hp
  | cons d tl ih =>
    intro fs errors p hp
    rw [processDirs] at hp
    split at hp
    · exact ih fs errors hp
    · rcases ih _ _ hp with h | h
      · exact create_single_dirs_local fail src dst d fs h
      · exact Or.inr h

theorem processDirs_wf (fail : FailSpec) (src dst : Path) :
    ∀ (ds : List Path) (fs : Fs) (errors : List ProcessPathError),
      wellFormed fs → wellFormed (processDirs fail src dst fs errors
        ds).fs := by
  intro ds
  induction ds with
  | nil => intro fs errors h; exact h
  | cons d tl ih =>
    intro fs errors h
    rw [processDirs]
    split
    · exact ih fs errors h
    · exact ih _ _ (create_single_wf fail src dst d fs h)

theorem processDirs_errors_grow (fail : FailSpec) (src dst : Path) :
    ∀ (ds : List Path) (fs : Fs) (errors : List ProcessPathError),
      ∃ t, (processDirs fail src dst fs errors ds).errors =
        errors ++ t := by
  intro ds
  induction ds with
  | nil => intro fs errors; exact ⟨[], by rw [List.append_nil]; rfl⟩
  | cons d tl ih =>
    intro fs errors
    rw [processDirs]
    split
    · exact ih fs errors
    · obtain ⟨t, ht⟩ := ih
        (create_single_directory_if_not_exists fail src dst d fs).1
        (errors ++ (create_single_directory_if_not_exists fail src dst d
          fs).2.2.toList)
      refine ⟨(create_single_directory_if_not_exists fail src dst d
        fs).2.2.toList ++ t, ?_⟩
      simp only
      rw [ht, List.append_assoc]

theorem processDirs_success (fail : FailSpec) (src dst : Path) :
    ∀ (ds : List Path) (fs : Fs),
      (processDirs fail src dst fs [] ds).errors = [] →
      ∀ d ∈ ds, src <+: d ∧ dst ++ d.drop src.length ∈
        (processDirs fail src dst fs [] ds).fs.dirs := by
  intro ds
  induction ds with
  | nil =>
    intro fs _ d hd
    cases hd
  | cons d tl ih =>
    intro fs hok
    have herr : (processDirs fail src dst fs [] (d :: tl)).errors =
        (processDirs fail src dst
          (create_single_directory_if_not_exists fail src dst d fs).1
          ([] ++ (create_single_directory_if_not_exists fail src dst d
            fs).2.2.toList) tl).errors := rfl
    have hfs : (processDirs fail src dst fs [] (d :: tl)).fs =
        (processDirs fail src dst
          (create_single_directory_if_not_exists fail src dst d fs).1
          ([] ++ (create_single_directory_if_not_exists fail src dst d
            fs).2.2.toList) tl).fs := rfl
    rw [herr] at hok
    rw [hfs]
    rcases hre : (create_single_directory_if_not_exists fail src dst d
        fs).2.2 with _ | e
    case some =>
      exfalso
      rw [hre] at hok
      simp only [Option.toList, List.nil_append] at hok
      obtain ⟨t, ht⟩ := processDirs_errors_grow fail src dst tl
        (create_single_directory_if_not_exists fail src dst d fs).1 [e]
      rw [ht] at hok
      simp at hok
    case none =>
      rw [hre] at hok
      simp only [Option.toList, List.nil_append] at hok ⊢
      intro d' hd'
      rcases List.mem_cons.mp hd' with rfl | hd'
      · obtain ⟨h1, h2⟩ := create_single_none fail src dst d' fs hre
        exact ⟨h1, processDirs_dirs_super fail src dst tl _ _ h2⟩
      · exact ih _ hok d' hd'

theorem prefix_comparable_of_common {p q r : Path} (h1 : p <+: r)
    (h2 : q <+: r) : p <+: q ∨ q <+: p :=
  List.prefix_or_prefix_of_prefix h1 h2

theorem not_prefix_of_other_root {src dst rel : Path}
    (hinc : rootsIncomparable src dst) : ¬ dst <+: src ++ rel := by
  intro h
  rcases prefix_comparable_of_common h (List.prefix_append src rel) with h2 | h2
  · exact hinc.2 h2
  · exact hinc.1 h2

theorem dest_path_inj {src dst f g : Path} (hf : src <+: f) (hg : src <+: g)
    (h : dst ++ f.drop src.length = dst ++ g.drop src.length) : f = g := by
  have hd := List.append_cancel_left h
  rw [← prefix_append_drop hf, ← prefix_append_drop hg, hd]

theorem setFile_isFile_super (fs : Fs) (q : Path) (data : FileData)
    {p : Path} (h : fs.isFile p = true) :
    (fs.setFile q data).isFile p = true := by
  by_cases hpq : p = q
  · subst hpq
    unfold Fs.isFile
    rw [lookupFile_setFile_self]
    rfl
  · unfold Fs.isFile
    rw [lookupFile_setFile_other fs data hpq]
    exact h

theorem set_modified_time_dirs (fail : FailSpec)
    (sm : Option FileMetaData) (b : Path) (fs : Fs) :
    (set_modified_time fail sm b fs).1.dirs = fs.dirs := by
  unfold set_modified_time
  split
  · split
    · split
      · rfl
      · split
        · exact setFile_dirs _ _ _
        · rfl
    · rfl
  · rfl

theorem set_modified_time_lookup_other (fail : FailSpec)
    (sm : Option FileMetaData) (b : Path) (fs : Fs) {q : Path} (h : q ≠ b) :
    (set_modified_time fail sm b fs).1.lookupFile q = fs.lookupFile q := by
  unfold set_modified_time
  split
  · split
    · split
      · rfl
      · split
        · exact lookupFile_setFile_other fs _ h
        · rfl
    · rfl
  · rfl

theorem set_modified_time_isFile_super (fail : FailSpec)
    (sm : Option FileMetaData) (b : Path) (fs : Fs) {p : Path}
    (h : fs.isFile p = true) :
    (set_modified_time fail sm b fs).1.isFile p = true := by
  unfold set_modified_time
  split
  · split
    · split
      · exact h
      · split
        · exact setFile_isFile_super _ _ _ h
        · exact h
    · exact h
  · exact h

theorem set_modified_time_wf (fail : FailSpec) (sm : Option FileMetaData)
    (b : Path) (fs : Fs) (h : wellFormed fs) :
    wellFormed (set_modified_time fail sm b fs).1 := by
  unfold set_modified_time
  split
  · split
    · split
      · exact h
      · split
        · next d hd =>
          have hbf : fs.isFile b = true := by
            unfold Fs.isFile
            rw [hd]
            rfl
          have hbm : b ∈ fs.files.map Prod.fst := isFile_iff_mem.mp hbf
          obtain ⟨hne, hpar⟩ := h.2.2.2.1 b hbm
          exact wf_setFile h (fun hc => h.2.2.2.2 b hc hbm) hne hpar
        · exact h
    · exact h
  · exact h

theorem copy_or_skip_dirs (fail : FailSpec) (a b : Path) (fs : Fs) :
    (copy_or_skip_if_same fail a b fs).1.dirs = fs.dirs := by
  simp only [copy_or_skip_if_same]
  split
  · rfl
  · split
    · rfl
    · split
      · rfl
      · split
        · rw [set_modified_time_dirs, setFile_dirs]
        · rw [set_modified_time_dirs, setFile_dirs]

theorem copy_or_skip_lookup_other (fail : FailSpec) (a b : Path) (fs : Fs)
    {q : Path} (h : q ≠ b) :
    (copy_or_skip_if_same fail a b fs).1.lookupFile q = fs.lookupFile q := by
  simp only [copy_or_skip_if_same]
  split
  · rfl
  · split
    · rfl
    · split
      · rfl
      · split
        · rw [set_modified_time_lookup_other _ _ _ _ h,
            lookupFile_setFile_other _ _ h]
        · rw [set_modified_time_lookup_other _ _ _ _ h,
            lookupFile_setFile_other _ _ h]

theorem copy_or_skip_isFile_super (fail : FailSpec) (a b : Path) (fs : Fs)
    {p : Path} (h : fs.isFile p = true) :
    (copy_or_skip_if_same fail a b fs).1.isFile p = true := by
  simp only [copy_or_skip_if_same]
  split
  · exact h
  · split
    · exact h
    · split
      · exact h
      · split
        · exact set_modified_time_isFile_super _ _ _ _
            (setFile_isFile_super _ _ _ h)
        · exact set_modified_time_isFile_super _ _ _ _
            (setFile_isFile_super _ _ _ h)

theorem copy_or_skip_wf (fail : FailSpec) (a b : Path) (fs : Fs)
    (h : wellFormed fs) :
    wellFormed (copy_or_skip_if_same fail a b fs).1 := by
  simp only [copy_or_skip_if_same]
  split
  · exact h
  · split
    · exact h
    · next d hd =>
      split
      · exact h
      · next hcond =>
        rw [Bool.not_eq_true, Bool.or_eq_false_iff, Bool.or_eq_false_iff]
          at hcond
        obtain ⟨⟨hfail, hdb⟩, hpar'⟩ := hcond
        rw [Bool.not_eq_false'] at hpar'
        have hbd : b ∉ fs.dirs := fun hc => by
          rw [Fs.isDir, decide_eq_true hc] at hdb
          cases hdb
        have hbne : b ≠ [] := by
          intro hc
          subst hc
          rw [List.dropLast_nil, hdb] at hpar'
          cases hpar'
        have hwf₁ := @wf_setFile fs b ⟨d.content, none, d.permissions⟩ h hbd
          hbne (of_decide_eq_true hpar')
        split
        · exact set_modified_time_wf _ _ _ _ hwf₁
        · exact set_modified_time_wf _ _ _ _ hwf₁

theorem skip_lookup_eq {fs : Fs} {a b : Path}
    (h : (skip_copy a b (fs.pathExists b) (FileMetaData.try_new fs a)
      (FileMetaData.try_new fs b) (get_hash fs a) (get_hash fs b)).1 =
      true) : fs.lookupFile b = fs.lookupFile a := by
  rcases ha : fs.lookupFile a with _ | d <;>
    rcases hb : fs.lookupFile b with _ | e
  · rfl
  · exfalso
    by_cases hda : fs.isDir a = true <;>
      simp [skip_copy, FileMetaData.try_new, get_hash, Fs.pathExists,
        Fs.isFile, ha, hb, hda] at h
  · exfalso
    by_cases hdb : fs.isDir b = true <;>
      simp [skip_copy, FileMetaData.try_new, get_hash, Fs.pathExists,
        Fs.isFile, ha, hb, hdb] at h
  · rcases d with ⟨dc, dm, dp⟩
    rcases e with ⟨ec, em, ep⟩
    simp only [skip_copy, FileMetaData.try_new, get_hash, Fs.pathExists,
      Fs.isFile, ha, hb, Option.isSome_some, Option.map_some,
      Option.map_some', Bool.or_true,
      Bool.not_true, Bool.false_eq_true, if_false, Option.isNone_some,
      Bool.and_false, Bool.false_and, Bool.or_self] at h
    split at h
    · exact Bool.noConfusion h
    · next hmeta =>
      have hmeq := not_not.mp hmeta
      simp only [Option.some.injEq, FileMetaData.mk.injEq, and_true,
        true_and] at hmeq
      split at h
      · exact Bool.noConfusion h
      · next hcont =>
        have hce := not_not.mp hcont
        obtain ⟨h1, _, h4⟩ := hmeq
        subst hce
        subst h1
        subst h4
        rfl

theorem setFile_isFile_self (fs : Fs) (q : Path) (data : FileData) :
    (fs.setFile q data).isFile q = true := by
  unfold Fs.isFile
  rw [lookupFile_setFile_self]
  rfl

theorem copy_or_skip_ok_isFile (fail : FailSpec) (a b : Path) (fs : Fs)
    (hnone : (copy_or_skip_if_same fail a b fs).2.2 = none)
    (hfa : fs.isFile a = true) :
    (copy_or_skip_if_same fail a b fs).1.isFile b = true := by
  rcases hla : fs.lookupFile a with _ | d
  · exfalso
    unfold Fs.isFile at hfa
    rw [hla] at hfa
    exact Bool.noConfusion hfa
  · by_cases hdec : (skip_copy a b (fs.pathExists b)
        (FileMetaData.try_new fs a) (FileMetaData.try_new fs b)
        (get_hash fs a) (get_hash fs b)).1 = true
    · simp only [copy_or_skip_if_same, hdec, if_true]
      show fs.isFile b = true
      unfold Fs.isFile
      rw [skip_lookup_eq hdec, hla]
      rfl
    · by_cases hg : (fail.copy_file b || fs.isDir b ||
          !fs.isDir (List.dropLast b)) = true
      · simp [copy_or_skip_if_same, hdec, hla, hg] at hnone
      · simp only [copy_or_skip_if_same, hdec, hla, hg, if_false,
          Bool.false_eq_true, if_true]
        split
        · exact set_modified_time_isFile_super _ _ _ _
            (setFile_isFile_self _ _ _)
        · exact set_modified_time_isFile_super _ _ _ _
            (setFile_isFile_self _ _ _)

theorem copy_or_skip_none_lookup (fail : FailSpec) (a b : Path) (fs : Fs)
    (hsm : fail.set_modified b = false)
    (hnone : (copy_or_skip_if_same fail a b fs).2.2 = none)
    (hfa : fs.isFile a = true) :
    (copy_or_skip_if_same fail a b fs).1.lookupFile b =
      fs.lookupFile a := by
  rcases hla : fs.lookupFile a with _ | d
  · exfalso
    unfold Fs.isFile at hfa
    rw [hla] at hfa
    exact Bool.noConfusion hfa
  · rcases d with ⟨dc, dmo, dp⟩
    by_cases hdec : (skip_copy a b (fs.pathExists b)
        (FileMetaData.try_new fs a) (FileMetaData.try_new fs b)
        (get_hash fs a) (get_hash fs b)).1 = true
    · simp only [copy_or_skip_if_same, hdec, if_true]
      show fs.lookupFile b = _
      rw [skip_lookup_eq hdec, hla]
    · by_cases hg : (fail.copy_file b || fs.isDir b ||
          !fs.isDir (List.dropLast b)) = true
      · simp [copy_or_skip_if_same, hdec, hla, hg] at hnone
      · have hsma : FileMetaData.try_new fs a =
            some ⟨dmo, dc.length, FileType.file, dp⟩ := by
          unfold FileMetaData.try_new
          rw [hla]
        simp only [copy_or_skip_if_same, hdec, hla, hg, if_false,
          Bool.false_eq_true, if_true]
        rw [hsma]
        rcases dmo with _ | t
        · simp only [set_modified_time, if_true]
          rw [lookupFile_setFile_self]
        · simp only [set_modified_time, hsm, Bool.false_eq_true, if_false,
            lookupFile_setFile_self, if_true]

theorem copy_or_skip_same_data (fail : FailSpec) (a b : Path) (fs : Fs)
    (hfa : fs.isFile a = true)
    (heq : fs.lookupFile b = fs.lookupFile a) :
    copy_or_skip_if_same fail a b fs =
      (fs, [Message.Progress (Progress.Increment
        (Increment.SkippingFileNoModification a b))], none) := by
  rcases hla : fs.lookupFile a with _ | d
  · exfalso
    unfold Fs.isFile at hfa
    rw [hla] at hfa
    exact Bool.noConfusion hfa
  · rw [hla] at heq
    have hdec : skip_copy a b (fs.pathExists b) (FileMetaData.try_new fs a)
        (FileMetaData.try_new fs b) (get_hash fs a) (get_hash fs b) =
        (true, []) := by
      simp [skip_copy, FileMetaData.try_new, get_hash, Fs.pathExists,
        Fs.isFile, hla, heq]
    simp [copy_or_skip_if_same, hdec]

theorem backup_single_eq_copy (fail : FailSpec) {src dst f : Path}
    (h : src <+: f) (fs : Fs) :
    backup_single_file fail src dst f fs =
      copy_or_skip_if_same fail f (dst ++ f.drop src.length) fs := by
  unfold backup_single_file get_destination_file_path
  rw [if_pos (List.isPrefixOf_iff_prefix.mpr h)]

theorem backup_single_dirs (fail : FailSpec) (src dst f : Path) (fs : Fs) :
    (backup_single_file fail src dst f fs).1.dirs = fs.dirs := by
  unfold backup_single_file
  split
  · rfl
  · exact copy_or_skip_dirs _ _ _ _

theorem backup_single_isFile_super (fail : FailSpec) (src dst f : Path)
    (fs : Fs) {p : Path} (h : fs.isFile p = true) :
    (backup_single_file fail src dst f fs).1.isFile p = true := by
  unfold backup_single_file
  split
  · exact h
  · exact copy_or_skip_isFile_super _ _ _ _ h

theorem backup_single_wf (fail : FailSpec) (src dst f : Path) (fs : Fs)
    (h : wellFormed fs) :
    wellFormed (backup_single_file fail src dst f fs).1 := by
  unfold backup_single_file
  split
  · exact h
  · exact copy_or_skip_wf _ _ _ _ h

theorem backup_single_lookup_not_target (fail : FailSpec) (src dst f : Path)
    (fs : Fs) {q : Path} (h : dst ++ f.drop src.length ≠ q) :
    (backup_single_file fail src dst f fs).1.lookupFile q =
      fs.lookupFile q := by
  unfold backup_single_file
  split
  · rfl
  · next nd hnd =>
    refine copy_or_skip_lookup_other _ _ _ _ (fun hc => h ?_)
    rw [(get_destination_ok hnd).1] at hc
    exact hc.symm

theorem backup_single_lookup_outside (fail : FailSpec) (src dst f : Path)
    (fs : Fs) {q : Path} (h : ¬ dst <+: q) :
    (backup_single_file fail src dst f fs).1.lookupFile q =
      fs.lookupFile q := by
  refine backup_single_lookup_not_target fail src dst f fs (fun hc => h ?_)
  rw [← hc]
  exact List.prefix_append _ _

theorem processFiles_dirs (fail : FailSpec) (src dst : Path)
    (ned : List Path) :
    ∀ (l : List Path) (fs : Fs),
      (processFiles fail src dst ned fs l).1.dirs = fs.dirs := by
  intro l
  induction l with
  | nil => intro fs; rfl
  | cons f tl ih =>
    intro fs
    rw [processFiles]
    split
    · exact ih fs
    · rw [ih, backup_single_dirs]

theorem processFiles_isFile_super (fail : FailSpec) (src dst : Path)
    (ned : List Path) :
    ∀ (l : List Path) (fs : Fs) {p : Path}, fs.isFile p = true →
      (processFiles fail src dst ned fs l).1.isFile p = true := by
  intro l
  induction l with
  | nil => intro fs p h; exact h
  | cons f tl ih =>
    intro fs p h
    rw [processFiles]
    split
    · exact ih fs h
    · exact ih _ (backup_single_isFile_super _ _ _ _ _ h)

theorem processFiles_wf (fail : FailSpec) (src dst : Path)
    (ned : List Path) :
    ∀ (l : List Path) (fs : Fs), wellFormed fs →
      wellFormed (processFiles fail src dst ned fs l).1 := by
  intro l
  induction l with
  | nil => intro fs h; exact h
  | cons f tl ih =>
    intro fs h
    rw [processFiles]
    split
    · exact ih fs h
    · exact ih _ (backup_single_wf _ _ _ _ _ h)

theorem processFiles_lookup_stable (fail : FailSpec) (src dst : Path)
    (ned : List Path) :
    ∀ (l : List Path) (fs : Fs) {q : Path},
      (∀ f ∈ l, dst ++ f.drop src.length ≠ q) →
      (processFiles fail src dst ned fs l).1.lookupFile q =
        fs.lookupFile q := by
  intro l
  induction l with
  | nil => intro fs q _; rfl
  | cons f tl ih =>
    intro fs q h
    rw [processFiles]
    split
    · exact ih fs (fun g hg => h g (List.mem_cons_of_mem _ hg))
    · rw [ih _ (fun g hg => h g (List.mem_cons_of_mem _ hg)),
        backup_single_lookup_not_target _ _ _ _ _
          (h f (List.mem_cons_self _ _))]

theorem processFiles_lookup_outside (fail : FailSpec) (src dst : Path)
    (ned : List Path) (l : List Path) (fs : Fs) {q : Path}
    (h : ¬ dst <+: q) :
    (processFiles fail src dst ned fs l).1.lookupFile q =
      fs.lookupFile q := by
  refine processFiles_lookup_stable fail src dst ned l fs
    (fun f _ hc => h ?_)
  rw [← hc]
  exact List.prefix_append _ _

theorem processFiles_errors_nil_isFile (fail : FailSpec) (src dst : Path) :
    ∀ (l : List Path) (fs : Fs),
      (∀ f ∈ l, src <+: f ∧ fs.isFile f = true) →
      (processFiles fail src dst [] fs l).2.1 = [] →
      ∀ f ∈ l, (processFiles fail src dst [] fs l).1.isFile
        (dst ++ f.drop src.length) = true := by
  intro l
  induction l with
  | nil => intro fs _ _ f hf; cases hf
  | cons f tl ih =>
    intro fs hl hok
    have herr : (processFiles fail src dst [] fs (f :: tl)).2.1 =
        (backup_single_file fail src dst f fs).2.2.toList ++
          (processFiles fail src dst []
            (backup_single_file fail src dst f fs).1 tl).2.1 := rfl
    have hfs : (processFiles fail src dst [] fs (f :: tl)).1 =
        (processFiles fail src dst []
          (backup_single_file fail src dst f fs).1 tl).1 := rfl
    rw [herr] at hok
    rw [hfs]
    obtain ⟨hpre, hfile⟩ := hl f (List.mem_cons_self _ _)
    rcases hre : (backup_single_file fail src dst f fs).2.2 with _ | e
    case some =>
      exfalso
      rw [hre] at hok
      simp at hok
    case none =>
      rw [hre] at hok
      simp only [Option.toList, List.nil_append] at hok
      have hnone : (copy_or_skip_if_same fail f
          (dst ++ f.drop src.length) fs).2.2 = none := by
        rw [← backup_single_eq_copy fail hpre, hre]
      have hltl : ∀ g ∈ tl, src <+: g ∧
          (backup_single_file fail src dst f fs).1.isFile g = true := by
        intro g hg
        obtain ⟨h1, h2⟩ := hl g (List.mem_cons_of_mem _ hg)
        exact ⟨h1, backup_single_isFile_super _ _ _ _ _ h2⟩
      intro g hg
      rcases List.mem_cons.mp hg with rfl | hg
      · refine processFiles_isFile_super _ _ _ _ _ _ ?_
        rw [backup_single_eq_copy fail hpre]
        exact copy_or_skip_ok_isFile _ _ _ _ hnone hfile
      · exact ih _ hltl hok g hg

theorem processFiles_content (fail : FailSpec) (src dst : Path)
    (hinc : rootsIncomparable src dst)
    (hsm : ∀ p, fail.set_modified p = false) :
    ∀ (l : List Path) (fs : Fs),
      (∀ f ∈ l, src <+: f ∧ fs.isFile f = true) →
      (processFiles fail src dst [] fs l).2.1 = [] →
      ∀ f ∈ l, (processFiles fail src dst [] fs l).1.lookupFile
          (dst ++ f.drop src.length) =
        (processFiles fail src dst [] fs l).1.lookupFile f := by
  intro l
  induction l with
  | nil => intro fs _ _ f hf; cases hf
  | cons f tl ih =>
    intro fs hl hok
    have herr : (processFiles fail src dst [] fs (f :: tl)).2.1 =
        (backup_single_file fail src dst f fs).2.2.toList ++
          (processFiles fail src dst []
            (backup_single_file fail src dst f fs).1 tl).2.1 := rfl
    have hfs : (processFiles fail src dst [] fs (f :: tl)).1 =
        (processFiles fail src dst []
          (backup_single_file fail src dst f fs).1 tl).1 := rfl
    rw [herr] at hok
    rw [hfs]
    obtain ⟨hpre, hfile⟩ := hl f (List.mem_cons_self _ _)
    have hnotdst : ∀ g : Path, src <+: g → ¬ dst <+: g := by
      intro g hgp hc
      rw [← prefix_append_drop hgp] at hc
      exact not_prefix_of_other_root hinc hc
    rcases hre : (backup_single_file fail src dst f fs).2.2 with _ | e
    case some =>
      exfalso
      rw [hre] at hok
      simp at hok
    case none =>
      rw [hre] at hok
      simp only [Option.toList, List.nil_append] at hok
      have hnone : (copy_or_skip_if_same fail f
          (dst ++ f.drop src.length) fs).2.2 = none := by
        rw [← backup_single_eq_copy fail hpre, hre]
      have hltl : ∀ g ∈ tl, src <+: g ∧
          (backup_single_file fail src dst f fs).1.isFile g = true := by
        intro g hg
        obtain ⟨h1, h2⟩ := hl g (List.mem_cons_of_mem _ hg)
        exact ⟨h1, backup_single_isFile_super _ _ _ _ _ h2⟩
      have hstep : (backup_single_file fail src dst f fs).1.lookupFile
          (dst ++ f.drop src.length) = fs.lookupFile f := by
        rw [backup_single_eq_copy fail hpre]
        exact copy_or_skip_none_lookup _ _ _ _ (hsm _) hnone hfile
      have hself : (backup_single_file fail src dst f fs).1.lookupFile f =
          fs.lookupFile f := by
        refine backup_single_lookup_not_target _ _ _ _ _ (fun hc => ?_)
        exact hnotdst f hpre (hc ▸ List.prefix_append _ _)
      intro g hg
      rcases List.mem_cons.mp hg with rfl | hg
      · by_cases hmem : g ∈ tl
        · exact ih _ hltl hok g hmem
        · have hb : (processFiles fail src dst []
              (backup_single_file fail src dst g fs).1 tl).1.lookupFile
              (dst ++ g.drop src.length) =
              (backup_single_file fail src dst g fs).1.lookupFile
                (dst ++ g.drop src.length) := by
            refine processFiles_lookup_stable _ _ _ _ _ _ ?_
            intro g' hg' hc
            exact hmem ((dest_path_inj (hl g' (List.mem_cons_of_mem _
              hg')).1 hpre hc) ▸ hg')
          have hg2 : (processFiles fail src dst []
              (backup_single_file fail src dst g fs).1 tl).1.lookupFile g =
              (backup_single_file fail src dst g fs).1.lookupFile g :=
            processFiles_lookup_outside _ _ _ _ _ _ (hnotdst g hpre)
          rw [hb, hg2, hstep, hself]
      · exact ih _ hltl hok g hg

theorem processFiles_all_same (fail : FailSpec) (src dst : Path) :
    ∀ (l : List Path) (fs : Fs),
      (∀ f ∈ l, src <+: f ∧ fs.isFile f = true ∧
        fs.lookupFile (dst ++ f.drop src.length) = fs.lookupFile f) →
      processFiles fail src dst [] fs l =
        (fs, [], l.map (fun f => Message.Progress (Progress.Increment
          (Increment.SkippingFileNoModification f
            (dst ++ f.drop src.length))))) := by
  intro l
  induction l with
  | nil => intro fs _; rfl
  | cons f tl ih =>
    intro fs hl
    obtain ⟨hpre, hfile, hlkp⟩ := hl f (List.mem_cons_self _ _)
    rw [processFiles]
    simp only [List.any_nil, Bool.false_eq_true, if_false,
      backup_single_eq_copy fail hpre,
      copy_or_skip_same_data fail f (dst ++ f.drop src.length) fs hfile
        hlkp,
      ih fs (fun g hg => hl g (List.mem_cons_of_mem _ hg)), List.map_cons]
    rfl

theorem create_single_exists (fail : FailSpec) {src dst d : Path} (fs : Fs)
    (hpre : src <+: d)
    (hpe : fs.pathExists (dst ++ d.drop src.length) = true)
    (hdir : fs.isDir (dst ++ d.drop src.length) = true) :
    create_single_directory_if_not_exists fail src dst d fs =
      (fs, [Message.Progress (Progress.Increment
        (Increment.DestinationDirAlreadyExists d
          (dst ++ d.drop src.length)))], none) := by
  unfold create_single_directory_if_not_exists get_destination_file_path
  rw [if_pos (List.isPrefixOf_iff_prefix.mpr hpre)]
  simp only [hpe, hdir, if_true]

theorem processDirs_all_exists (fail : FailSpec) (src dst : Path) :
    ∀ (l : List Path) (fs : Fs),
      (∀ d ∈ l, src <+: d ∧
        fs.pathExists (dst ++ d.drop src.length) = true ∧
        fs.isDir (dst ++ d.drop src.length) = true) →
      processDirs fail src dst fs [] l =
        ⟨fs, [], l.map (fun d => Message.Progress (Progress.Increment
          (Increment.DestinationDirAlreadyExists d
            (dst ++ d.drop src.length)))), l⟩ := by
  intro l
  induction l with
  | nil => intro fs _; rfl
  | cons d tl ih =>
    intro fs hl
    obtain ⟨hpre, hpe, hdir⟩ := hl d (List.mem_cons_self _ _)
    rw [processDirs]
    simp only [List.any_nil, Bool.false_eq_true, if_false,
      create_single_exists fail fs hpre hpe hdir, Option.toList,
      List.append_nil, List.nil_append,
      ih fs (fun g hg => hl g (List.mem_cons_of_mem _ hg)), List.map_cons]
    rfl

theorem validate_existing (fail : FailSpec) {src dst : Path} {fs : Fs}
    (hs : fs.pathExists src = true) (hd : fs.isDir dst = true) :
    validate_or_create_root_paths fail src dst fs =
      (fs, [], Except.ok ()) := by
  have hpd : fs.pathExists dst = true := by
    unfold Fs.pathExists
    rw [hd]
    rfl
  unfold validate_or_create_root_paths
  simp only [hs, hpd, hd, Bool.not_true, Bool.false_eq_true, if_false]

theorem validate_fresh (fail : FailSpec) {src dst : Path} {fs : Fs}
    (hps : fs.pathExists src = true) (hpd : fs.pathExists dst = false)
    (hg : (fail.create_dir_all dst ||
      ((List.range (dst.length + 1)).map dst.take).any fs.isFile) =
        false) :
    validate_or_create_root_paths fail src dst fs =
      (fs.addDirAll dst,
        [Message.Info (Info.CreatingDestinationDir dst),
         Message.Info (Info.DestinationDirCreated dst)], Except.ok ()) := by
  have hd1 : (fs.addDirAll dst).isDir dst = true :=
    decide_eq_true (mem_addDirAll_dirs.mpr (Or.inr (List.prefix_refl _)))
  unfold validate_or_create_root_paths
  simp only [hps, hpd, hg, hd1, Bool.not_true, Bool.not_false,
    Bool.false_eq_true, Bool.true_eq_false, if_false, if_true]
  rfl

theorem pathExists_addDirAll_super {fs : Fs} {q p : Path}
    (h : fs.pathExists p = true) : (fs.addDirAll q).pathExists p = true := by
  unfold Fs.pathExists at h ⊢
  rcases Bool.or_eq_true_iff.mp h with h | h
  · have hd : (fs.addDirAll q).isDir p = true :=
      decide_eq_true (mem_addDirAll_dirs.mpr
        (Or.inl (of_decide_eq_true h)))
    rw [hd]
    rfl
  · have : (fs.addDirAll q).isFile p = fs.isFile p :=
      isFile_eq_of_lookup_eq (lookup_congr_files (addDirAll_files fs q) p)
    rw [this, h, Bool.or_true]

theorem validate_ok (fail : FailSpec) (src dst : Path) (fs : Fs)
    (h : (validate_or_create_root_paths fail src dst fs).2.2 =
      Except.ok ()) (hwf : wellFormed fs) :
    wellFormed (validate_or_create_root_paths fail src dst fs).1 ∧
    (validate_or_create_root_paths fail src dst fs).1.isDir dst = true ∧
    (validate_or_create_root_paths fail src dst fs).1.pathExists src =
      true ∧
    (∀ p, p ∈ fs.dirs → p ∈
      (validate_or_create_root_paths fail src dst fs).1.dirs) ∧
    (∀ p, p ∈ (validate_or_create_root_paths fail src dst fs).1.dirs →
      p ∈ fs.dirs ∨ p <+: dst) ∧
    (validate_or_create_root_paths fail src dst fs).1.files = fs.files := by
  by_cases hps : fs.pathExists src = true
  case neg =>
    rw [Bool.not_eq_true] at hps
    unfold validate_or_create_root_paths at h
    simp [hps] at h
  by_cases hpd : fs.pathExists dst = true
  case pos =>
    by_cases hdd : fs.isDir dst = true
    case neg =>
      rw [Bool.not_eq_true] at hdd
      unfold validate_or_create_root_paths at h
      simp [hps, hpd, hdd] at h
    rw [validate_existing fail hps hdd]
    exact ⟨hwf, hdd, hps, fun p hp => hp, fun p hp => Or.inl hp, rfl⟩
  case neg =>
    rw [Bool.not_eq_true] at hpd
    by_cases hg : (fail.create_dir_all dst ||
        ((List.range (dst.length + 1)).map dst.take).any fs.isFile) = true
    case pos =>
      unfold validate_or_create_root_paths at h
      simp [hps, hpd, hg] at h
    rw [Bool.not_eq_true] at hg
    rw [validate_fresh fail hps hpd hg]
    have hnof : ∀ p, p <+: dst → fs.isFile p = false := by
      intro p hp
      rcases Bool.or_eq_false_iff.mp hg with ⟨_, hany⟩
      rw [List.any_eq_false] at hany
      have hpm : p ∈ (List.range (dst.length + 1)).map dst.take := by
        rw [List.mem_map]
        refine ⟨p.length, ?_, ?_⟩
        · rw [List.mem_range]
          exact Nat.lt_succ_of_le hp.length_le
        · rw [← List.prefix_iff_eq_take.mp hp]
      exact Bool.eq_false_iff.mpr (hany p hpm)
    refine ⟨wf_addDirAll hwf hnof,
      decide_eq_true (mem_addDirAll_dirs.mpr
        (Or.inr (List.prefix_refl _))),
      pathExists_addDirAll_super hps,
      fun p hp => mem_addDirAll_dirs.mpr (Or.inl hp),
      fun p hp => mem_addDirAll_dirs.mp hp,
      addDirAll_files fs dst⟩

theorem purge_dirs_go_deleted_grow (fail : FailSpec) :
    ∀ (ds : List Path) (st : PurgeDirsState),
      ∃ t, (purge_dirs_go fail st ds).deleted_dirs =
        st.deleted_dirs ++ t := by
  intro ds
  induction ds with
  | nil => intro st; exact ⟨[], by rw [List.append_nil]; rfl⟩
  | cons dir tl ih =>
    intro st
    rw [purge_dirs_go]
    split
    · exact ih _
    · split
      · exact ih _
      · obtain ⟨t, ht⟩ := ih
          { st with
              fs := st.fs.removeSubtree dir,
              deleted_dirs := st.deleted_dirs ++ [dir],
              msgs := st.msgs ++
                [Message.Info (Info.StartDeletingDir dir),
                 Message.Progress (Progress.Increment
                   (Increment.DeletedDir dir))] }
        refine ⟨[dir] ++ t, ?_⟩
        rw [← List.append_assoc]
        exact ht

theorem purge_dirs_go_errors_grow (fail : FailSpec) :
    ∀ (ds : List Path) (st : PurgeDirsState),
      ∃ t, (purge_dirs_go fail st ds).errors = st.errors ++ t := by
  intro ds
  induction ds with
  | nil => intro st; exact ⟨[], by rw [List.append_nil]; rfl⟩
  | cons dir tl ih =>
    intro st
    rw [purge_dirs_go]
    split
    · exact ih _
    · split
      · obtain ⟨t, ht⟩ := ih
          { st with
              errors := st.errors ++
                [⟨some dir, FileBackupErrorKind.CannotDeleteDirectory⟩],
              msgs := st.msgs ++
                [Message.Info (Info.StartDeletingDir dir)] }
        refine ⟨[⟨some dir, FileBackupErrorKind.CannotDeleteDirectory⟩] ++
          t, ?_⟩
        rw [← List.append_assoc]
        exact ht
      · exact ih _

theorem purge_dirs_go_dirs_sub (fail : FailSpec) :
    ∀ (ds : List Path) (st : PurgeDirsState) {p : Path},
      p ∈ (purge_dirs_go fail st ds).fs.dirs → p ∈ st.fs.dirs := by
  intro ds
  induction ds with
  | nil => intro st p hp; exact hp
  | cons dir tl ih =>
    intro st p hp
    rw [purge_dirs_go] at hp
    split at hp
    · have h2 := ih _ hp
      exact h2
    · split at hp
      · have h2 := ih _ hp
        exact h2
      · have h2 := ih _ hp
        exact (mem_removeSubtree_dirs.mp h2).1

theorem purge_dirs_go_isFile_sub (fail : FailSpec) :
    ∀ (ds : List Path) (st : PurgeDirsState) {p : Path},
      (purge_dirs_go fail st ds).fs.isFile p = true →
      st.fs.isFile p = true := by
  intro ds
  induction ds with
  | nil => intro st p hp; exact hp
  | cons dir tl ih =>
    intro st p hp
    rw [purge_dirs_go] at hp
    split at hp
    · have h2 := ih _ hp
      exact h2
    · split at hp
      · have h2 := ih _ hp
        exact h2
      · have h2 := ih _ hp
        exact (isFile_removeSubtree.mp h2).1

theorem purge_dirs_go_removed_dirs (fail : FailSpec) :
    ∀ (ds : List Path) (st : PurgeDirsState) {p : Path},
      p ∈ st.fs.dirs → p ∉ (purge_dirs_go fail st ds).fs.dirs →
      ∃ q ∈ ds, q <+: p := by
  intro ds
  induction ds with
  | nil => intro st p hp hnp; exact absurd hp hnp
  | cons dir tl ih =>
    intro st p hp hnp
    rw [purge_dirs_go] at hnp
    split at hnp
    · obtain ⟨q, hq, hqp⟩ := (fun hx => ih _ hx hnp) hp
      exact ⟨q, List.mem_cons_of_mem _ hq, hqp⟩
    · split at hnp
      · obtain ⟨q, hq, hqp⟩ := (fun hx => ih _ hx hnp) hp
        exact ⟨q, List.mem_cons_of_mem _ hq, hqp⟩
      · by_cases hdp : dir <+: p
        · exact ⟨dir, List.mem_cons_self _ _, hdp⟩
        · obtain ⟨q, hq, hqp⟩ := (fun hx => ih _ hx hnp)
            (mem_removeSubtree_dirs.mpr ⟨hp, hdp⟩)
          exact ⟨q, List.mem_cons_of_mem _ hq, hqp⟩

theorem purge_dirs_go_removed_files (fail : FailSpec) :
    ∀ (ds : List Path) (st : PurgeDirsState) {p : Path},
      st.fs.isFile p = true →
      ¬ (purge_dirs_go fail st ds).fs.isFile p = true →
      ∃ q ∈ ds, q <+: p := by
  intro ds
  induction ds with
  | nil => intro st p hp hnp; exact absurd hp hnp
  | cons dir tl ih =>
    intro st p hp hnp
    rw [purge_dirs_go] at hnp
    split at hnp
    · obtain ⟨q, hq, hqp⟩ := (fun hx => ih _ hx hnp) hp
      exact ⟨q, List.mem_cons_of_mem _ hq, hqp⟩
    · split at hnp
      · obtain ⟨q, hq, hqp⟩ := (fun hx => ih _ hx hnp) hp
        exact ⟨q, List.mem_cons_of_mem _ hq, hqp⟩
      · by_cases hdp : dir <+: p
        · exact ⟨dir, List.mem_cons_self _ _, hdp⟩
        · obtain ⟨q, hq, hqp⟩ := (fun hx => ih _ hx hnp)
            (isFile_removeSubtree.mpr ⟨hp, hdp⟩)
          exact ⟨q, List.mem_cons_of_mem _ hq, hqp⟩

theorem purge_dirs_go_complete (fail : FailSpec) :
    ∀ (ds : List Path) (st : PurgeDirsState),
      (purge_dirs_go fail st ds).errors = st.errors →
      ∀ q ∈ ds, ∃ d' ∈ (purge_dirs_go fail st ds).deleted_dirs,
        d' <+: q := by
  intro ds
  induction ds with
  | nil => intro st _ q hq; cases hq
  | cons dir tl ih =>
    intro st herr q hq
    rw [purge_dirs_go] at herr ⊢
    split
    · next hskip =>
      rw [if_pos hskip] at herr
      rcases List.mem_cons.mp hq with rfl | hq
      · obtain ⟨d, hd, hdp⟩ := List.any_eq_true.mp hskip
        obtain ⟨t, ht⟩ := purge_dirs_go_deleted_grow fail tl _
        refine ⟨d, ?_, List.isPrefixOf_iff_prefix.mp hdp⟩
        rw [ht]
        exact List.mem_append.mpr (Or.inl hd)
      · exact ih _ herr q hq
    · next hskip =>
      rw [if_neg hskip] at herr
      split
      · next hcond =>
        rw [if_pos hcond] at herr
        exfalso
        obtain ⟨t, ht⟩ := purge_dirs_go_errors_grow fail tl
          { st with
              errors := st.errors ++
                [⟨some dir, FileBackupErrorKind.CannotDeleteDirectory⟩],
              msgs := st.msgs ++
                [Message.Info (Info.StartDeletingDir dir)] }
        rw [ht] at herr
        have hlen := congrArg List.length herr
        simp [List.length_append] at hlen
      · next hcond =>
        rw [if_neg hcond] at herr
        rcases List.mem_cons.mp hq with rfl | hq
        · obtain ⟨t, ht⟩ := purge_dirs_go_deleted_grow fail tl
            { st with
                fs := st.fs.removeSubtree q,
                deleted_dirs := st.deleted_dirs ++ [q],
                msgs := st.msgs ++
                  [Message.Info (Info.StartDeletingDir q),
                   Message.Progress (Progress.Increment
                     (Increment.DeletedDir q))] }
          refine ⟨q, ?_, List.prefix_refl _⟩
          rw [ht]
          exact List.mem_append.mpr (Or.inl
            (List.mem_append.mpr (Or.inr (List.mem_singleton.mpr rfl))))
        · exact ih _ herr q hq

theorem purge_dirs_go_no_errors (fail : FailSpec) :
    ∀ (ds : List Path) (st : PurgeDirsState),
      (∀ d ∈ ds, fail.remove_dir_all d = false) →
      (∀ d ∈ ds, d ∈ st.fs.dirs ∨ ∃ q ∈ st.deleted_dirs, q <+: d) →
      (purge_dirs_go fail st ds).errors = st.errors := by
  intro ds
  induction ds with
  | nil => intro st _ _; rfl
  | cons dir tl ih =>
    intro st hfail hinv
    rw [purge_dirs_go]
    split
    · exact ih _ (fun d hd => hfail d (List.mem_cons_of_mem _ hd))
        (fun d hd => hinv d (List.mem_cons_of_mem _ hd))
    · next hskip =>
      split
      · next hcond =>
        exfalso
        rw [hfail dir (List.mem_cons_self _ _), Bool.false_or,
          Bool.not_eq_true'] at hcond
        rcases hinv dir (List.mem_cons_self _ _) with hmem | ⟨q, hq, hqp⟩
        · rw [Fs.isDir, decide_eq_true hmem] at hcond
          cases hcond
        · refine hskip (List.any_eq_true.mpr ⟨q, hq, ?_⟩)
          exact List.isPrefixOf_iff_prefix.mpr hqp
      · refine ih _ (fun d hd => hfail d (List.mem_cons_of_mem _ hd)) ?_
        intro d hd
        rcases hinv d (List.mem_cons_of_mem _ hd) with hmem | ⟨q, hq, hqp⟩
        · by_cases hdp : dir <+: d
          · exact Or.inr ⟨dir, List.mem_append.mpr
              (Or.inr (List.mem_singleton.mpr rfl)), hdp⟩
          · exact Or.inl (mem_removeSubtree_dirs.mpr ⟨hmem, hdp⟩)
        · exact Or.inr ⟨q, List.mem_append.mpr (Or.inl hq), hqp⟩

theorem purge_dirs_go_wf (fail : FailSpec) :
    ∀ (ds : List Path) (st : PurgeDirsState),
      wellFormed st.fs → wellFormed (purge_dirs_go fail st ds).fs := by
  intro ds
  induction ds with
  | nil => intro st h; exact h
  | cons dir tl ih =>
    intro st h
    rw [purge_dirs_go]
    split
    · exact ih _ h
    · split
      · exact ih _ h
      · exact ih _ (wf_removeSubtree dir h)

theorem isFile_removeFile_self (fs : Fs) (q : Path) :
    (fs.removeFile q).isFile q = false := by
  unfold Fs.isFile
  rw [lookupFile_removeFile_self]
  rfl

theorem isFile_removeFile_sub {fs : Fs} {q p : Path}
    (h : (fs.removeFile q).isFile p = true) : fs.isFile p = true := by
  by_cases hpq : p = q
  · subst hpq
    rw [isFile_removeFile_self] at h
    cases h
  · rw [Fs.isFile, lookupFile_removeFile_other fs hpq] at h
    exact h

theorem purge_files_go_dirs (fail : FailSpec) :
    ∀ (l : List Path) (fs : Fs),
      (purge_files_go fail fs l).1.dirs = fs.dirs := by
  intro l
  induction l with
  | nil => intro fs; rfl
  | cons f tl ih =>
    intro fs
    rw [purge_files_go]
    split
    · exact ih fs
    · rw [ih]
      rfl

theorem purge_files_go_isFile_sub (fail : FailSpec) :
    ∀ (l : List Path) (fs : Fs) {p : Path},
      (purge_files_go fail fs l).1.isFile p = true →
      fs.isFile p = true := by
  intro l
  induction l with
  | nil => intro fs p hp; exact hp
  | cons f tl ih =>
    intro fs p hp
    rw [purge_files_go] at hp
    split at hp
    · exact ih fs hp
    · exact isFile_removeFile_sub (ih _ hp)

theorem purge_files_go_lookup_not_mem (fail : FailSpec) :
    ∀ (l : List Path) (fs : Fs) {p : Path}, p ∉ l →
      (purge_files_go fail fs l).1.lookupFile p = fs.lookupFile p := by
  intro l
  induction l with
  | nil => intro fs p _; rfl
  | cons f tl ih =>
    intro fs p hp
    rw [purge_files_go]
    split
    · exact ih fs (fun hc => hp (List.mem_cons_of_mem _ hc))
    · rw [ih _ (fun hc => hp (List.mem_cons_of_mem _ hc)),
        lookupFile_removeFile_other fs
          (fun hc => hp (by rw [hc]; exact List.mem_cons_self _ _))]

theorem purge_files_go_wf (fail : FailSpec) :
    ∀ (l : List Path) (fs : Fs), wellFormed fs →
      wellFormed (purge_files_go fail fs l).1 := by
  intro l
  induction l with
  | nil => intro fs h; exact h
  | cons f tl ih =>
    intro fs h
    rw [purge_files_go]
    split
    · exact ih fs h
    · exact ih _ (wf_removeFile f h)

theorem purge_files_go_complete (fail : FailSpec) :
    ∀ (l : List Path) (fs : Fs),
      (purge_files_go fail fs l).2.1 = [] →
      ∀ g ∈ l, (purge_files_go fail fs l).1.isFile g = false := by
  intro l
  induction l with
  | nil => intro fs _ g hg; cases hg
  | cons f tl ih =>
    intro fs hok g hg
    rw [purge_files_go] at hok ⊢
    split at hok
    · next hcond =>
      exfalso
      simp only at hok
      cases hok
    · next hcond =>
      rw [if_neg hcond]
      simp only at hok
      rcases List.mem_cons.mp hg with rfl | hg
      · cases hb : (purge_files_go fail (fs.removeFile g) tl).1.isFile g
        · rfl
        · have := purge_files_go_isFile_sub fail tl _ hb
          rw [isFile_removeFile_self] at this
          cases this
      · exact ih _ hok g hg

theorem purge_files_go_removed_mem (fail : FailSpec) :
    ∀ (l : List Path) (fs : Fs) {p : Path},
      fs.isFile p = true →
      ¬ (purge_files_go fail fs l).1.isFile p = true → p ∈ l := by
  intro l
  induction l with
  | nil => intro fs p hp hnp; exact absurd hp hnp
  | cons f tl ih =>
    intro fs p hp hnp
    rw [purge_files_go] at hnp
    split at hnp
    · exact List.mem_cons_of_mem _ (ih fs hp hnp)
    · by_cases hpf : p = f
      · exact hpf ▸ List.mem_cons_self _ _
      · refine List.mem_cons_of_mem _ (ih _ ?_ hnp)
        rw [Fs.isFile, lookupFile_removeFile_other fs hpf]
        exact hp

theorem purge_files_go_no_errors (fail : FailSpec) :
    ∀ (l : List Path) (fs : Fs),
      (∀ f ∈ l, fail.remove_file f = false) → l.Nodup →
      (∀ f ∈ l, fs.isFile f = true) →
      (purge_files_go fail fs l).2.1 = [] := by
  intro l
  induction l with
  | nil => intro fs _ _ _; rfl
  | cons f tl ih =>
    intro fs hfail hnd hall
    rw [purge_files_go]
    split
    · next hcond =>
      exfalso
      rw [hfail f (List.mem_cons_self _ _), Bool.false_or,
        Bool.not_eq_true'] at hcond
      rw [hall f (List.mem_cons_self _ _)] at hcond
      cases hcond
    · simp only
      refine ih _ (fun g hg => hfail g (List.mem_cons_of_mem _ hg))
        (List.Nodup.of_cons hnd) ?_
      intro g hg
      have hgf : g ≠ f := fun hc =>
        (List.nodup_cons.mp hnd).1 (hc ▸ hg)
      rw [Fs.isFile, lookupFile_removeFile_other fs hgf]
      exact hall g (List.mem_cons_of_mem _ hg)

theorem insertSorted_perm (le : Path → Path → Bool) (x : Path) :
    ∀ l : List Path, (insertSorted le x l).Perm (x :: l) := by
  intro l
  induction l with
  | nil => exact List.Perm.refl _
  | cons y ys ih =>
    rw [insertSorted]
    split
    · exact List.Perm.refl _
    · exact (List.Perm.cons y ih).trans (List.Perm.swap x y ys)

theorem sortPaths_perm (le : Path → Path → Bool) :
    ∀ l : List Path, (sortPaths le l).Perm l := by
  intro l
  induction l with
  | nil => exact List.Perm.refl _
  | cons x xs ih =>
    rw [sortPaths]
    exact (insertSorted_perm le x _).trans (List.Perm.cons x ih)

theorem sortPaths_nodup {le : Path → Path → Bool} {l : List Path}
    (h : l.Nodup) : (sortPaths le l).Nodup :=
  (sortPaths_perm le l).nodup_iff.mpr h

theorem purge_dirs_go_msgs (fail : FailSpec) :
    ∀ (ds : List Path) (st : PurgeDirsState) {m : Message},
      m ∈ (purge_dirs_go fail st ds).msgs →
      m ∈ st.msgs ∨ ∀ s t, m ≠ Message.Info (Info.StartCopingFile s t) := by
  intro ds
  induction ds with
  | nil => intro st m hm; exact Or.inl hm
  | cons dir tl ih =>
    intro st m hm
    rw [purge_dirs_go] at hm
    split at hm
    · rcases ih _ hm with hm | hm
      · rcases List.mem_append.mp hm with hm | hm
        · exact Or.inl hm
        · rw [List.mem_singleton] at hm
          subst hm
          exact Or.inr (fun s t hc => by simp at hc)
      · exact Or.inr hm
    · split at hm
      · rcases ih _ hm with hm | hm
        · rcases List.mem_append.mp hm with hm | hm
          · exact Or.inl hm
          · rw [List.mem_singleton] at hm
            subst hm
            exact Or.inr (fun s t hc => by simp at hc)
        · exact Or.inr hm
      · rcases ih _ hm with hm | hm
        · rcases List.mem_append.mp hm with hm | hm
          · exact Or.inl hm
          · simp only [List.mem_cons] at hm
            rcases hm with rfl | rfl | hm
            · exact Or.inr (fun s t hc => by simp at hc)
            · exact Or.inr (fun s t hc => by simp at hc)
            · cases hm
        · exact Or.inr hm

theorem purge_files_go_msgs (fail : FailSpec) :
    ∀ (l : List Path) (fs : Fs) {m : Message},
      m ∈ (purge_files_go fail fs l).2.2 →
      ∀ s t, m ≠ Message.Info (Info.StartCopingFile s t) := by
  intro l
  induction l with
  | nil => intro fs m hm; cases hm
  | cons f tl ih =>
    intro fs m hm
    rw [purge_files_go] at hm
    split at hm
    · simp only at hm
      rcases List.mem_append.mp hm with hm | hm
      · rw [List.mem_singleton] at hm
        subst hm
        exact fun s t hc => by simp at hc
      · exact ih _ hm
    · simp only at hm
      rcases List.mem_append.mp hm with hm | hm
      · rcases List.mem_append.mp hm with hm | hm
        · rw [List.mem_singleton] at hm
          subst hm
          exact fun s t hc => by simp at hc
        · rw [List.mem_singleton] at hm
          subst hm
          exact fun s t hc => by simp at hc
      · exact ih _ hm

theorem walkAux_queue_nil (fs : Fs) (mode : ReadDirType) :
    ∀ fuel : Nat, walkAux fs mode fuel [] = [] := by
  intro fuel
  cases fuel with
  | zero => rfl
  | succ n => rfl

theorem walk_dirs_of_no_child {fs : Fs} {root : Path}
    (h : childDirs fs root = []) :
    walk fs ReadDirType.DirectoriesOnly root = [] := by
  unfold walk
  rw [h, walkAux_queue_nil]

theorem walk_files_of_no_child {fs : Fs} {root : Path}
    (h : childDirs fs root = []) :
    walk fs ReadDirType.FilesOnly root = filesIn fs root := by
  unfold walk
  rw [h, walkAux_queue_nil, List.append_nil]

theorem filesIn_nodup {fs : Fs} (h : (fs.files.map Prod.fst).Nodup)
    (d : Path) : (filesIn fs d).Nodup :=
  h.filter _

theorem backup_ok_shape (fail : FailSpec) (src dst : Path) (fs : Fs)
    (hok : (backup fail src dst fs).2.2 = Except.ok ()) :
    try_new_ok fs src = true ∧
    (processDirs fail src dst fs []
      (walk fs ReadDirType.DirectoriesOnly src)).errors = [] ∧
    (processFiles fail src dst []
      (processDirs fail src dst fs []
        (walk fs ReadDirType.DirectoriesOnly src)).fs
      (walk (processDirs fail src dst fs []
        (walk fs ReadDirType.DirectoriesOnly src)).fs
        ReadDirType.FilesOnly src)).2.1 = [] ∧
    (backup fail src dst fs).1 = (processFiles fail src dst []
      (processDirs fail src dst fs []
        (walk fs ReadDirType.DirectoriesOnly src)).fs
      (walk (processDirs fail src dst fs []
        (walk fs ReadDirType.DirectoriesOnly src)).fs
        ReadDirType.FilesOnly src)).1 := by
  by_cases htn : try_new_ok fs src = true
  case neg =>
    exfalso
    rw [Bool.not_eq_true] at htn
    unfold backup create_all_directories_in_destination at hok
    simp [htn] at hok
  have htn₂ : try_new_ok (processDirs fail src dst fs []
      (walk fs ReadDirType.DirectoriesOnly src)).fs src = true := by
    unfold try_new_ok Fs.isDir at htn ⊢
    exact decide_eq_true (processDirs_dirs_super fail src dst _ fs []
      (of_decide_eq_true htn))
  unfold backup create_all_directories_in_destination
    backup_all_files at hok ⊢
  rw [htn] at hok ⊢
  simp only [Bool.not_true, Bool.false_eq_true, if_false] at hok ⊢
  rw [htn₂] at hok ⊢
  simp only [Bool.not_true, Bool.false_eq_true, if_false] at hok ⊢
  split at hok
  · next hemp =>
    rw [List.isEmpty_iff, List.append_eq_nil] at hemp
    obtain ⟨h1, h2⟩ := hemp
    rw [h1] at h2 ⊢
    simp only [List.filterMap_nil] at h2 ⊢
    exact ⟨trivial, trivial, h2, trivial⟩
  · exact absurd hok (by simp)

theorem backup_facts (fail : FailSpec) (src dst : Path) (fs : Fs)
    (hwf : wellFormed fs)
    (hok : (backup fail src dst fs).2.2 = Except.ok ()) :
    wellFormed (backup fail src dst fs).1 ∧
    (∀ p, p ∈ (backup fail src dst fs).1.dirs →
      p ∈ fs.dirs ∨ dst <+: p) ∧
    (∀ p, p ∈ fs.dirs → p ∈ (backup fail src dst fs).1.dirs) ∧
    (∀ q, ¬ dst <+: q → (backup fail src dst fs).1.lookupFile q =
      fs.lookupFile q) ∧
    (∀ p, p ∈ fs.dirs → src <+: p → p ≠ src →
      dst ++ p.drop src.length ∈ (backup fail src dst fs).1.dirs) ∧
    (∀ f, fs.isFile f = true → src <+: f → f ≠ src →
      (backup fail src dst fs).1.isFile
        (dst ++ f.drop src.length) = true) ∧
    fs.isDir src = true ∧
    (∀ p, fs.isFile p = true →
      (backup fail src dst fs).1.isFile p = true) := by
  obtain ⟨htn, herrs, hferrs, hres⟩ := backup_ok_shape fail src dst fs hok
  have hwfpd : wellFormed (processDirs fail src dst fs []
      (walk fs ReadDirType.DirectoriesOnly src)).fs :=
    processDirs_wf fail src dst _ fs [] hwf
  have hfiles_eq : (processDirs fail src dst fs []
      (walk fs ReadDirType.DirectoriesOnly src)).fs.files = fs.files :=
    processDirs_files fail src dst _ fs []
  refine ⟨?_, ?_, ?_, ?_, ?_, ?_, htn, ?_⟩
  · rw [hres]
    exact processFiles_wf fail src dst _ _ _ hwfpd
  · intro p hp
    rw [hres, processFiles_dirs] at hp
    exact processDirs_dirs_local fail src dst _ fs [] hp
  · intro p hp
    rw [hres, processFiles_dirs]
    exact processDirs_dirs_super fail src dst _ fs [] hp
  · intro q hq
    rw [hres, processFiles_lookup_outside fail src dst [] _ _ hq,
      lookup_congr_files hfiles_eq q]
  · intro p hp hpre hne
    rw [hres, processFiles_dirs]
    have hmem : p ∈ walk fs ReadDirType.DirectoriesOnly src :=
      (walk_dirs_mem_iff hwf.2.2.1).mpr ⟨hp, hpre, hne⟩
    exact (processDirs_success fail src dst _ fs herrs p hmem).2
  · intro f hf hpre hne
    have hf₂ : (processDirs fail src dst fs []
        (walk fs ReadDirType.DirectoriesOnly src)).fs.isFile f = true := by
      rw [Fs.isFile, lookup_congr_files hfiles_eq f]
      exact hf
    have hmem : f ∈ walk (processDirs fail src dst fs []
        (walk fs ReadDirType.DirectoriesOnly src)).fs
        ReadDirType.FilesOnly src :=
      (walk_files_mem_iff hwfpd.2.2.1 hwfpd.2.2.2.1).mpr ⟨hf₂, hpre, hne⟩
    rw [hres]
    exact processFiles_errors_nil_isFile fail src dst _ _
      (fun g hg => ⟨(walk_strict_descendant hg).1, walk_files_isFile hg⟩)
      hferrs f hmem
  · intro p hp
    rw [hres]
    refine processFiles_isFile_super fail src dst [] _ _ ?_
    rw [Fs.isFile, lookup_congr_files hfiles_eq p]
    exact hp

theorem backup_content (fail : FailSpec) (src dst : Path) (fs : Fs)
    (hwf : wellFormed fs) (hinc : rootsIncomparable src dst)
    (hsm : ∀ p, fail.set_modified p = false)
    (hok : (backup fail src dst fs).2.2 = Except.ok ()) :
    ∀ f, fs.isFile f = true → src <+: f → f ≠ src →
      (backup fail src dst fs).1.lookupFile
        (dst ++ f.drop src.length) =
      (backup fail src dst fs).1.lookupFile f := by
  obtain ⟨htn, herrs, hferrs, hres⟩ := backup_ok_shape fail src dst fs hok
  have hwfpd : wellFormed (processDirs fail src dst fs []
      (walk fs ReadDirType.DirectoriesOnly src)).fs :=
    processDirs_wf fail src dst _ fs [] hwf
  have hfiles_eq : (processDirs fail src dst fs []
      (walk fs ReadDirType.DirectoriesOnly src)).fs.files = fs.files :=
    processDirs_files fail src dst _ fs []
  intro f hf hpre hne
  have hf₂ : (processDirs fail src dst fs []
      (walk fs ReadDirType.DirectoriesOnly src)).fs.isFile f = true := by
    rw [Fs.isFile, lookup_congr_files hfiles_eq f]
    exact hf
  have hmem : f ∈ walk (processDirs fail src dst fs []
      (walk fs ReadDirType.DirectoriesOnly src)).fs
      ReadDirType.FilesOnly src :=
    (walk_files_mem_iff hwfpd.2.2.1 hwfpd.2.2.2.1).mpr ⟨hf₂, hpre, hne⟩
  rw [hres]
  exact processFiles_content fail src dst hinc hsm _ _
    (fun g hg => ⟨(walk_strict_descendant hg).1, walk_files_isFile hg⟩)
    hferrs f hmem

theorem purge_ok_shape (fail : FailSpec) (src dst : Path) (fs : Fs)
    (dd fd : List Path)
    (hdd : get_paths_in_destinatination_but_not_in_source fs
      ReadDirType.DirectoriesOnly src dst = Except.ok dd)
    (hfd : get_paths_in_destinatination_but_not_in_source
      (purge_dirs_go fail ⟨fs, [], [], []⟩ dd).fs
      ReadDirType.FilesOnly src dst = Except.ok fd)
    (hok : (purge_files_and_dirs_in_destination fail src dst fs).2.2 =
      Except.ok ()) :
    (purge_dirs_go fail ⟨fs, [], [], []⟩ dd).errors = [] ∧
    (purge_files_go fail (purge_dirs_go fail ⟨fs, [], [], []⟩ dd).fs
      fd).2.1 = [] ∧
    (purge_files_and_dirs_in_destination fail src dst fs).1 =
      (purge_files_go fail (purge_dirs_go fail ⟨fs, [], [], []⟩ dd).fs
        fd).1 := by
  by_cases h1 : try_new_ok fs src = true
  case neg =>
    rw [Bool.not_eq_true] at h1
    unfold purge_files_and_dirs_in_destination at hok
    simp [h1] at hok
  by_cases h2 : try_new_ok fs dst = true
  case neg =>
    rw [Bool.not_eq_true] at h2
    unfold purge_files_and_dirs_in_destination at hok
    simp [h1, h2] at hok
  by_cases h3 : try_new_ok (purge_dirs_go fail ⟨fs, [], [], []⟩ dd).fs
      src = true
  case neg =>
    rw [Bool.not_eq_true] at h3
    unfold purge_files_and_dirs_in_destination at hok
    simp [h1, h2, hdd, h3] at hok
  by_cases h4 : try_new_ok (purge_dirs_go fail ⟨fs, [], [], []⟩ dd).fs
      dst = true
  case neg =>
    rw [Bool.not_eq_true] at h4
    unfold purge_files_and_dirs_in_destination at hok
    simp [h1, h2, hdd, h3, h4] at hok
  unfold purge_files_and_dirs_in_destination at hok ⊢
  rw [hdd] at hok ⊢
  simp only [h1, h2, h3, h4, Bool.not_true, Bool.false_eq_true, if_false,
    hfd] at hok ⊢
  split at hok
  · next hcond =>
    rw [Bool.and_eq_true, List.isEmpty_iff, List.isEmpty_iff] at hcond
    obtain ⟨he1, he2⟩ := hcond
    refine ⟨he1, he2, ?_⟩
    rw [if_pos ?_]
    rw [Bool.and_eq_true, List.isEmpty_iff, List.isEmpty_iff]
    exact ⟨he1, he2⟩
  · cases hok

theorem purge_ok_mirror (fail : FailSpec) (src dst : Path) (fs₂ : Fs)
    (hwf₂ : wellFormed fs₂) (hinc : rootsIncomparable src dst)
    (hok : (purge_files_and_dirs_in_destination fail src dst fs₂).2.2 =
      Except.ok ()) :
    (∀ p, ¬ dst <+: p →
      ((p ∈ (purge_files_and_dirs_in_destination fail src dst
          fs₂).1.dirs ↔ p ∈ fs₂.dirs) ∧
       ((purge_files_and_dirs_in_destination fail src dst fs₂).1.isFile p
          = true ↔ fs₂.isFile p = true))) ∧
    (∀ rel : Path, rel ≠ [] →
      dst ++ rel ∈ (purge_files_and_dirs_in_destination fail src dst
        fs₂).1.dirs → src ++ rel ∈ fs₂.dirs) ∧
    (∀ rel : Path, rel ≠ [] →
      (purge_files_and_dirs_in_destination fail src dst fs₂).1.isFile
        (dst ++ rel) = true → fs₂.isFile (src ++ rel) = true) ∧
    (∀ rel : Path, rel ≠ [] → dst ++ rel ∈ fs₂.dirs →
      src ++ rel ∈ fs₂.dirs →
      dst ++ rel ∈ (purge_files_and_dirs_in_destination fail src dst
        fs₂).1.dirs) ∧
    (∀ rel : Path, rel ≠ [] → fs₂.isFile (dst ++ rel) = true →
      fs₂.isFile (src ++ rel) = true →
      (purge_files_and_dirs_in_destination fail src dst fs₂).1.isFile
        (dst ++ rel) = true) := by
  obtain ⟨dd, hdd⟩ : ∃ dd, get_paths_in_destinatination_but_not_in_source
      fs₂ ReadDirType.DirectoriesOnly src dst = Except.ok dd :=
    ⟨_, get_paths_eq _ _ _ _⟩
  obtain ⟨fd, hfd⟩ : ∃ fd, get_paths_in_destinatination_but_not_in_source
      (purge_dirs_go fail ⟨fs₂, [], [], []⟩ dd).fs
      ReadDirType.FilesOnly src dst = Except.ok fd :=
    ⟨_, get_paths_eq _ _ _ _⟩
  obtain ⟨herr1, herr2, hres⟩ :=
    purge_ok_shape fail src dst fs₂ dd fd hdd hfd hok
  have hwfst : wellFormed (purge_dirs_go fail ⟨fs₂, [], [], []⟩ dd).fs :=
    purge_dirs_go_wf fail dd _ hwf₂
  have hPdirs : (purge_files_and_dirs_in_destination fail src dst
      fs₂).1.dirs = (purge_dirs_go fail ⟨fs₂, [], [], []⟩ dd).fs.dirs := by
    rw [hres, purge_files_go_dirs]
  have hdd_absent : ∀ q ∈ dd, ∀ p, q <+: p →
      p ∉ (purge_dirs_go fail ⟨fs₂, [], [], []⟩ dd).fs.dirs ∧
      (purge_dirs_go fail ⟨fs₂, [], [], []⟩ dd).fs.isFile p = false := by
    intro q hq p hp
    obtain ⟨d', hd', hdp⟩ := purge_dirs_go_complete fail dd _ herr1 q hq
    have habs := purge_dirs_go_deleted_absent fail dd ⟨fs₂, [], [], []⟩
      (by intro d hd; cases hd) d' hd'
    exact habs p (hdp.trans hp)
  have hddq : ∀ q ∈ dd, dst <+: q ∧ q ≠ dst ∧
      q.drop dst.length ∉ (walk fs₂ ReadDirType.DirectoriesOnly src).map
        (fun p => p.drop src.length) := by
    intro q hq
    obtain ⟨hw, hfil⟩ := (get_paths_mem hdd q).mp hq
    exact ⟨(walk_strict_descendant hw).1, (walk_strict_descendant hw).2,
      hfil⟩
  -- src-side preservation
  have hpres_dirs : ∀ p, ¬ dst <+: p →
      (p ∈ (purge_files_and_dirs_in_destination fail src dst
        fs₂).1.dirs ↔ p ∈ fs₂.dirs) := by
    intro p hp
    rw [hPdirs]
    constructor
    · exact fun h => purge_dirs_go_dirs_sub fail dd _ h
    · intro h
      by_contra hnot
      obtain ⟨q, hq, hqp⟩ := purge_dirs_go_removed_dirs fail dd
        ⟨fs₂, [], [], []⟩ h hnot
      exact hp ((hddq q hq).1.trans hqp)
  have hpres_files : ∀ p, ¬ dst <+: p →
      ((purge_files_and_dirs_in_destination fail src dst fs₂).1.isFile p
        = true ↔ fs₂.isFile p = true) := by
    intro p hp
    constructor
    · intro h
      rw [hres] at h
      exact purge_dirs_go_isFile_sub fail dd _
        (purge_files_go_isFile_sub fail fd _ h)
    · intro h
      have hst : (purge_dirs_go fail ⟨fs₂, [], [], []⟩ dd).fs.isFile p
          = true := by
        by_contra hnot
        obtain ⟨q, hq, hqp⟩ := purge_dirs_go_removed_files fail dd
          ⟨fs₂, [], [], []⟩ h hnot
        exact hp ((hddq q hq).1.trans hqp)
      by_contra hnot
      rw [hres] at hnot
      have hmem := purge_files_go_removed_mem fail fd _ hst hnot
      obtain ⟨hw, _⟩ := (get_paths_mem hfd p).mp hmem
      exact hp (walk_strict_descendant hw).1
  refine ⟨fun p hp => ⟨hpres_dirs p hp, hpres_files p hp⟩, ?_, ?_, ?_, ?_⟩
  · -- dirs, destination side implies source side
    intro rel hne hmem
    rw [hPdirs] at hmem
    have h2 : dst ++ rel ∈ fs₂.dirs := purge_dirs_go_dirs_sub fail dd _ hmem
    by_contra hnot
    have hddne : dst ++ rel ≠ dst := fun hc => hne (by
      have := congrArg List.length hc
      rw [List.length_append] at this
      exact List.eq_nil_of_length_eq_zero (by omega))
    have hwalk : dst ++ rel ∈ walk fs₂ ReadDirType.DirectoriesOnly dst :=
      (walk_dirs_mem_iff hwf₂.2.2.1).mpr
        ⟨h2, List.prefix_append _ _, hddne⟩
    have hfil : (dst ++ rel).drop dst.length ∉
        (walk fs₂ ReadDirType.DirectoriesOnly src).map
          (fun p => p.drop src.length) := by
      rw [List.drop_left]
      intro hc
      rw [List.mem_map] at hc
      obtain ⟨p, hp, hdrop⟩ := hc
      have hpmem := (walk_dirs_mem_iff hwf₂.2.2.1).mp hp
      have hpeq : p = src ++ rel := by
        rw [← prefix_append_drop hpmem.2.1, hdrop]
      exact hnot (hpeq ▸ hpmem.1)
    have hin : dst ++ rel ∈ dd :=
      (get_paths_mem hdd _).mpr ⟨hwalk, hfil⟩
    exact (hdd_absent _ hin (dst ++ rel) (List.prefix_refl _)).1 hmem
  · -- files, destination side implies source side
    intro rel hne hfile
    have hst : (purge_dirs_go fail ⟨fs₂, [], [], []⟩ dd).fs.isFile
        (dst ++ rel) = true := by
      rw [hres] at hfile
      exact purge_files_go_isFile_sub fail fd _ hfile
    by_contra hnot
    have hddne : dst ++ rel ≠ dst := fun hc => hne (by
      have := congrArg List.length hc
      rw [List.length_append] at this
      exact List.eq_nil_of_length_eq_zero (by omega))
    have hwalk : dst ++ rel ∈ walk (purge_dirs_go fail ⟨fs₂, [], [], []⟩
        dd).fs ReadDirType.FilesOnly dst :=
      (walk_files_mem_iff hwfst.2.2.1 hwfst.2.2.2.1).mpr
        ⟨hst, List.prefix_append _ _, hddne⟩
    have hfil : (dst ++ rel).drop dst.length ∉
        (walk (purge_dirs_go fail ⟨fs₂, [], [], []⟩ dd).fs
          ReadDirType.FilesOnly src).map
          (fun p => p.drop src.length) := by
      rw [List.drop_left]
      intro hc
      rw [List.mem_map] at hc
      obtain ⟨p, hp, hdrop⟩ := hc
      have hpmem := (walk_files_mem_iff hwfst.2.2.1 hwfst.2.2.2.1).mp hp
      have hpeq : p = src ++ rel := by
        rw [← prefix_append_drop hpmem.2.1, hdrop]
      have hsrcfile : (purge_dirs_go fail ⟨fs₂, [], [], []⟩ dd).fs.isFile
          (src ++ rel) = true := hpeq ▸ hpmem.1
      exact hnot (purge_dirs_go_isFile_sub fail dd _ hsrcfile)
    have hin : dst ++ rel ∈ fd :=
      (get_paths_mem hfd _).mpr ⟨hwalk, hfil⟩
    have := purge_files_go_complete fail fd _ herr2 _ hin
    rw [hres] at hfile
    rw [this] at hfile
    cases hfile
  · -- dirs, source side implies survival on the destination side
    intro rel hne hd2 hs2
    rw [hPdirs]
    by_contra hnot
    obtain ⟨q, hq, hqp⟩ := purge_dirs_go_removed_dirs fail dd
      ⟨fs₂, [], [], []⟩ hd2 hnot
    obtain ⟨hdq, hqne, hqfil⟩ := hddq q hq
    have hqeq : dst ++ q.drop dst.length = q := prefix_append_drop hdq
    have hrq : q.drop dst.length <+: rel := by
      rw [← hqeq] at hqp
      exact (List.prefix_append_right_inj dst).mp hqp
    have hrqne : q.drop dst.length ≠ [] := fun hc => hqne (by
      rw [← hqeq, hc, List.append_nil])
    have hsrcq : src ++ q.drop dst.length ∈ fs₂.dirs :=
      prefix_mem_dirs hwf₂.2.2.1 hs2
        ((List.prefix_append_right_inj src).mpr hrq)
    refine hqfil ?_
    rw [List.mem_map]
    refine ⟨src ++ q.drop dst.length, ?_, List.drop_left _ _⟩
    refine (walk_dirs_mem_iff hwf₂.2.2.1).mpr
      ⟨hsrcq, List.prefix_append _ _, fun hc => hrqne ?_⟩
    have := congrArg List.length hc
    rw [List.length_append] at this
    exact List.eq_nil_of_length_eq_zero (by omega)
  · -- files, source side implies survival on the destination side
    intro rel hne hfd2 hfs2
    have hst : (purge_dirs_go fail ⟨fs₂, [], [], []⟩ dd).fs.isFile
        (dst ++ rel) = true := by
      by_contra hnot
      obtain ⟨q, hq, hqp⟩ := purge_dirs_go_removed_files fail dd
        ⟨fs₂, [], [], []⟩ hfd2 hnot
      obtain ⟨hdq, hqne, hqfil⟩ := hddq q hq
      have hqeq : dst ++ q.drop dst.length = q := prefix_append_drop hdq
      have hrq : q.drop dst.length <+: rel := by
        rw [← hqeq] at hqp
        exact (List.prefix_append_right_inj dst).mp hqp
      have hrqne : q.drop dst.length ≠ [] := fun hc => hqne (by
        rw [← hqeq, hc, List.append_nil])
      have hsrcq : src ++ q.drop dst.length ∈ fs₂.dirs := by
        by_cases hrqrel : q.drop dst.length = rel
        · exfalso
          have hqdir : q ∈ fs₂.dirs := by
            have hw := (get_paths_mem hdd q).mp hq
            exact ((walk_dirs_mem_iff hwf₂.2.2.1).mp hw.1).1
          have hqfile : fs₂.isFile q = true := by
            rw [← hqeq, hrqrel]
            exact hfd2
          exact hwf₂.2.2.2.2 q hqdir (isFile_iff_mem.mp hqfile)
        · have hlt : (q.drop dst.length).length < rel.length :=
            length_lt_of_proper hrq hrqrel
          have hkeys := isFile_iff_mem.mp hfs2
          obtain ⟨hne', hpar⟩ := hwf₂.2.2.2.1 _ hkeys
          refine prefix_mem_dirs hwf₂.2.2.1 hpar ?_
          refine prefix_dropLast_of_length_lt
            ((List.prefix_append_right_inj src).mpr hrq) ?_
          rw [List.length_append, List.length_append]
          omega
      refine hqfil ?_
      rw [List.mem_map]
      refine ⟨src ++ q.drop dst.length, ?_, List.drop_left _ _⟩
      refine (walk_dirs_mem_iff hwf₂.2.2.1).mpr
        ⟨hsrcq, List.prefix_append _ _, fun hc => hrqne ?_⟩
      have := congrArg List.length hc
      rw [List.length_append] at this
      exact List.eq_nil_of_length_eq_zero (by omega)
    rw [hres]
    by_contra hnot
    have hmem := purge_files_go_removed_mem fail fd _ hst hnot
    obtain ⟨hw, hfil⟩ := (get_paths_mem hfd _).mp hmem
    refine hfil ?_
    rw [List.drop_left, List.mem_map]
    have hstsrc : (purge_dirs_go fail ⟨fs₂, [], [], []⟩ dd).fs.isFile
        (src ++ rel) = true := by
      by_contra hnot'
      obtain ⟨q, hq, hqp⟩ := purge_dirs_go_removed_files fail dd
        ⟨fs₂, [], [], []⟩ hfs2 hnot'
      exact not_prefix_of_other_root hinc ((hddq q hq).1.trans hqp)
    refine ⟨src ++ rel, ?_, List.drop_left _ _⟩
    refine (walk_files_mem_iff hwfst.2.2.1 hwfst.2.2.2.1).mpr
      ⟨hstsrc, List.prefix_append _ _, fun hc => hne ?_⟩
    have := congrArg List.length hc
    rw [List.length_append] at this
    exact List.eq_nil_of_length_eq_zero (by omega)

/-- C4: for every `Sync(S, D)` run that returns success, the set of
relative paths under `D` afterwards — directories and files alike — equals
exactly the set of relative paths under `S`: mirroring made every source
path present on the destination side, and the purge deleted every
destination path whose relative path does not occur under the source. -/
theorem sync_success_relative_paths_equal (fail : FailSpec)
    (src dst : Path) (fs F : Fs) (msgs : List Message)
    (hwf : wellFormed fs) (hinc : rootsIncomparable src dst)
    (hrun : run fail (Command.Sync src dst) fs =
      (F, msgs, Except.ok ())) :
    ∀ rel : Path, rel ≠ [] →
      ((dst ++ rel ∈ F.dirs ↔ src ++ rel ∈ F.dirs) ∧
       (F.isFile (dst ++ rel) = true ↔ F.isFile (src ++ rel) = true)) := by
  rcases hv22 : (validate_or_create_root_paths fail src dst fs).2.2
    with e | u
  · simp only [run, hv22] at hrun
    simp at hrun
  · cases u
    rcases hb22 : (backup fail src dst
        (validate_or_create_root_paths fail src dst fs).1).2.2 with e | u
    · simp only [run, hv22, hb22] at hrun
      simp at hrun
    · cases u
      simp only [run, hv22, hb22] at hrun
      rw [Prod.mk.injEq, Prod.mk.injEq] at hrun
      obtain ⟨hF, hm, hp22⟩ := hrun
      obtain ⟨hwf₁, hdd1, hps1, hsub1, hloc1, hfeq1⟩ :=
        validate_ok fail src dst fs hv22 hwf
      obtain ⟨hwf₂, hloc2, hsub2, hlkp2, hmird, hmirf, hsd1, hfsup2⟩ :=
        backup_facts fail src dst _ hwf₁ hb22
      obtain ⟨hApres, hBdir, hCfile, hDdir, hEfile⟩ :=
        purge_ok_mirror fail src dst _ hwf₂ hinc hp22
      rw [hF] at hApres hBdir hCfile hDdir hEfile
      intro rel hrelne
      have hne_dst_src : ¬ dst <+: src ++ rel :=
        not_prefix_of_other_root hinc
      have happne : ∀ a : Path, a ++ rel ≠ a := fun a hc => hrelne (by
        have := congrArg List.length hc
        rw [List.length_append] at this
        exact List.eq_nil_of_length_eq_zero (by omega))
      refine ⟨⟨?_, ?_⟩, ?_, ?_⟩
      · intro h
        exact (hApres (src ++ rel) hne_dst_src).1.mpr
          (hBdir rel hrelne h)
      · intro h
        have hs2 := (hApres (src ++ rel) hne_dst_src).1.mp h
        have hs1 : src ++ rel ∈
            (validate_or_create_root_paths fail src dst fs).1.dirs := by
          rcases hloc2 _ hs2 with h' | h'
          · exact h'
          · exact absurd h' hne_dst_src
        have hd2 : dst ++ rel ∈ (backup fail src dst
            (validate_or_create_root_paths fail src dst fs).1).1.dirs := by
          have := hmird (src ++ rel) hs1 (List.prefix_append _ _)
            (happne src)
          rw [List.drop_left] at this
          exact this
        exact hDdir rel hrelne hd2 hs2
      · intro h
        exact (hApres (src ++ rel) hne_dst_src).2.mpr
          (hCfile rel hrelne h)
      · intro h
        have hs2 := (hApres (src ++ rel) hne_dst_src).2.mp h
        have heq := isFile_eq_of_lookup_eq (hlkp2 (src ++ rel) hne_dst_src)
        have hs1 : (validate_or_create_root_paths fail src dst
            fs).1.isFile (src ++ rel) = true := by
          rw [heq] at hs2
          exact hs2
        have hd2 : (backup fail src dst
            (validate_or_create_root_paths fail src dst fs).1).1.isFile
            (dst ++ rel) = true := by
          have := hmirf (src ++ rel) hs1 (List.prefix_append _ _)
            (happne src)
          rw [List.drop_left] at this
          exact this
        have hs2' := (hApres (src ++ rel) hne_dst_src).2.mp h
        exact hEfile rel hrelne hd2 hs2'

/-- C8: running `Backup(S, D)` a second time right after a successful first
run on an otherwise unchanged filesystem performs zero content copies —
every file is decided Skip (no `StartCopingFile` message is emitted) — and
returns the filesystem unchanged, so all destination hashes are
unchanged. -/
theorem backup_second_run_copies_nothing (src dst : Path) (fs F : Fs)
    (msgs : List Message)
    (hwf : wellFormed fs) (hinc : rootsIncomparable src dst)
    (hrun : run noFail (Command.Backup src dst) fs =
      (F, msgs, Except.ok ())) :
    (run noFail (Command.Backup src dst) F).1 = F ∧
    (run noFail (Command.Backup src dst) F).2.2 = Except.ok () ∧
    ∀ s t, Message.Info (Info.StartCopingFile s t) ∉
      (run noFail (Command.Backup src dst) F).2.1 := by
  rcases hv22 : (validate_or_create_root_paths noFail src dst fs).2.2
    with e | u
  · simp only [run, hv22] at hrun
    simp at hrun
  · cases u
    simp only [run, hv22] at hrun
    rw [Prod.mk.injEq, Prod.mk.injEq] at hrun
    obtain ⟨hF, hm, hb22⟩ := hrun
    obtain ⟨hwf₁, hdd1, hps1, hsub1, hloc1, hfeq1⟩ :=
      validate_ok noFail src dst fs hv22 hwf
    obtain ⟨hwf₂, hloc2, hsub2, hlkp2, hmird, hmirf, hsd1, hfsup2⟩ :=
      backup_facts noFail src dst _ hwf₁ hb22
    have hcont := backup_content noFail src dst _ hwf₁ hinc
      (fun p => rfl) hb22
    rw [hF] at hwf₂ hloc2 hsub2 hlkp2 hmird hmirf hfsup2 hcont
    have hsrcF : src ∈ F.dirs := hsub2 src (of_decide_eq_true hsd1)
    have hdstF : dst ∈ F.dirs := hsub2 dst (of_decide_eq_true hdd1)
    have hnotdst : ∀ g : Path, src <+: g → ¬ dst <+: g := by
      intro g hgp hc
      rw [← prefix_append_drop hgp] at hc
      exact not_prefix_of_other_root hinc hc
    have happne : ∀ (a rel : Path), rel ≠ [] → a ++ rel ≠ a := by
      intro a rel hrelne hc
      refine hrelne ?_
      have := congrArg List.length hc
      rw [List.length_append] at this
      exact List.eq_nil_of_length_eq_zero (by omega)
    have hFtofs₁dirs : ∀ p, p ∈ F.dirs → src <+: p → p ∈
        (validate_or_create_root_paths noFail src dst fs).1.dirs := by
      intro p hp hpre
      rcases hloc2 p hp with h' | h'
      · exact h'
      · exact absurd h' (hnotdst p hpre)
    have hFtofs₁lookup : ∀ p, src <+: p → F.lookupFile p =
        (validate_or_create_root_paths noFail src dst fs).1.lookupFile
          p := by
      intro p hpre
      exact hlkp2 p (hnotdst p hpre)
    have hds2 : ∀ d ∈ walk F ReadDirType.DirectoriesOnly src,
        src <+: d ∧ F.pathExists (dst ++ d.drop src.length) = true ∧
        F.isDir (dst ++ d.drop src.length) = true := by
      intro d hd
      obtain ⟨hdm, hdp, hdn⟩ := (walk_dirs_mem_iff hwf₂.2.2.1).mp hd
      have hmem : dst ++ d.drop src.length ∈ F.dirs :=
        hmird d (hFtofs₁dirs d hdm hdp) hdp hdn
      have hdir : F.isDir (dst ++ d.drop src.length) = true :=
        decide_eq_true hmem
      refine ⟨hdp, ?_, hdir⟩
      unfold Fs.pathExists
      rw [hdir]
      rfl
    have hfiles2 : ∀ f ∈ walk F ReadDirType.FilesOnly src,
        src <+: f ∧ F.isFile f = true ∧
        F.lookupFile (dst ++ f.drop src.length) = F.lookupFile f := by
      intro f hf
      obtain ⟨hfm, hfp, hfn⟩ :=
        (walk_files_mem_iff hwf₂.2.2.1 hwf₂.2.2.2.1).mp hf
      have hf₁ : (validate_or_create_root_paths noFail src dst
          fs).1.isFile f = true := by
        rw [← isFile_eq_of_lookup_eq (hFtofs₁lookup f hfp)]
        exact hfm
      exact ⟨hfp, hfm, hcont f hf₁ hfp hfn⟩
    have htnF : try_new_ok F src = true := decide_eq_true hsrcF
    have hv2 : validate_or_create_root_paths noFail src dst F =
        (F, [], Except.ok ()) := by
      refine validate_existing noFail ?_ (decide_eq_true hdstF)
      unfold Fs.pathExists
      have hd : F.isDir src = true := decide_eq_true hsrcF
      rw [hd]
      rfl
    have hb2 : backup noFail src dst F =
        (F,
          ([Message.Progress (Progress.Start
              (walk F ReadDirType.DirectoriesOnly src).length
              ProgressType.CreatingDirectories)] ++
            (walk F ReadDirType.DirectoriesOnly src).map
              (fun d => Message.Progress (Progress.Increment
                (Increment.DestinationDirAlreadyExists d
                  (dst ++ d.drop src.length)))) ++
            [Message.Progress (Progress.End
              ProgressType.CreatingDirectories)]) ++
          ([Message.Progress (Progress.Start
              (walk F ReadDirType.FilesOnly src).length
              ProgressType.CopingFiles)] ++
            (walk F ReadDirType.FilesOnly src).map
              (fun f => Message.Progress (Progress.Increment
                (Increment.SkippingFileNoModification f
                  (dst ++ f.drop src.length)))) ++
            [Message.Progress (Progress.End ProgressType.CopingFiles)]),
          Except.ok ()) := by
      unfold backup create_all_directories_in_destination backup_all_files
      simp only [htnF, Bool.not_true, Bool.false_eq_true, if_false,
        processDirs_all_exists noFail src dst _ F hds2,
        List.filterMap_nil,
        processFiles_all_same noFail src dst _ F hfiles2,
        List.append_nil, List.isEmpty_nil, if_true]
    refine ⟨?_, ?_, ?_⟩
    · simp only [run, hv2, hb2]
    · simp only [run, hv2, hb2]
    · intro s t hmem
      simp only [run, hv2, hb2] at hmem
      rw [List.nil_append] at hmem
      rcases List.mem_append.mp hmem with hm | hm
      · rcases List.mem_append.mp hm with hm | hm
        · rcases List.mem_append.mp hm with hm | hm
          · rw [List.mem_singleton] at hm
            cases hm
          · rw [List.mem_map] at hm
            obtain ⟨d, _, hd⟩ := hm
            cases hd
        · rw [List.mem_singleton] at hm
          cases hm
      · rcases List.mem_append.mp hm with hm | hm
        · rcases List.mem_append.mp hm with hm | hm
          · rw [List.mem_singleton] at hm
            cases hm
          · rw [List.mem_map] at hm
            obtain ⟨d, _, hd⟩ := hm
            cases hd
        · rw [List.mem_singleton] at hm
          cases hm

theorem purge_with_empty_source_root_empties_destination
    (er vr : Path) (g : Fs)
    (hwfg : wellFormed g) (hinc : rootsIncomparable vr er)
    (hvrg : vr ∈ g.dirs) (herg : er ∈ g.dirs)
    (hempty_dirs : ∀ p, er <+: p → p ≠ er → p ∉ g.dirs)
    (hempty_files : ∀ p, er <+: p → g.isFile p = false) :
    (purge_files_and_dirs_in_destination noFail er vr g).2.2 =
      Except.ok () ∧
    er ∈ (purge_files_and_dirs_in_destination noFail er vr g).1.dirs ∧
    vr ∈ (purge_files_and_dirs_in_destination noFail er vr g).1.dirs ∧
    (∀ p, er <+: p → p ≠ er →
      p ∉ (purge_files_and_dirs_in_destination noFail er vr g).1.dirs ∧
      (purge_files_and_dirs_in_destination noFail er vr g).1.isFile p =
        false) ∧
    (∀ p, vr <+: p → p ≠ vr →
      p ∉ (purge_files_and_dirs_in_destination noFail er vr g).1.dirs ∧
      (purge_files_and_dirs_in_destination noFail er vr g).1.isFile p =
        false) ∧
    (∀ m ∈ (purge_files_and_dirs_in_destination noFail er vr g).2.1,
      ∀ s t, m ≠ Message.Info (Info.StartCopingFile s t)) := by
  have hdd := get_paths_eq g ReadDirType.DirectoriesOnly er vr
  obtain ⟨dd, hddv⟩ : ∃ dd, get_paths_in_destinatination_but_not_in_source
      g ReadDirType.DirectoriesOnly er vr = Except.ok dd := ⟨_, hdd⟩
  have hddchar : ∀ q, q ∈ dd ↔
      q ∈ walk g ReadDirType.DirectoriesOnly vr := by
    intro q
    rw [get_paths_mem hddv q]
    constructor
    · exact fun h => h.1
    · intro h
      refine ⟨h, fun hc => ?_⟩
      rw [List.mem_map] at hc
      obtain ⟨p, hp, _⟩ := hc
      have hs := walk_strict_descendant hp
      exact hempty_dirs p hs.1 hs.2
        ((walk_dirs_mem_iff hwfg.2.2.1).mp hp).1
  have herrD : (purge_dirs_go noFail ⟨g, [], [], []⟩ dd).errors = [] := by
    refine purge_dirs_go_no_errors noFail dd _ (fun d _ => rfl) ?_
    intro d hd
    exact Or.inl ((walk_dirs_mem_iff hwfg.2.2.1).mp
      ((hddchar d).mp hd)).1
  have habs : ∀ q ∈ dd, ∀ p, q <+: p →
      p ∉ (purge_dirs_go noFail ⟨g, [], [], []⟩ dd).fs.dirs ∧
      (purge_dirs_go noFail ⟨g, [], [], []⟩ dd).fs.isFile p = false := by
    intro q hq p hp
    obtain ⟨d', hd', hdp⟩ := purge_dirs_go_complete noFail dd _ herrD q hq
    have habs2 := purge_dirs_go_deleted_absent noFail dd ⟨g, [], [], []⟩
      (by intro d hd; cases hd) d' hd'
    exact habs2 p (hdp.trans hp)
  have hwfst : wellFormed (purge_dirs_go noFail ⟨g, [], [], []⟩ dd).fs :=
    purge_dirs_go_wf noFail dd _ hwfg
  have hvrst : vr ∈ (purge_dirs_go noFail ⟨g, [], [], []⟩ dd).fs.dirs := by
    by_contra hnot
    obtain ⟨q, hq, hqp⟩ := purge_dirs_go_removed_dirs noFail dd
      ⟨g, [], [], []⟩ hvrg hnot
    have hs := walk_strict_descendant ((hddchar q).mp hq)
    exact hs.2 (List.IsPrefix.eq_of_length hqp
      (Nat.le_antisymm hqp.length_le hs.1.length_le))
  have herst : er ∈ (purge_dirs_go noFail ⟨g, [], [], []⟩ dd).fs.dirs := by
    by_contra hnot
    obtain ⟨q, hq, hqp⟩ := purge_dirs_go_removed_dirs noFail dd
      ⟨g, [], [], []⟩ herg hnot
    have hs := walk_strict_descendant ((hddchar q).mp hq)
    exact hinc.1 (hs.1.trans hqp)
  have hstempty_d : ∀ p, vr <+: p → p ≠ vr →
      p ∉ (purge_dirs_go noFail ⟨g, [], [], []⟩ dd).fs.dirs := by
    intro p hp hne hmem
    have hg : p ∈ g.dirs := purge_dirs_go_dirs_sub noFail dd _ hmem
    have hdd2 : p ∈ dd := (hddchar p).mpr
      ((walk_dirs_mem_iff hwfg.2.2.1).mpr ⟨hg, hp, hne⟩)
    exact (habs p hdd2 p (List.prefix_refl _)).1 hmem
  have hstempty_er_d : ∀ p, er <+: p → p ≠ er →
      p ∉ (purge_dirs_go noFail ⟨g, [], [], []⟩ dd).fs.dirs := by
    intro p hp hne hmem
    exact hempty_dirs p hp hne (purge_dirs_go_dirs_sub noFail dd _ hmem)
  have hstempty_er_f : ∀ p, er <+: p →
      (purge_dirs_go noFail ⟨g, [], [], []⟩ dd).fs.isFile p = false := by
    intro p hp
    cases hb : (purge_dirs_go noFail ⟨g, [], [], []⟩ dd).fs.isFile p with
    | false => rfl
    | true =>
      have := purge_dirs_go_isFile_sub noFail dd _ hb
      rw [hempty_files p hp] at this
      cases this
  have hchild_er : childDirs (purge_dirs_go noFail ⟨g, [], [], []⟩
      dd).fs er = [] := by
    unfold childDirs
    rw [List.filter_eq_nil_iff]
    intro p hp hcond
    rw [Bool.and_eq_true, decide_eq_true_eq] at hcond
    have hpre := List.isPrefixOf_iff_prefix.mp hcond.2
    refine hstempty_er_d p hpre (fun hc => ?_) hp
    rw [hc] at hcond
    omega
  have hfilesIn_er : filesIn (purge_dirs_go noFail ⟨g, [], [], []⟩
      dd).fs er = [] := by
    unfold filesIn
    rw [List.filter_eq_nil_iff]
    intro p hp hcond
    rw [Bool.and_eq_true, decide_eq_true_eq] at hcond
    have hpre := List.isPrefixOf_iff_prefix.mp hcond.2
    have hf : (purge_dirs_go noFail ⟨g, [], [], []⟩ dd).fs.isFile p =
        true := isFile_iff_mem.mpr hp
    rw [hstempty_er_f p hpre] at hf
    cases hf
  have hwalk_er_f : walk (purge_dirs_go noFail ⟨g, [], [], []⟩ dd).fs
      ReadDirType.FilesOnly er = [] := by
    rw [walk_files_of_no_child hchild_er, hfilesIn_er]
  have hchild_vr : childDirs (purge_dirs_go noFail ⟨g, [], [], []⟩
      dd).fs vr = [] := by
    unfold childDirs
    rw [List.filter_eq_nil_iff]
    intro p hp hcond
    rw [Bool.and_eq_true, decide_eq_true_eq] at hcond
    have hpre := List.isPrefixOf_iff_prefix.mp hcond.2
    refine hstempty_d p hpre (fun hc => ?_) hp
    rw [hc] at hcond
    omega
  have hwalk_vr_f : walk (purge_dirs_go noFail ⟨g, [], [], []⟩ dd).fs
      ReadDirType.FilesOnly vr = filesIn (purge_dirs_go noFail
      ⟨g, [], [], []⟩ dd).fs vr := walk_files_of_no_child hchild_vr
  have hfd := get_paths_eq (purge_dirs_go noFail ⟨g, [], [], []⟩ dd).fs
    ReadDirType.FilesOnly er vr
  obtain ⟨fd, hfdv⟩ : ∃ fd, get_paths_in_destinatination_but_not_in_source
      (purge_dirs_go noFail ⟨g, [], [], []⟩ dd).fs
      ReadDirType.FilesOnly er vr = Except.ok fd := ⟨_, hfd⟩
  have hfdchar : ∀ q, q ∈ fd ↔ q ∈ walk (purge_dirs_go noFail
      ⟨g, [], [], []⟩ dd).fs ReadDirType.FilesOnly vr := by
    intro q
    rw [get_paths_mem hfdv q]
    constructor
    · exact fun h => h.1
    · intro h
      refine ⟨h, fun hc => ?_⟩
      rw [hwalk_er_f] at hc
      simp at hc
  have hfdnodup : fd.Nodup := by
    have hfdval := Except.ok.inj (hfd.symm.trans hfdv)
    subst hfdval
    refine sortPaths_nodup ?_
    refine List.Nodup.map_on ?_ ?_
    · intro a ha b hb hab
      exact List.append_cancel_left hab
    · refine List.Nodup.filter _ ?_
      refine List.Nodup.map_on ?_ ?_
      · intro a ha b hb hab
        have hpa : vr <+: a := (walk_strict_descendant ha).1
        have hpb : vr <+: b := (walk_strict_descendant hb).1
        rw [← prefix_append_drop hpa, ← prefix_append_drop hpb,
          hab]
      · rw [hwalk_vr_f]
        exact filesIn_nodup hwfst.2.1 vr
  have herrF : (purge_files_go noFail (purge_dirs_go noFail
      ⟨g, [], [], []⟩ dd).fs fd).2.1 = [] := by
    refine purge_files_go_no_errors noFail fd _ (fun f _ => rfl)
      hfdnodup ?_
    intro f hf
    exact walk_files_isFile ((hfdchar f).mp hf)
  have htn1 : try_new_ok g er = true := decide_eq_true herg
  have htn2 : try_new_ok g vr = true := decide_eq_true hvrg
  have htn3 : try_new_ok (purge_dirs_go noFail ⟨g, [], [], []⟩ dd).fs
      er = true := decide_eq_true herst
  have htn4 : try_new_ok (purge_dirs_go noFail ⟨g, [], [], []⟩ dd).fs
      vr = true := decide_eq_true hvrst
  have hshape : (purge_files_and_dirs_in_destination noFail er vr g).2.2 =
      Except.ok () ∧
      (purge_files_and_dirs_in_destination noFail er vr g).1 =
        (purge_files_go noFail (purge_dirs_go noFail ⟨g, [], [], []⟩
          dd).fs fd).1 ∧
      (∀ m ∈ (purge_files_and_dirs_in_destination noFail er vr g).2.1,
        m ∈ ([Message.Progress (Progress.Start dd.length
            ProgressType.DeletingDirs)] ++
          (purge_dirs_go noFail ⟨g, [], [], []⟩ dd).msgs ++
          [Message.Progress (Progress.End ProgressType.DeletingDirs)]) ++
          [Message.Progress (Progress.Start fd.length
            ProgressType.DeletingFiles)] ++
          (purge_files_go noFail (purge_dirs_go noFail ⟨g, [], [], []⟩
            dd).fs fd).2.2 ++
          [Message.Progress (Progress.End
            ProgressType.DeletingFiles)]) := by
    unfold purge_files_and_dirs_in_destination
    rw [hddv]
    simp only [htn1, htn2, htn3, htn4, Bool.not_true, Bool.false_eq_true,
      if_false]
    rw [hfdv]
    simp only [herrD, herrF, List.isEmpty_nil, Bool.and_self, if_true]
    exact ⟨trivial, trivial, fun m hm => hm⟩
  obtain ⟨hok, hres, hmsgs⟩ := hshape
  have hdirs_eq : (purge_files_and_dirs_in_destination noFail er vr
      g).1.dirs = (purge_dirs_go noFail ⟨g, [], [], []⟩ dd).fs.dirs := by
    rw [hres, purge_files_go_dirs]
  refine ⟨hok, ?_, ?_, ?_, ?_, ?_⟩
  · rw [hdirs_eq]
    exact herst
  · rw [hdirs_eq]
    exact hvrst
  · intro p hp hne
    constructor
    · rw [hdirs_eq]
      exact hstempty_er_d p hp hne
    · cases hb : (purge_files_and_dirs_in_destination noFail er vr
          g).1.isFile p with
      | false => rfl
      | true =>
        rw [hres] at hb
        have := purge_files_go_isFile_sub noFail fd _ hb
        rw [hstempty_er_f p hp] at this
        cases this
  · intro p hp hne
    constructor
    · rw [hdirs_eq]
      exact hstempty_d p hp hne
    · cases hb : (purge_files_and_dirs_in_destination noFail er vr
          g).1.isFile p with
      | false => rfl
      | true =>
        rw [hres] at hb
        have hst := purge_files_go_isFile_sub noFail fd _ hb
        have hmem : p ∈ fd := (hfdchar p).mpr
          ((walk_files_mem_iff hwfst.2.2.1 hwfst.2.2.2.1).mpr
            ⟨hst, hp, hne⟩)
        have := purge_files_go_complete noFail fd _ herrF p hmem
        rw [this] at hb
        cases hb
  · intro m hm s t
    have hmem := hmsgs m hm
    rcases List.mem_append.mp hmem with hm2 | hm2
    · rcases List.mem_append.mp hm2 with hm3 | hm3
      · rcases List.mem_append.mp hm3 with hm4 | hm4
        · rcases List.mem_append.mp hm4 with hm5 | hm5
          · rcases List.mem_append.mp hm5 with hm6 | hm6
            · rw [List.mem_singleton] at hm6
              subst hm6
              simp
            · rcases purge_dirs_go_msgs noFail dd _ hm6 with h | h
              · cases h
              · exact h s t
          · rw [List.mem_singleton] at hm5
            subst hm5
            simp
        · rw [List.mem_singleton] at hm4
          subst hm4
          simp
      · exact purge_files_go_msgs noFail fd _ hm3 s t
    · rw [List.mem_singleton] at hm2
      subst hm2
      simp

theorem backup_empty_source_noop (fail : FailSpec) (er vr : Path) (g : Fs)
    (herg : er ∈ g.dirs)
    (hempty_dirs : ∀ p, er <+: p → p ≠ er → p ∉ g.dirs)
    (hempty_files : ∀ p, er <+: p → g.isFile p = false) :
    backup fail er vr g =
      (g, [Message.Progress (Progress.Start 0
          ProgressType.CreatingDirectories),
        Message.Progress (Progress.End ProgressType.CreatingDirectories),
        Message.Progress (Progress.Start 0 ProgressType.CopingFiles),
        Message.Progress (Progress.End ProgressType.CopingFiles)],
        Except.ok ()) := by
  have htn : try_new_ok g er = true := decide_eq_true herg
  have hchild : childDirs g er = [] := by
    unfold childDirs
    rw [List.filter_eq_nil_iff]
    intro p hp hcond
    rw [Bool.and_eq_true, decide_eq_true_eq] at hcond
    have hpre := List.isPrefixOf_iff_prefix.mp hcond.2
    refine hempty_dirs p hpre (fun hc => ?_) hp
    rw [hc] at hcond
    omega
  have hfilesIn : filesIn g er = [] := by
    unfold filesIn
    rw [List.filter_eq_nil_iff]
    intro p hp hcond
    rw [Bool.and_eq_true, decide_eq_true_eq] at hcond
    have hpre := List.isPrefixOf_iff_prefix.mp hcond.2
    have hf : g.isFile p = true := isFile_iff_mem.mpr hp
    rw [hempty_files p hpre] at hf
    cases hf
  have hwD : walk g ReadDirType.DirectoriesOnly er = [] :=
    walk_dirs_of_no_child hchild
  have hwF : walk g ReadDirType.FilesOnly er = [] := by
    rw [walk_files_of_no_child hchild, hfilesIn]
  have hpd : processDirs fail er vr g [] [] = ⟨g, [], [], []⟩ := rfl
  unfold backup create_all_directories_in_destination backup_all_files
  simp only [htn, Bool.not_true, Bool.false_eq_true, if_false, hwD, hwF,
    hpd, List.filterMap_nil, List.append_nil, List.isEmpty_nil, if_true]
  rfl

/-- C9: a `Restore{source, dest, delete_files: true}` whose source root is
an existing directory and whose destination root does not yet exist
succeeds: validation creates the destination root as an empty directory,
the mirror/copy phase (which reads the fresh destination) copies nothing,
and the purge phase deletes every directory and file strictly below the
source root while both roots survive. -/
theorem restore_with_delete_into_fresh_destination (src dst : Path)
    (fs : Fs) (hwf : wellFormed fs) (hinc : rootsIncomparable src dst)
    (hsrc : src ∈ fs.dirs) (hdst : fs.pathExists dst = false)
    (hguard : ((List.range (dst.length + 1)).map dst.take).any fs.isFile =
      false) :
    (run noFail (Command.Restore src dst true) fs).2.2 = Except.ok () ∧
    dst ∈ (run noFail (Command.Restore src dst true) fs).1.dirs ∧
    src ∈ (run noFail (Command.Restore src dst true) fs).1.dirs ∧
    (∀ p, dst <+: p → p ≠ dst →
      p ∉ (run noFail (Command.Restore src dst true) fs).1.dirs ∧
      (run noFail (Command.Restore src dst true) fs).1.isFile p =
        false) ∧
    (∀ p, src <+: p → p ≠ src →
      p ∉ (run noFail (Command.Restore src dst true) fs).1.dirs ∧
      (run noFail (Command.Restore src dst true) fs).1.isFile p =
        false) ∧
    (∀ s t, Message.Info (Info.StartCopingFile s t) ∉
      (run noFail (Command.Restore src dst true) fs).2.1) := by
  have hps : fs.pathExists src = true := by
    unfold Fs.pathExists
    have hd : fs.isDir src = true := decide_eq_true hsrc
    rw [hd]
    rfl
  have hguard' : (noFail.create_dir_all dst ||
      ((List.range (dst.length + 1)).map dst.take).any fs.isFile) =
      false := by
    rw [hguard]
    rfl
  have hv := validate_fresh noFail hps hdst hguard'
  have hnof : ∀ p, p <+: dst → fs.isFile p = false := by
    intro p hp
    rw [List.any_eq_false] at hguard
    have hpm : p ∈ (List.range (dst.length + 1)).map dst.take := by
      rw [List.mem_map]
      refine ⟨p.length, ?_, ?_⟩
      · rw [List.mem_range]
        exact Nat.lt_succ_of_le hp.length_le
      · rw [← List.prefix_iff_eq_take.mp hp]
    exact Bool.eq_false_iff.mpr (hguard p hpm)
  have hwf₁ : wellFormed (fs.addDirAll dst) := wf_addDirAll hwf hnof
  have hdst₁ : dst ∈ (fs.addDirAll dst).dirs :=
    mem_addDirAll_dirs.mpr (Or.inr (List.prefix_refl _))
  have hsrc₁ : src ∈ (fs.addDirAll dst).dirs :=
    mem_addDirAll_dirs.mpr (Or.inl hsrc)
  have hdstnotfs : dst ∉ fs.dirs := by
    intro hc
    have hpe : fs.pathExists dst = true := by
      unfold Fs.pathExists
      have hd : fs.isDir dst = true := decide_eq_true hc
      rw [hd]
      rfl
    rw [hdst] at hpe
    cases hpe
  have hempty_d₁ : ∀ p, dst <+: p → p ≠ dst →
      p ∉ (fs.addDirAll dst).dirs := by
    intro p hp hne hmem
    rcases mem_addDirAll_dirs.mp hmem with hm | hm
    · exact hdstnotfs (prefix_mem_dirs hwf.2.2.1 hm hp)
    · exact hne (List.IsPrefix.eq_of_length hm
        (Nat.le_antisymm hm.length_le hp.length_le))
  have hempty_f₁ : ∀ p, dst <+: p →
      (fs.addDirAll dst).isFile p = false := by
    intro p hp
    have hiso : (fs.addDirAll dst).isFile p = fs.isFile p :=
      isFile_eq_of_lookup_eq
        (lookup_congr_files (addDirAll_files fs dst) p)
    rw [hiso]
    cases hb : fs.isFile p with
    | false => rfl
    | true =>
      exfalso
      obtain ⟨hne', hpar⟩ := hwf.2.2.2.1 p (isFile_iff_mem.mp hb)
      by_cases hpd : p = dst
      · subst hpd
        have hpe : fs.pathExists p = true := by
          unfold Fs.pathExists
          rw [hb, Bool.or_true]
        rw [hdst] at hpe
        cases hpe
      · have hlt : dst.length < p.length :=
          length_lt_of_proper hp (fun hc => hpd hc.symm)
        exact hdstnotfs (prefix_mem_dirs hwf.2.2.1 hpar
          (prefix_dropLast_of_length_lt hp hlt))
  have hb := backup_empty_source_noop noFail dst src (fs.addDirAll dst)
    hdst₁ hempty_d₁ hempty_f₁
  obtain ⟨hpok, hdstP, hsrcP, hPer, hPvr, hPmsgs⟩ :=
    purge_with_empty_source_root_empties_destination dst src
      (fs.addDirAll dst) hwf₁ hinc hsrc₁ hdst₁ hempty_d₁ hempty_f₁
  refine ⟨?_, ?_, ?_, ?_, ?_, ?_⟩
  · simp only [run, hv, hb, if_true]
    exact hpok
  · simp only [run, hv, hb, if_true]
    exact hdstP
  · simp only [run, hv, hb, if_true]
    exact hsrcP
  · intro p hp hne
    have h := hPer p hp hne
    refine ⟨?_, ?_⟩
    · simp only [run, hv, hb, if_true]
      exact h.1
    · simp only [run, hv, hb, if_true]
      exact h.2
  · intro p hp hne
    have h := hPvr p hp hne
    refine ⟨?_, ?_⟩
    · simp only [run, hv, hb, if_true]
      exact h.1
    · simp only [run, hv, hb, if_true]
      exact h.2
  · intro s t hmem
    simp only [run, hv, hb, if_true] at hmem
    rcases List.mem_append.mp hmem with hm | hm
    · rcases List.mem_append.mp hm with hm | hm
      · simp at hm
      · simp at hm
    · exact hPmsgs _ hm s t rfl

/-- Witness for C4: the concrete `Sync` of `sampleFs` succeeds and the
theorem instantiated at `rel = ["a"]` relates the two subtrees of the
resulting snapshot `fsMirror`. -/
theorem sync_success_relative_paths_equal_witness :
    (["d"] ++ ["a"] ∈ fsMirror.dirs ↔ ["s"] ++ ["a"] ∈ fsMirror.dirs) ∧
    (fsMirror.isFile (["d"] ++ ["a"]) = true ↔
      fsMirror.isFile (["s"] ++ ["a"]) = true) :=
  sync_success_relative_paths_equal noFail ["s"] ["d"] sampleFs fsMirror
    [Message.Progress (Progress.Start 1 ProgressType.CreatingDirectories),
     Message.Info (Info.StartCreatingDir ["s", "a"] ["d", "a"]),
     Message.Progress (Progress.Increment
       (Increment.DirCreated ["s", "a"] ["d", "a"])),
     Message.Progress (Progress.End ProgressType.CreatingDirectories),
     Message.Progress (Progress.Start 2 ProgressType.CopingFiles),
     Message.Info (Info.StartCopingFile ["s", "f"] ["d", "f"]),
     Message.Progress (Progress.Increment
       (Increment.FileCopied ["s", "f"] ["d", "f"])),
     Message.Info (Info.StartCopingFile ["s", "a", "g"] ["d", "a", "g"]),
     Message.Progress (Progress.Increment
       (Increment.FileCopied ["s", "a", "g"] ["d", "a", "g"])),
     Message.Progress (Progress.End ProgressType.CopingFiles),
     Message.Progress (Progress.Start 0 ProgressType.DeletingDirs),
     Message.Progress (Progress.End ProgressType.DeletingDirs),
     Message.Progress (Progress.Start 0 ProgressType.DeletingFiles),
     Message.Progress (Progress.End ProgressType.DeletingFiles)]
    (by decide) (by decide) rfl ["a"] (by decide)

/-- Witness for C8: after the concrete first `Backup` of `sampleFs`
producing `fsMirror`, the second run leaves the snapshot unchanged,
succeeds and sends no `StartCopingFile` message. -/
theorem backup_second_run_copies_nothing_witness :
    (run noFail (Command.Backup ["s"] ["d"]) fsMirror).1 = fsMirror ∧
    (run noFail (Command.Backup ["s"] ["d"]) fsMirror).2.2 =
      Except.ok () ∧
    Message.Info (Info.StartCopingFile ["s", "f"] ["d", "f"]) ∉
      (run noFail (Command.Backup ["s"] ["d"]) fsMirror).2.1 := by
  have h := backup_second_run_copies_nothing ["s"] ["d"] sampleFs fsMirror
    [Message.Progress (Progress.Start 1 ProgressType.CreatingDirectories),
     Message.Info (Info.StartCreatingDir ["s", "a"] ["d", "a"]),
     Message.Progress (Progress.Increment
       (Increment.DirCreated ["s", "a"] ["d", "a"])),
     Message.Progress (Progress.End ProgressType.CreatingDirectories),
     Message.Progress (Progress.Start 2 ProgressType.CopingFiles),
     Message.Info (Info.StartCopingFile ["s", "f"] ["d", "f"]),
     Message.Progress (Progress.Increment
       (Increment.FileCopied ["s", "f"] ["d", "f"])),
     Message.Info (Info.StartCopingFile ["s", "a", "g"] ["d", "a", "g"]),
     Message.Progress (Progress.Increment
       (Increment.FileCopied ["s", "a", "g"] ["d", "a", "g"])),
     Message.Progress (Progress.End ProgressType.CopingFiles)]
    (by decide) (by decide) rfl
  exact ⟨h.1, h.2.1, h.2.2 ["s", "f"] ["d", "f"]⟩

/-- Witness for C9: restoring `sampleFs` with source root `["s"]` into the
fresh destination root `["e"]` with `delete_files` set succeeds, creates
`["e"]` empty and empties the subtree of `["s"]`. -/
theorem restore_with_delete_into_fresh_destination_witness :
    (run noFail (Command.Restore ["s"] ["e"] true) sampleFs).2.2 =
      Except.ok () ∧
    ["e"] ∈ (run noFail (Command.Restore ["s"] ["e"] true)
      sampleFs).1.dirs ∧
    ["s"] ∈ (run noFail (Command.Restore ["s"] ["e"] true)
      sampleFs).1.dirs ∧
    (["s", "a"] ∉ (run noFail (Command.Restore ["s"] ["e"] true)
      sampleFs).1.dirs ∧
      (run noFail (Command.Restore ["s"] ["e"] true)
        sampleFs).1.isFile ["s", "a"] = false) ∧
    (run noFail (Command.Restore ["s"] ["e"] true)
      sampleFs).1.isFile ["s", "f"] = false ∧
    Message.Info (Info.StartCopingFile ["s", "f"] ["e", "f"]) ∉
      (run noFail (Command.Restore ["s"] ["e"] true) sampleFs).2.1 := by
  have h := restore_with_delete_into_fresh_destination ["s"] ["e"]
    sampleFs (by decide) (by decide) (by decide) (by decide) (by decide)
  exact ⟨h.1, h.2.1, h.2.2.1,
    h.2.2.2.2.1 ["s", "a"] (by decide) (by decide),
    (h.2.2.2.2.1 ["s", "f"] (by decide) (by decide)).2,
    h.2.2.2.2.2 ["s", "f"] ["e", "f"]⟩

end Safeall

